import Mathlib

/-
Verification of the kaybee knowledge-graph engine (src/kaybee/core.py,
src/kaybee/constraints.py) against its natural-language specification.

The embedding models Python strings as lists of characters (`Str`), the
SQLite store as explicit record state (`KG`), and each engine operation as
a pure state-passing function translated statement by statement from the
source.  Modelling notes:

* Python `str.splitlines` is modelled for the newline character only; the
  engine never feeds other line separators through the splitting code in
  the situations covered by the theorems below.
* `str.isalnum` / `str.lower` are modelled by the ASCII
  `Char.isAlphanum` / `Char.toLower`.
* SQLite itself is modelled as an abstract table store in which `CREATE
  TABLE` and `ALTER TABLE` always succeed; identifier/keyword collisions
  that surface as `sqlite3.OperationalError` (documented in the spec as
  StorageError) are outside the model.  A duplicate column name in an
  INSERT column list is modelled as a storage error.
* Exceptions are modelled by returning `(some error, state-at-raise)`;
  commits are no-ops because the model describes the view of the single
  connection, not durability.
-/

set_option autoImplicit false

namespace Kaybee

/-- Python strings, modelled as lists of characters. -/
abbrev Str := List Char

/-- Shorthand for embedding a Lean string literal as a `Str`. -/
def strLit (s : String) : Str := s.data

/-- The single-quote character, used by the YAML-subset parser. -/
def squote : Char := Char.ofNat 39

/-- Python `str.strip()` from the left: drop leading whitespace. -/
def pyStripLeft (s : Str) : Str := s.dropWhile Char.isWhitespace

/-- Python `str.strip()` from the right: drop trailing whitespace. -/
def pyStripRight (s : Str) : Str := (s.reverse.dropWhile Char.isWhitespace).reverse

/-- Python `str.strip()`: drop whitespace on both ends. -/
def pyStrip (s : Str) : Str := pyStripRight (pyStripLeft s)

/-- Python `str.strip("-")`: drop hyphens on both ends. -/
def stripDash (s : Str) : Str :=
  ((s.dropWhile (· = '-')).reverse.dropWhile (· = '-')).reverse

/-- Python `str.lstrip("\n")`. -/
def lstripNl (s : Str) : Str := s.dropWhile (· = '\n')

/-- Python `str.splitlines` restricted to the newline character, with the
accumulator holding the current line in reverse. -/
def splitlinesAux : Str → Str → List Str
  | cur, [] => [cur.reverse]
  | cur, c :: rest =>
    if c = '\n' then
      match rest with
      | [] => [cur.reverse]
      | _ => cur.reverse :: splitlinesAux [] rest
    else
      splitlinesAux (c :: cur) rest

/-- Python `str.splitlines` (newline-only model): `""` gives `[]`, a
trailing newline produces no final empty line. -/
def splitlinesPy (s : Str) : List Str :=
  match s with
  | [] => []
  | _ => splitlinesAux [] s

/-- Helper for Python `str.find`: first index (counting from `i`) at which
`needle` occurs in the remaining text, or `none`. -/
def findSubAux (needle : Str) : Str → Nat → Option Nat
  | [], i => if needle = [] then some i else none
  | c :: rest, i =>
    if needle.isPrefixOf (c :: rest) then some i else findSubAux needle rest (i + 1)

/-- Python `hay.find(needle, start)`, with `none` for `-1`. -/
def findSub (needle hay : Str) (start : Nat) : Option Nat :=
  (findSubAux needle (hay.drop start) 0).map (· + start)

/-- Python `needle in hay` substring containment. -/
def hasSub (needle hay : Str) : Bool := (findSubAux needle hay 0).isSome

/-- Join a list of lines with newlines, as Python `"\n".join(lines)`. -/
def joinNl (lines : List Str) : Str := List.intercalate ['\n'] lines

/-- Characters kept verbatim by `slugify` (core.py line 33). -/
def keepChar (c : Char) : Bool := c.isAlphanum || c = '_' || c = '.'

/-- The character-walking loop of `slugify` (core.py lines 30-39).
`prevSep` is the `prev_sep` flag; `started` tracks `out` being nonempty. -/
def slugChars : Str → Bool → Bool → Str
  | [], _, _ => []
  | c :: cs, prevSep, started =>
    if keepChar c then c :: slugChars cs false true
    else if !prevSep && started then '-' :: slugChars cs true started
    else slugChars cs prevSep started

/-- core.py `slugify`: strip, lowercase, walk characters, trim hyphens,
fall back to `"item"`. -/
def slugify (value : Str) : Str :=
  let text := (pyStrip value).map Char.toLower
  let result := stripDash (slugChars text false false)
  if result = [] then strLit "item" else result

/-- Specification-side run collapsing for C7: each maximal run of
non-kept characters becomes a single hyphen (`inSep` marks being inside
such a run). -/
def collapseAux : Str → Bool → Str
  | [], _ => []
  | c :: cs, inSep =>
    if keepChar c then c :: collapseAux cs false
    else if inSep then collapseAux cs true
    else '-' :: collapseAux cs true

/-- Specification-side slugify for C7, following the spec text: strip
outer whitespace, fold to lowercase, replace each maximal run of
non-alphanumeric (other than `_` and `.`) characters by one hyphen, trim
hyphens at both ends, and yield `"item"` for an empty result. -/
def slugifySpecFn (value : Str) : Str :=
  let text := (pyStrip value).map Char.toLower
  let result := stripDash (collapseAux text false)
  if result = [] then strLit "item" else result

/-- The matcher of core.py `_WIKILINK_RE` = `\[\[([^\]]+)\]\]`, with fuel
(each step shortens the text, so `length + 1` fuel is exact). -/
def extractAux : Nat → Str → List Str
  | 0, _ => []
  | fuel + 1, s =>
    match s with
    | [] => []
    | '[' :: '[' :: rest =>
      let inner := rest.takeWhile (· ≠ ']')
      let after := rest.dropWhile (· ≠ ']')
      if inner ≠ [] ∧ (strLit "]]").isPrefixOf after then
        inner :: extractAux fuel (after.drop 2)
      else
        extractAux fuel ('[' :: rest)
    | _ :: rest => extractAux fuel rest

/-- core.py `extract_wikilinks`: all `[[target]]` occurrences in order. -/
def extract_wikilinks (s : Str) : List Str := extractAux (s.length + 1) s

/-- A frontmatter attribute value: scalar string, list of strings, or
one-level map (the three shapes produced by `_parse_yaml_subset`). -/
inductive Value where
  | s (v : Str)
  | l (items : List Str)
  | m (pairs : List (Str × Str))
deriving DecidableEq

/-- Attribute maps: insertion-ordered association lists mirroring Python
dicts. -/
abbrev AList := List (Str × Value)

/-- First-match association-list lookup. -/
def lookupA {α : Type} : List (Str × α) → Str → Option α
  | [], _ => none
  | (k0, v0) :: rest, k => if k0 = k then some v0 else lookupA rest k

/-- Python dict assignment `d[k] = v`: replace in place on the first
matching key, append otherwise. -/
def insertRep {α : Type} (k : Str) (v : α) : List (Str × α) → List (Str × α)
  | [] => [(k, v)]
  | (k0, v0) :: rest => if k0 = k then (k0, v) :: rest else (k0, v0) :: insertRep k v rest

/-- core.py `_unquote`: remove one matching pair of surrounding quotes. -/
def unquote (v : Str) : Str :=
  match v with
  | [] => []
  | c :: rest =>
    if rest ≠ [] ∧ ((c = '"' ∧ rest.getLast? = some '"') ∨ (c = squote ∧ rest.getLast? = some squote)) then
      rest.dropLast
    else v

/-- core.py `_split_yaml_list` inner loop; `current` is reversed. -/
def splitYamlListAux : Str → Option Char → Str → List Str
  | [], _, current => if current ≠ [] then [pyStrip current.reverse] else []
  | c :: rest, some q, current =>
    splitYamlListAux rest (if c = q then none else some q) (c :: current)
  | c :: rest, none, current =>
    if c = '"' ∨ c = squote then splitYamlListAux rest (some c) (c :: current)
    else if c = ',' then pyStrip current.reverse :: splitYamlListAux rest none []
    else splitYamlListAux rest none (c :: current)

/-- core.py `_split_yaml_list`: split an inline-list body on commas
outside quotes. -/
def splitYamlList (s : Str) : List Str := splitYamlListAux s none []

/-- core.py `_parse_yaml_value`: inline list or (unquoted) scalar. -/
def parseYamlValue (val : Str) : Value :=
  if val.head? = some '[' ∧ val.getLast? = some ']' then
    let inner := pyStrip (val.dropLast.drop 1)
    if inner = [] then .l []
    else .l ((splitYamlList inner).map fun item => unquote (pyStrip item))
  else .s (unquote val)

/-- core.py lines 89-92: strip a trailing ` #comment` from an inline
value unless it starts with a bracket or quote. -/
def stripInlineComment (rest : Str) : Str :=
  if rest ≠ [] ∧ rest.head? ≠ some '[' ∧ rest.head? ≠ some '"' ∧ rest.head? ≠ some squote then
    match findSub (strLit " #") rest 0 with
    | some i => pyStrip (rest.take i)
    | none => rest
  else rest

/-- core.py lines 103-117: collect the indented block after a bare
`key:` line, returning the collected lines and the remaining lines.
Blank lines and unindented non-comment lines stop the scan; comment
lines are skipped without being collected. -/
def blockSpan : List Str → List Str × List Str
  | [] => ([], [])
  | b :: r =>
    let bs := pyStrip b
    if bs = [] then ([], b :: r)
    else if bs.head? ≠ some '#' ∧ (b.head?.all fun c => !c.isWhitespace) then ([], b :: r)
    else if bs.head? = some '#' then blockSpan r
    else
      let (cs, rem) := blockSpan r
      (b :: cs, rem)

/-- core.py lines 119-141: interpret a collected block as a list, a
one-level map, or a single indented scalar. -/
def blockValue (collected : List Str) : Value :=
  let isList := collected.any fun bl => (strLit "- ").isPrefixOf (pyStrip bl)
  let isDict := collected.any fun bl =>
    hasSub [':'] (pyStrip bl) ∧ ¬(strLit "- ").isPrefixOf (pyStrip bl)
  if isList then
    .l (collected.filterMap fun bl =>
      let bs := pyStrip bl
      if (strLit "- ").isPrefixOf bs then some (unquote (pyStrip (bs.drop 2))) else none)
  else if isDict then
    .m (collected.foldl (fun sub bl =>
      let bs := pyStrip bl
      match findSub [':'] bs 0 with
      | some sc => insertRep (pyStrip (bs.take sc)) (unquote (pyStrip (bs.drop (sc + 1)))) sub
      | none => sub) [])
  else
    match collected with
    | bl :: _ => .s (unquote (pyStrip bl))
    | [] => .s []

/-- core.py `_parse_yaml_subset` main loop, processed line by line with
fuel (each step consumes at least one line, so `length + 1` fuel is
exact).  `acc` is the result dict built so far. -/
def parseYamlAux : Nat → List Str → AList → AList
  | 0, _, acc => acc
  | fuel + 1, lines, acc =>
    match lines with
    | [] => acc
    | line :: rest =>
      let stripped := pyStrip line
      if stripped = [] ∨ stripped.head? = some '#' then parseYamlAux fuel rest acc
      else
        match findSub [':'] stripped 0 with
        | none => parseYamlAux fuel rest acc
        | some colon =>
          let key := pyStrip (stripped.take colon)
          let restv := stripInlineComment (pyStrip (stripped.drop (colon + 1)))
          if restv ≠ [] then
            parseYamlAux fuel rest (insertRep key (parseYamlValue restv) acc)
          else
            let (items, rem) := blockSpan rest
            parseYamlAux fuel rem (insertRep key (blockValue items) acc)

/-- core.py `_parse_yaml_subset`. -/
def parseYamlSubset (lines : List Str) : AList := parseYamlAux (lines.length + 1) lines []

/-- core.py `parse_frontmatter`: split the `---` fenced header from the
body.  Follows the source exactly: the opening test is
`text.startswith("---")` and the closing fence is the first occurrence
of `"\n---"` at index 3 or later. -/
def parse_frontmatter (text : Str) : AList × Str :=
  if (strLit "---").isPrefixOf text then
    match findSub (strLit "\n---") text 3 with
    | none => ([], text)
    | some e =>
      let yaml := pyStrip ((text.take e).drop 3)
      let body := lstripNl (text.drop (e + 4))
      (parseYamlSubset (splitlinesPy yaml), body)
  else ([], text)

/-- core.py `KnowledgeGraph._reconstruct` per-key rendering. -/
def renderValueLines (key : Str) : Value → List Str
  | .l items => [key ++ strLit ": [" ++ List.intercalate (strLit ", ") items ++ [']']]
  | .m pairs => (key ++ [':']) :: pairs.map fun p => strLit "  " ++ p.1 ++ strLit ": " ++ p.2
  | .s v => [key ++ strLit ": " ++ v]

/-- core.py `KnowledgeGraph._reconstruct`: re-emit frontmatter plus
body. -/
def reconstruct (meta : AList) (body : Str) : Str :=
  if meta = [] then body
  else
    joinNl ([strLit "---"] ++ (meta.flatMap fun kv => renderValueLines kv.1 kv.2)
      ++ [strLit "---"] ++ (if body ≠ [] then [body] else []))

/-- Hexadecimal digit for `json.dumps` escape sequences. -/
def hexDigit (n : Nat) : Char :=
  if n < 10 then Char.ofNat (48 + n) else Char.ofNat (87 + n)

/-- Escape one character as Python `json.dumps` (default `ensure_ascii`)
does: printable ASCII verbatim, known short escapes, `\u00XX` for the
rest (basic-multilingual-plane model). -/
def jsonEscapeChar (c : Char) : Str :=
  if c = '"' then ['\\', '"']
  else if c = '\\' then ['\\', '\\']
  else if c = '\n' then ['\\', 'n']
  else if c = '\t' then ['\\', 't']
  else if c = '\r' then ['\\', 'r']
  else if 32 ≤ c.toNat ∧ c.toNat ≤ 126 then [c]
  else
    let n := c.toNat
    ['\\', 'u', hexDigit (n / 4096 % 16), hexDigit (n / 256 % 16),
      hexDigit (n / 16 % 16), hexDigit (n % 16)]

/-- `json.dumps` of a string. -/
def jsonQuote (s : Str) : Str := '"' :: s.flatMap jsonEscapeChar ++ ['"']

/-- `json.dumps` of a list of strings (default separators). -/
def jsonEncList (items : List Str) : Str :=
  '[' :: List.intercalate (strLit ", ") (items.map jsonQuote) ++ [']']

/-- `json.dumps` of a flat string-to-string dict (default separators). -/
def jsonEncObj (pairs : List (Str × Str)) : Str :=
  Char.ofNat 123 :: List.intercalate (strLit ", ")
    (pairs.map fun p => jsonQuote p.1 ++ strLit ": " ++ jsonQuote p.2) ++ [Char.ofNat 125]

/-- How `_upsert_type_row` serializes one attribute value into a cell:
`json.dumps` for lists and dicts, `str` (identity on strings) for
scalars. -/
def encodeCell : Value → Str
  | .s v => v
  | .l items => jsonEncList items
  | .m pairs => jsonEncObj pairs

/-- JSON whitespace skipping (`json.loads` tolerates it). -/
def jsonSkipWs (s : Str) : Str :=
  s.dropWhile fun c => c = ' ' ∨ c = '\t' ∨ c = '\n' ∨ c = '\r'

/-- Parse the remainder of a JSON string after the opening quote,
returning the decoded contents and the rest of the input. -/
def jsonStrAux : Nat → Str → Option (Str × Str)
  | 0, _ => none
  | _ + 1, [] => none
  | fuel + 1, c :: rest =>
    if c = '"' then some ([], rest)
    else if c = '\\' then
      match rest with
      | e :: rest2 =>
        let dec : Option Char :=
          if e = '"' then some '"'
          else if e = '\\' then some '\\'
          else if e = '/' then some '/'
          else if e = 'n' then some '\n'
          else if e = 't' then some '\t'
          else if e = 'r' then some '\r'
          else none
        match dec with
        | some d =>
          match jsonStrAux fuel rest2 with
          | some (cs, rem) => some (d :: cs, rem)
          | none => none
        | none => none
      | [] => none
    else if c.toNat < 32 then none
    else
      match jsonStrAux fuel rest with
      | some (cs, rem) => some (c :: cs, rem)
      | none => none

/-- Parse one JSON string token (with optional leading whitespace). -/
def jsonStrTok (s : Str) : Option (Str × Str) :=
  match jsonSkipWs s with
  | '"' :: rest => jsonStrAux (rest.length + 1) rest
  | _ => none

/-- Parse the items of a JSON array of strings after the first item
position; expects `items` nonempty handled by caller. -/
def jsonListItemsAux : Nat → Str → Option (List Str × Str)
  | 0, _ => none
  | fuel + 1, s =>
    match jsonStrTok s with
    | none => none
    | some (item, rest) =>
      match jsonSkipWs rest with
      | ',' :: rest2 =>
        match jsonListItemsAux fuel rest2 with
        | some (items, rem) => some (item :: items, rem)
        | none => none
      | ']' :: rest2 => some ([item], rest2)
      | _ => none

/-- Parse the members of a JSON object of string values, first member
position. -/
def jsonObjItemsAux : Nat → Str → Option (List (Str × Str) × Str)
  | 0, _ => none
  | fuel + 1, s =>
    match jsonStrTok s with
    | none => none
    | some (key, rest) =>
      match jsonSkipWs rest with
      | ':' :: rest2 =>
        match jsonStrTok rest2 with
        | none => none
        | some (v, rest3) =>
          match jsonSkipWs rest3 with
          | ',' :: rest4 =>
            match jsonObjItemsAux fuel rest4 with
            | some (pairs, rem) => some ((key, v) :: pairs, rem)
            | none => none
          | c :: rest4 => if c = Char.ofNat 125 then some ([(key, v)], rest4) else none
          | [] => none
      | _ => none

/-- The fragment of `json.loads` relevant to `_read_node_data`: decode a
cell as a JSON list or object whose leaves are strings.  Any other JSON
document (and any parse failure) yields `none`, in which case the engine
keeps the raw cell text.  The engine itself only ever stores string
leaves, so this matches `isinstance(candidate, (list, dict))` on every
cell it writes. -/
def jsonListOrDict (s : Str) : Option Value :=
  match jsonSkipWs s with
  | '[' :: rest =>
    (match jsonSkipWs rest with
     | ']' :: rest2 => if jsonSkipWs rest2 = [] then some (.l []) else none
     | _ =>
       match jsonListItemsAux (rest.length + 1) rest with
       | some (items, rem) => if jsonSkipWs rem = [] then some (.l items) else none
       | none => none)
  | c :: rest =>
    if c = Char.ofNat 123 then
      match jsonSkipWs rest with
      | c2 :: rest2 =>
        if c2 = Char.ofNat 125 then
          if jsonSkipWs rest2 = [] then some (.m []) else none
        else
          match jsonObjItemsAux (rest.length + 1) rest with
          | some (pairs, rem) => if jsonSkipWs rem = [] then some (.m pairs) else none
          | none => none
      | [] => none
    else none
  | [] => none

/-- core.py lines 353-362: decode a stored cell, preferring a JSON
list/dict decode and otherwise keeping the raw string. -/
def decodeCell (v : Str) : Value :=
  match jsonListOrDict v with
  | some x => x
  | none => .s v

example : decodeCell (jsonEncList [strLit "a, b"]) = .l [strLit "a, b"] := by decide
example : decodeCell (strLit "plain") = .s (strLit "plain") := by decide
example : decodeCell (jsonEncObj [(strLit "a", strLit "b")]) = .m [(strLit "a", strLit "b")] := by decide

/-- A validation violation (constraints.py `Violation`). -/
structure Violation where
  node : Str
  rule : Str
  message : Str
deriving DecidableEq

/-- A validator rule (constraints.py `RuleTuple`): type filter, check
function and structural flag.  Structural checks only receive the name
and attribute map (the store argument is `None` on the gatekeeper
path). -/
structure Rule where
  tfilter : Option Str
  check : Str → AList → List Violation
  structural : Bool

/-- A `_links` row (schema: source_name, target_name, target_resolved,
context). -/
structure LinkRow where
  source : Str
  target : Str
  resolved : Option Str
  context : Str
deriving DecidableEq

/-- One row of a type table: primary key `name`, `content`, and the
attribute cells (absent key = SQL NULL). -/
structure Row where
  rname : Str
  content : Str
  cells : List (Str × Str)
deriving DecidableEq

/-- A type table: attribute columns (beyond `name`/`content`) in
creation order, plus rows. -/
structure Table where
  cols : List Str
  rows : List Row
deriving DecidableEq

/-- Errors surfaced by the engine, by Python exception class. -/
inductive KgError where
  | notFound (name : Str)
  | alreadyExists (name : Str)
  | valueError
  | typeError
  | storageError
  | validation (violations : List Violation)
deriving DecidableEq

/-- The store state seen through one connection: the `nodes` index, the
`_types` registry, the `_links` table, the per-type data tables keyed by
sanitized table name, and the optionally attached validator. -/
structure KG where
  nodes : List (Str × Str)
  typesReg : List Str
  links : List LinkRow
  tables : List (Str × Table)
  validator : Option (List Rule)

/-- The implicit type tag. -/
def kaybeeStr : Str := strLit "kaybee"

/-- The `type` attribute key. -/
def typeStr : Str := strLit "type"

/-- `_RESERVED_TYPE_NAMES` (core.py line 215). -/
def reservedTypeNames : List Str := [strLit "nodes", strLit "_types", strLit "_links"]

/-- A fresh store as `_init_schema` creates it. -/
def KG.init : KG :=
  { nodes := [], typesReg := [], links := [], tables := [(kaybeeStr, ⟨[], []⟩)],
    validator := none }

/-- core.py `_safe_ident`: map every character outside `[A-Za-z0-9_]`
to `_`. -/
def safe_ident (s : Str) : Str :=
  s.map fun c => if c.isAlphanum || c = '_' then c else '_'

/-- SQLite `INSERT OR REPLACE` into `nodes`: the replaced row moves to
the end (fresh rowid). -/
def nodeUpsert (nodes : List (Str × Str)) (name typeName : Str) : List (Str × Str) :=
  nodes.filter (fun p => p.1 ≠ name) ++ [(name, typeName)]

/-- Update the table stored under `key` in place (no-op when absent,
mirroring the `except sqlite3.OperationalError: pass` guards). -/
def updateTable (tables : List (Str × Table)) (key : Str) (f : Table → Table) :
    List (Str × Table) :=
  tables.map fun p => if p.1 = key then (p.1, f p.2) else p

/-- `SELECT ... WHERE name = ?` returning the first matching row. -/
def rowFind (rows : List Row) (n : Str) : Option Row := rows.find? fun r => r.rname = n

/-- `INSERT OR REPLACE` of a data row (delete plus insert at the end). -/
def rowReplace (rows : List Row) (r : Row) : List Row :=
  rows.filter (fun r0 => r0.rname ≠ r.rname) ++ [r]

/-- core.py `KnowledgeGraph.exists`. -/
def KG.existsNode (db : KG) (name : Str) : Bool := (lookupA db.nodes name).isSome

/-- core.py `resolve_wikilink`: exact match against the node index, then
(if fuzzy) the first node whose slug equals the slug of the request. -/
def KG.resolveWikilink (db : KG) (name : Str) (fuzzy : Bool) : Option Str :=
  match lookupA db.nodes name with
  | some _ => some name
  | none =>
    if !fuzzy then none
    else
      let target := slugify name
      (db.nodes.find? fun p => slugify p.1 = target).map (·.1)

/-- core.py `_ensure_type_table`: reserved-name guard, lazy `CREATE
TABLE`, lazy `ALTER TABLE ADD COLUMN` for new keys. -/
def KG.ensureTypeTable (db : KG) (typeName : Str) (keys : List Str) : Except KgError KG :=
  let safe := safe_ident typeName
  if typeName ≠ kaybeeStr ∧ typeName ∈ reservedTypeNames then .error .valueError
  else if typeName = kaybeeStr ∧ safe ≠ kaybeeStr then .error .valueError
  else
    let tables :=
      if (lookupA db.tables safe).isSome then db.tables else db.tables ++ [(safe, ⟨[], []⟩)]
    let tables := updateTable tables safe fun tbl =>
      { tbl with
        cols := keys.foldl (fun cs k =>
          let col := safe_ident k
          if col = strLit "name" ∨ col = strLit "content" ∨ col ∈ cs then cs
          else cs ++ [col]) tbl.cols }
    .ok { db with tables := tables }

/-- The attribute keys stored by `_upsert_type_row` (`type` excluded). -/
def metaKeys (meta : AList) : List Str :=
  (meta.filter fun kv => kv.1 ≠ typeStr).map (·.1)

/-- core.py `_upsert_type_row`: ensure the table, then `INSERT OR
REPLACE` row `(name, content, cells)`.  A duplicate sanitized column (or
a key sanitizing to `name`/`content`) would make the INSERT column list
invalid SQL; this surfaces as a storage error after the schema changes,
as in the source. -/
def KG.upsertTypeRow (db : KG) (typeName name content : Str) (meta : AList) :
    Option KgError × KG :=
  let entries := meta.filter fun kv => kv.1 ≠ typeStr
  let keys := entries.map (·.1)
  match db.ensureTypeTable typeName keys with
  | .error e => (some e, db)
  | .ok db2 =>
    let cols := keys.map safe_ident
    if ¬(strLit "name" :: strLit "content" :: cols).Nodup then (some .storageError, db2)
    else
      let row : Row := ⟨name, content, cols.zip (entries.map fun kv => encodeCell kv.2)⟩
      (none, { db2 with
        tables := updateTable db2.tables (safe_ident typeName) fun tbl =>
          { tbl with rows := rowReplace tbl.rows row } })

/-- core.py `_delete_from_type_table` / `_delete_type_row`: remove the
data row from the type table, ignoring a missing table. -/
def KG.deleteFromTypeTable (db : KG) (typeName name : Str) : KG :=
  { db with
    tables := updateTable db.tables (safe_ident typeName) fun tbl =>
      { tbl with rows := tbl.rows.filter fun r => r.rname ≠ name } }

/-- core.py `_read_node_data`: look up the node type, fetch the data row
from its type table, decode each non-NULL cell in column order, and
re-attach `type` for non-kaybee nodes. -/
def KG.readNodeData (db : KG) (name : Str) : Except KgError (Str × AList) :=
  match lookupA db.nodes name with
  | none => .error (.notFound name)
  | some typeName =>
    let typeMeta : AList := if typeName = kaybeeStr then [] else [(typeStr, .s typeName)]
    match lookupA db.tables (safe_ident typeName) with
    | none => .ok ([], typeMeta)
    | some tbl =>
      match rowFind tbl.rows name with
      | none => .ok ([], typeMeta)
      | some row =>
        let meta := tbl.cols.filterMap fun col =>
          (lookupA row.cells col).map fun v => (col, decodeCell v)
        .ok (row.content, meta ++ typeMeta)

/-- core.py `_sync_links`: drop this source's outgoing rows, then insert
one row per extracted target with its resolution and first matching
context line. -/
def KG.syncLinks (db : KG) (name body : Str) : KG :=
  let db := { db with links := db.links.filter fun r => r.source ≠ name }
  (extract_wikilinks body).foldl (fun db target =>
    let resolved := db.resolveWikilink target true
    let ctx := (((splitlinesPy body).find? fun line =>
      hasSub (strLit "[[" ++ target ++ strLit "]]") line).map pyStrip).getD []
    { db with
      links := (db.links.filter fun r => ¬(r.source = name ∧ r.target = target))
        ++ [⟨name, target, resolved, ctx⟩] }) db

/-- core.py `_re_resolve_links_to`: re-run resolution on every link row
that is dangling or resolved to `name`. -/
def KG.reResolveLinksTo (db : KG) (name : Str) : KG :=
  { db with
    links := db.links.map fun (r : LinkRow) =>
      if r.resolved = none ∨ r.resolved = some name then
        { r with resolved := db.resolveWikilink r.target true }
      else r }

/-- constraints.py lines 111-114: whether a rule's type filter admits
the proposed attribute map.  Python compares `meta.get("type")` (which
may be absent or non-string) with the filter string. -/
def ruleApplies (r : Rule) (meta : AList) : Bool :=
  match r.tfilter with
  | none => true
  | some f =>
    match lookupA meta typeStr with
    | some (.s ty) => ty = f
    | _ => false

/-- constraints.py `Validator.validate_structural`: run only structural
rules whose filter admits the proposed meta, aggregating violations in
rule order. -/
def validateStructural (rules : List Rule) (name : Str) (meta : AList) : List Violation :=
  rules.foldl (fun acc r =>
    if r.structural && ruleApplies r meta then acc ++ r.check name meta else acc) []

/-- `meta.get("type") or "kaybee"` (core.py line 446): `none` encodes
the `TypeError` a truthy non-string would raise when later bound as the
type name. -/
def effectiveType (meta : AList) : Option Str :=
  match lookupA meta typeStr with
  | none => some kaybeeStr
  | some (.s v) => some (if v = [] then kaybeeStr else v)
  | some (.l items) => if items = [] then some kaybeeStr else none
  | some (.m pairs) => if pairs = [] then some kaybeeStr else none

/-- core.py `_write_node`: parse, gatekeep, type-change cleanup, node
index upsert, data upsert, type auto-registration, link sync and
re-resolution.  Errors carry the state at the raise point. -/
def KG.writeNode (db : KG) (name content : Str) : Option KgError × KG :=
  let mb := parse_frontmatter content
  let meta := mb.1
  let body := mb.2
  let violations :=
    match db.validator with
    | some rules => validateStructural rules name meta
    | none => []
  if violations ≠ [] then (some (.validation violations), db)
  else
    let oldType := lookupA db.nodes name
    match effectiveType meta with
    | none =>
      let db :=
        match oldType with
        | some t => db.deleteFromTypeTable t name
        | none => db
      (some .typeError, db)
    | some eff =>
      let db :=
        match oldType with
        | some t => if t ≠ eff then db.deleteFromTypeTable t name else db
        | none => db
      let db := { db with nodes := nodeUpsert db.nodes name eff }
      match db.upsertTypeRow eff name body meta with
      | (some e, db2) => (some e, db2)
      | (none, db2) =>
        let db3 :=
          if eff ≠ kaybeeStr then
            { db2 with
              typesReg := if eff ∈ db2.typesReg then db2.typesReg else db2.typesReg ++ [eff] }
          else db2
        let db4 := db3.syncLinks name body
        (none, db4.reResolveLinksTo name)

/-- core.py `KnowledgeGraph.write`. -/
def KG.write (db : KG) (name content : Str) : Option KgError × KG :=
  db.writeNode (slugify name) content

/-- core.py `KnowledgeGraph.touch`: existing node plus empty content is
a no-op; content routes through `write`; otherwise a bare index and
kaybee row insert, with no link re-resolution. -/
def KG.touch (db : KG) (name content : Str) : Option KgError × KG :=
  let name := slugify name
  if db.existsNode name then
    if content ≠ [] then db.write name content else (none, db)
  else if content ≠ [] then db.writeNode name content
  else
    let db :=
      if (lookupA db.nodes name).isSome then db
      else { db with nodes := db.nodes ++ [(name, kaybeeStr)] }
    let db :=
      { db with
        tables := updateTable db.tables kaybeeStr fun tbl =>
          if (rowFind tbl.rows name).isSome then tbl
          else { tbl with rows := tbl.rows ++ [⟨name, [], []⟩] } }
    (none, db)

/-- core.py `KnowledgeGraph.rm`: delete data row, outgoing links, null
incoming resolutions, delete index row. -/
def KG.rm (db : KG) (name : Str) : Option KgError × KG :=
  if ¬db.existsNode name then (some (.notFound name), db)
  else
    let db :=
      match lookupA db.nodes name with
      | some t => if t ≠ [] then db.deleteFromTypeTable t name else db
      | none => db
    let db := { db with links := db.links.filter fun r => r.source ≠ name }
    let db :=
      { db with
        links := db.links.map fun (r : LinkRow) =>
          if r.resolved = some name then { r with resolved := none } else r }
    (none, { db with nodes := db.nodes.filter fun p => p.1 ≠ name })

/-- core.py `KnowledgeGraph.mv`: guarded rename; re-insert the payload
under the new name, then rewrite `source_name` and `target_resolved`
columns (the raw `target_name` column is untouched). -/
def KG.mv (db : KG) (oldName newNameRaw : Str) : Option KgError × KG :=
  if ¬db.existsNode oldName then (some (.notFound oldName), db)
  else
    let newName := slugify newNameRaw
    if oldName = newName then (none, db)
    else if db.existsNode newName then (some (.alreadyExists newName), db)
    else
      match db.readNodeData oldName with
      | .error e => (some e, db)
      | .ok (content, meta) =>
        let typeName := (lookupA db.nodes oldName).getD []
        let db := db.deleteFromTypeTable typeName oldName
        let db := { db with nodes := db.nodes.filter fun p => p.1 ≠ oldName }
        let db := { db with nodes := db.nodes ++ [(newName, typeName)] }
        match db.upsertTypeRow typeName newName content meta with
        | (some e, db2) => (some e, db2)
        | (none, db2) =>
          let db3 :=
            { db2 with
              links := db2.links.map fun (r : LinkRow) =>
                if r.source = oldName then { r with source := newName } else r }
          let db4 :=
            { db3 with
              links := db3.links.map fun (r : LinkRow) =>
                if r.resolved = some oldName then { r with resolved := some newName } else r }
          (none, db4)

/-- core.py `KnowledgeGraph.cp`: guarded copy with link re-extraction
from the stored body. -/
def KG.cp (db : KG) (src dstRaw : Str) : Option KgError × KG :=
  if ¬db.existsNode src then (some (.notFound src), db)
  else
    let dst := slugify dstRaw
    if src = dst then (some .valueError, db)
    else if db.existsNode dst then (some (.alreadyExists dst), db)
    else
      match db.readNodeData src with
      | .error e => (some e, db)
      | .ok (content, meta) =>
        let typeName := (lookupA db.nodes src).getD []
        let db := { db with nodes := db.nodes ++ [(dst, typeName)] }
        match db.upsertTypeRow typeName dst content meta with
        | (some e, db2) => (some e, db2)
        | (none, db2) => (none, db2.syncLinks dst content)

/-- core.py `KnowledgeGraph.ln`: create an untyped node carrying a
`link_target` attribute. -/
def KG.ln (db : KG) (source destRaw : Str) : Option KgError × KG :=
  let dest := slugify destRaw
  if db.existsNode dest then (some (.alreadyExists dest), db)
  else
    let db := { db with nodes := db.nodes ++ [(dest, kaybeeStr)] }
    match db.ensureTypeTable kaybeeStr [strLit "link_target"] with
    | .error e => (some e, db)
    | .ok db2 =>
      match db2.upsertTypeRow kaybeeStr dest [] [(strLit "link_target", .s source)] with
      | (some e, db3) => (some e, db3)
      | (none, db3) => (none, db3)

/-- core.py `KnowledgeGraph.add_type`: idempotent registration, with no
reserved-name check. -/
def KG.addType (db : KG) (typeName : Str) : Option KgError × KG :=
  (none, { db with
    typesReg := if typeName ∈ db.typesReg then db.typesReg else db.typesReg ++ [typeName] })

/-- core.py `KnowledgeGraph.remove_type`: refuse while nodes of the type
remain. -/
def KG.removeType (db : KG) (typeName : Str) : Option KgError × KG :=
  if (db.nodes.filter fun p => p.2 = typeName).length > 0 then (some .valueError, db)
  else (none, { db with typesReg := db.typesReg.filter fun t => t ≠ typeName })

/-- core.py `KnowledgeGraph.cat` (also `read(name, 0)`): reconstruct
frontmatter plus body when the attribute map is nonempty. -/
def KG.cat (db : KG) (name : Str) : Except KgError Str := do
  let (content, meta) ← db.readNodeData name
  if meta ≠ [] then pure (reconstruct meta content) else pure content

/-- core.py `KnowledgeGraph.frontmatter`. -/
def KG.frontmatter (db : KG) (name : Str) : Except KgError AList := do
  let (_, meta) ← db.readNodeData name
  pure meta

/-- core.py `KnowledgeGraph.body`. -/
def KG.body (db : KG) (name : Str) : Except KgError Str := do
  let (content, _) ← db.readNodeData name
  pure content

/-- constraints.py `requires_field`: the field must be present and
truthy. -/
def requires_field (typeName : Option Str) (field : Str) : Rule :=
  { tfilter := typeName
    structural := true
    check := fun name meta =>
      let bad :=
        match lookupA meta field with
        | none => true
        | some (.s v) => v = []
        | some (.l items) => items = []
        | some (.m pairs) => pairs = []
      if bad then
        [⟨name, strLit "requires_field",
          strLit "missing field " ++ [squote] ++ field ++ [squote]⟩]
      else [] }

/-- constraints.py `requires_tag`: `tags` must be a nonempty list. -/
def requires_tag (typeName : Option Str) : Rule :=
  { tfilter := typeName
    structural := true
    check := fun name meta =>
      let ok :=
        match lookupA meta (strLit "tags") with
        | some (.l items) => !items.isEmpty
        | _ => false
      if ok then [] else [⟨name, strLit "requires_tag", strLit "must have at least one tag"⟩] }

/-- Specification-side selection predicate for the gatekeeper (C5,
amended): a rule runs on the write path exactly when it is structural
and its type filter is null or equals the raw string value of the
proposed `type` attribute (a missing or non-string `type` matches only
null filters). -/
def gatekeeperSelects (r : Rule) (meta : AList) : Bool :=
  r.structural &&
    (match r.tfilter with
     | none => true
     | some f =>
       match lookupA meta typeStr with
       | some (.s ty) => ty = f
       | _ => false)

/-- Equality of attribute maps as finite maps: every entry of each side
is looked up identically in the other. -/
def mapEquiv (m1 m2 : AList) : Bool :=
  m1.all (fun kv => lookupA m2 kv.1 = some kv.2) &&
    m2.all (fun kv => lookupA m1 kv.1 = some kv.2)

/-- Read a node and parse its reconstructed text (the observation made
by claim C4). -/
def catParse (db : KG) (n : Str) : Option (AList × Str) :=
  ((db.cat n).toOption).map parse_frontmatter

/-- The C4 round-trip observation as a decidable check: reading `n` back
parses to the attribute map of `t` (as a map) and to the body of `t`. -/
def roundtripChecks (db : KG) (n t : Str) : Bool :=
  match catParse db n with
  | some p =>
    mapEquiv p.1 (parse_frontmatter t).1 && p.2 == (parse_frontmatter t).2
  | none => false

/-- Whether the data table for type `ty` is still fresh in `db`: absent,
or created but without attribute columns. -/
def tableFresh (db : KG) (ty : Str) : Bool :=
  match lookupA db.tables (safe_ident ty) with
  | none => true
  | some tbl => tbl.cols == []

/-- Characters allowed in stable attribute keys (kept fixed by
`_safe_ident`): ASCII alphanumerics and underscore. -/
def keyCharOk (c : Char) : Bool := c.isAlphanum || c = '_'

/-- A stable top-level attribute key: nonempty, identifier characters
only, and not colliding with the fixed `name`/`content` columns. -/
def stableKey (k : Str) : Bool :=
  !k.isEmpty && k.all keyCharOk && k ≠ strLit "name" && k ≠ strLit "content"

/-- Printable ASCII with quotes and backslash excluded: such characters
survive YAML re-parsing and JSON encoding verbatim. -/
def plainChar (c : Char) : Bool :=
  32 ≤ c.toNat && c.toNat ≤ 126 && c ≠ '"' && c ≠ squote && c ≠ '\\'

/-- A stable scalar value: nonempty plain text, no surrounding
whitespace, not bracket-led (which YAML or JSON would re-interpret), and
without an inline-comment marker. -/
def stableScalar (v : Str) : Bool :=
  !v.isEmpty && v.all plainChar && pyStrip v == v &&
    v.head? ≠ some '[' && v.head? ≠ some (Char.ofNat 123) &&
    !hasSub (strLit " #") v

/-- A stable inline-list element: nonempty plain text without commas and
without surrounding whitespace. -/
def stableItem (e : Str) : Bool :=
  !e.isEmpty && e.all (fun c => plainChar c && c ≠ ',') && pyStrip e == e

/-- A stable sub-map key: nonempty plain text without colons, not
comment- or dash-led, without surrounding whitespace. -/
def stableSubKey (sk : Str) : Bool :=
  !sk.isEmpty && sk.all (fun c => plainChar c && c ≠ ':') && pyStrip sk == sk &&
    sk.head? ≠ some '#' && sk.head? ≠ some '-'

/-- A stable sub-map value: nonempty plain text without surrounding
whitespace. -/
def stableSubVal (sv : Str) : Bool :=
  !sv.isEmpty && sv.all plainChar && pyStrip sv == sv

/-- Stability of one attribute value. -/
def stableValue : Value → Bool
  | .s v => stableScalar v
  | .l items => items.all stableItem
  | .m pairs =>
    !pairs.isEmpty && pairs.all (fun p => stableSubKey p.1 && stableSubVal p.2) &&
      decide ((pairs.map Prod.fst).Nodup)

/-- Stability of one attribute entry; a `type` entry must additionally
be a nonempty identifier scalar distinct from the implicit type and the
reserved table names. -/
def stableEntry (kv : Str × Value) : Bool :=
  stableKey kv.1 && stableValue kv.2 &&
    (kv.1 ≠ typeStr ||
      (match kv.2 with
       | .s ty => !ty.isEmpty && ty.all keyCharOk && ty ∉ reservedTypeNames && ty ≠ kaybeeStr
       | _ => false))

/-- Stability of a whole attribute map: all entries stable, keys
distinct. -/
def stableMeta (meta : AList) : Bool :=
  meta.all stableEntry && decide ((meta.map Prod.fst).Nodup)

/-- Stability of the body relative to the attribute map: no leading
newline, and for an empty map the body must not itself parse as
frontmatter. -/
def stableBody (meta : AList) (body : Str) : Bool :=
  body.head? ≠ some '\n' &&
    (!meta.isEmpty || parse_frontmatter body == ([], body))

/-- Modelled from the spec: the changelog operation kinds (spec §3.1,
"op is one of node.write, node.rm, node.mv, node.cp, type.add,
type.rm").  The changelog itself is absent from the sources under src/
(core.py there has no `_changelog` table; sync.py only consumes
`kg.changelog`), so claims about it are settled against this model. -/
inductive ChangeOp where
  | nodeWrite
  | nodeRm
  | nodeMv
  | nodeCp
  | typeAdd
  | typeRm
deriving DecidableEq

/-- Modelled from the spec: one changelog entry, carrying the monotonic
sequence number, the operation and the principal name (spec §4.8;
timestamp and payload are advisory and omitted). -/
structure ChangeEntry where
  seq : Nat
  op : ChangeOp
  name : Str
deriving DecidableEq

/-- The sequence number of the newest entry (0 for an empty log). -/
def lastSeq (log : List ChangeEntry) : Nat := ((log.getLast?).map (·.seq)).getD 0

/-- Modelled from the spec: appending one changelog entry; `seq` is the
store-managed monotonic integer (AUTOINCREMENT from 1). -/
def changelogAppend (log : List ChangeEntry) (op : ChangeOp) (name : Str) : List ChangeEntry :=
  log ++ [⟨lastSeq log + 1, op, name⟩]

/-- Modelled from the spec: the changelog produced by a sequence of
`node.*` / `type.*` mutations on a fresh store, each appending exactly
one entry (spec §2 step 10 and invariant I7). -/
def changelogOf (muts : List (ChangeOp × Str)) : List ChangeEntry :=
  muts.foldl (fun log m => changelogAppend log m.1 m.2) []

example : slugify (strLit "Hello World!") = strLit "hello-world" := by decide
example : slugify (strLit "  My File (2).txt") = strLit "my-file-2-.txt" := by decide
example : extract_wikilinks (strLit "a [[b]] c [[d e]]") = [strLit "b", strLit "d e"] := by decide
example : parse_frontmatter (strLit "---\nk: v\n---\nbody") =
    ([(strLit "k", .s (strLit "v"))], strLit "body") := by decide

/-- C1: the spec says dangling links become resolved the moment the
target is created, including by a bare `touch`; the code's bare-touch
fast path (core.py lines 518-527) never calls `_re_resolve_links_to`.
Evaluating the failing input: after `write("a", "See [[b]]")` and
`touch("b")` with no content, node `b` exists but the link row of `a`
still has a null `target_resolved`. -/
theorem C1_bare_touch_leaves_dangling_link :
    (let r1 := KG.init.write (strLit "a") (strLit "See [[b]]")
     let r2 := r1.2.touch (strLit "b") []
     r1.1 = none ∧ r2.1 = none ∧ r2.2.existsNode (strLit "b") = true ∧
       r2.2.links = [⟨strLit "a", strLit "b", none, strLit "See [[b]]"⟩]) := by
  decide

theorem changelog_foldl_seq (muts : List (ChangeOp × Str)) :
    ∀ log : List ChangeEntry, log.map (·.seq) = List.range' 1 log.length →
      ((muts.foldl (fun log m => changelogAppend log m.1 m.2) log).map (·.seq)
        = List.range' 1 (log.length + muts.length)) := by
  induction muts with
  | nil => intro log h; simpa using h
  | cons m ms ih =>
    intro log h
    have hlast : lastSeq log = log.length := by
      unfold lastSeq
      rw [← List.getLast?_map (f := fun e : ChangeEntry => e.seq), h]
      cases hn : log.length with
      | zero => simp [List.range']
      | succ k => rw [List.range'_concat]; simp; omega
    have hstep : (changelogAppend log m.1 m.2).map (·.seq)
        = List.range' 1 (changelogAppend log m.1 m.2).length := by
      unfold changelogAppend
      rw [List.map_append, h, hlast]
      simp [List.range'_concat]
      omega
    have := ih (changelogAppend log m.1 m.2) hstep
    simp only [List.foldl_cons]
    rw [this]
    unfold changelogAppend
    simp only [List.length_append, List.length_cons, List.length_nil]
    congr 1
    omega

/-- C9: (spec-modelled) the changelog of any sequence of `node.*` /
`type.*` mutations on a fresh store has exactly one entry per mutation,
with sequence numbers `1, 2, ..., n`: strictly increasing and
gap-free. -/
theorem C9_changelog_strictly_increasing_gap_free (muts : List (ChangeOp × Str)) :
    (changelogOf muts).length = muts.length ∧
      (changelogOf muts).map (·.seq) = List.range' 1 muts.length := by
  have h := changelog_foldl_seq muts [] (by simp [List.range'])
  simp only [List.length_nil, Nat.zero_add] at h
  refine ⟨?_, h⟩
  have := congrArg List.length h
  simpa using this

/-- C5 fails as stated: with the structural rule
`requires_field("kaybee", "description")` attached, a write whose
frontmatter has no `type` key is not checked — `validate_structural`
compares the filter against the raw `meta.get("type")` (absent), not
against the effective type `"kaybee"` — so the write succeeds where the
claim requires a `ValidationError`. -/
theorem C5_counterexample_kaybee_filter_skipped :
    (let dbv : KG :=
      { KG.init with validator := some [requires_field (some kaybeeStr) (strLit "description")] }
     let r := dbv.write (strLit "bad") (strLit "hello")
     r.1 = none ∧ r.2.existsNode (strLit "bad") = true) := by
  decide

theorem gatekeeperSelects_eq (r : Rule) (meta : AList) :
    gatekeeperSelects r meta = (r.structural && ruleApplies r meta) := rfl

theorem validateStructural_foldl_aux (name : Str) (meta : AList) (rules : List Rule) :
    ∀ acc : List Violation,
      rules.foldl (fun acc r =>
        if r.structural && ruleApplies r meta then acc ++ r.check name meta else acc) acc
      = acc ++ ((rules.filter fun r => gatekeeperSelects r meta).flatMap
          fun r => r.check name meta) := by
  induction rules with
  | nil => intro acc; simp
  | cons r rs ih =>
    intro acc
    simp only [List.foldl_cons, List.filter_cons, gatekeeperSelects_eq]
    by_cases h : (r.structural && ruleApplies r meta) = true
    · rw [if_pos h, if_pos h, ih, List.flatMap_cons, List.append_assoc]
      simp only [gatekeeperSelects_eq]
    · rw [if_neg h, if_neg h, ih]
      simp only [gatekeeperSelects_eq]

/-- C5 amended: on the write path exactly those rules run that are
structural and whose type filter is null or equals the raw `type`
attribute string of the proposed frontmatter (a missing `type` matches
only null filters, so a `"kaybee"` filter does not apply to an untyped
write); rules with `structural = false` never contribute. -/
theorem C5_gatekeeper_rule_selection (rules : List Rule) (name : Str) (meta : AList) :
    validateStructural rules name meta
      = (rules.filter fun r => gatekeeperSelects r meta).flatMap
          fun r => r.check name meta := by
  unfold validateStructural
  simpa using validateStructural_foldl_aux name meta rules []

/-- C6 fails as stated: `add_type` performs no reserved-name check at
all, so explicitly registering the reserved name `_links` succeeds
without error and records it in the type registry. -/
theorem C6_counterexample_addType_reserved_accepted :
    (KG.init.addType (strLit "_links")).1 = none ∧
      strLit "_links" ∈ (KG.init.addType (strLit "_links")).2.typesReg := by
  decide

/-- C6 amended: only `nodes`, `_types` and `_links` are reserved, and
only the node-write path enforces this: writing a fresh name whose
effective type is reserved (no validator attached) raises a ValueError
from `_ensure_type_table` and leaves the data tables, the type registry
and the link table unchanged; `add_type` performs no check.  (The thin
`nodes` index row is inserted before the raise and remains visible on
the connection.) -/
theorem upsertTypeRow_reserved (db : KG) (t name content : Str) (meta : AList)
    (h1 : ¬(t = kaybeeStr)) (h2 : t ∈ reservedTypeNames) :
    db.upsertTypeRow t name content meta = (some .valueError, db) := by
  simp only [KG.upsertTypeRow, KG.ensureTypeTable]
  rw [if_pos (⟨h1, h2⟩ : t ≠ kaybeeStr ∧ t ∈ reservedTypeNames)]

theorem C6_write_rejects_reserved_type (db : KG) (n c ty : Str)
    (hv : db.validator = none)
    (heff : effectiveType (parse_frontmatter c).1 = some ty)
    (hres : ty ∈ reservedTypeNames)
    (hfresh : lookupA db.nodes (slugify n) = none) :
    (db.write n c).1 = some .valueError ∧
      (db.write n c).2.tables = db.tables ∧
      (db.write n c).2.typesReg = db.typesReg ∧
      (db.write n c).2.links = db.links := by
  have hmem := hres
  simp only [reservedTypeNames, List.mem_cons, List.not_mem_nil, or_false] at hmem
  have hkb : ¬(ty = kaybeeStr) := by
    rcases hmem with h | h | h <;> subst h <;> decide
  have hw : db.write n c = (some .valueError, { db with nodes := nodeUpsert db.nodes (slugify n) ty }) := by
    simp only [KG.write, KG.writeNode, hv, heff, hfresh]
    rw [upsertTypeRow_reserved _ _ _ _ _ hkb hres]
    simp
  rw [hw]
  exact ⟨rfl, rfl, rfl, rfl⟩

/-- C6 witness: the amended theorem evaluated on a concrete reserved
write (`type: _links`) against a fresh store. -/
theorem C6_write_rejects_reserved_type_witness :
    (KG.init.write (strLit "x") (strLit "---\ntype: _links\n---\nhi")).1 = some .valueError ∧
      (KG.init.write (strLit "x") (strLit "---\ntype: _links\n---\nhi")).2.tables = KG.init.tables ∧
      (KG.init.write (strLit "x") (strLit "---\ntype: _links\n---\nhi")).2.typesReg = KG.init.typesReg ∧
      (KG.init.write (strLit "x") (strLit "---\ntype: _links\n---\nhi")).2.links = KG.init.links :=
  C6_write_rejects_reserved_type KG.init (strLit "x") (strLit "---\ntype: _links\n---\nhi")
    (strLit "_links") rfl (by decide) (by decide) (by decide)

/-- C2: with a validator attached, a write whose structural rules
report violations raises a `ValidationError` aggregating exactly those
violations and leaves the whole store unchanged; in particular the
existence of the written name is unaffected (false for a fresh name). -/
theorem C2_gatekeeper_blocks_and_preserves_store (db : KG) (rules : List Rule) (n c : Str)
    (hv : db.validator = some rules)
    (hviol : validateStructural rules (slugify n) (parse_frontmatter c).1 ≠ []) :
    db.write n c =
      (some (.validation (validateStructural rules (slugify n) (parse_frontmatter c).1)), db) ∧
      (db.write n c).2.existsNode (slugify n) = db.existsNode (slugify n) := by
  have h1 : db.write n c =
      (some (.validation (validateStructural rules (slugify n) (parse_frontmatter c).1)), db) := by
    simp only [KG.write, KG.writeNode, hv]
    rw [if_pos hviol]
  exact ⟨h1, by rw [h1]⟩

/-- C2 witness: spec scenario S4 — `requires_field("concept",
"description")` attached, `write("bad", "---\ntype: concept\n---\n")`
raises and `exists("bad")` stays false. -/
theorem C2_gatekeeper_blocks_witness :
    validateStructural [requires_field (some (strLit "concept")) (strLit "description")]
        (slugify (strLit "bad")) (parse_frontmatter (strLit "---\ntype: concept\n---\n")).1 ≠ [] ∧
      ({ KG.init with
          validator := some [requires_field (some (strLit "concept")) (strLit "description")] } : KG).write
          (strLit "bad") (strLit "---\ntype: concept\n---\n") =
        (some (.validation (validateStructural
            [requires_field (some (strLit "concept")) (strLit "description")]
            (slugify (strLit "bad")) (parse_frontmatter (strLit "---\ntype: concept\n---\n")).1)),
          { KG.init with
            validator := some [requires_field (some (strLit "concept")) (strLit "description")] }) ∧
      (({ KG.init with
          validator := some [requires_field (some (strLit "concept")) (strLit "description")] } : KG).write
          (strLit "bad") (strLit "---\ntype: concept\n---\n")).2.existsNode (strLit "bad") = false :=
  ⟨by decide,
   (C2_gatekeeper_blocks_and_preserves_store _ _ _ _ rfl (by decide)).1,
   by decide⟩

/-- C3 fails as stated: after a successful `mv("a", "b")` the `_links`
row keeps its raw target `a` (`mv` rewrites only `source_name` and
`target_resolved`), so a row still mentions `a`. -/
theorem C3_counterexample_raw_target_keeps_old_name :
    (let db1 := (KG.init.touch (strLit "a") []).2
     let db2 := (db1.write (strLit "s") (strLit "See [[a]]")).2
     let r := db2.mv (strLit "a") (strLit "b")
     r.1 = none ∧
       r.2.links = [⟨strLit "s", strLit "a", some (strLit "b"), strLit "See [[a]]"⟩]) := by
  decide

theorem upsertTypeRow_preserves (db : KG) (t n c : Str) (m : AList) :
    ((db.upsertTypeRow t n c m).2).links = db.links ∧
      ((db.upsertTypeRow t n c m).2).nodes = db.nodes := by
  simp only [KG.upsertTypeRow, KG.ensureTypeTable]
  split_ifs <;> exact ⟨rfl, rfl⟩

/-- C3 amended: after a successful `mv(a, b)` (with `b` the normalized
destination, distinct from `a`, and no pre-existing row already sourced
at `b`, which the `_links` primary key would reject), every row that had
`source = a` now has `source = b` and every row that had
`target_resolved = a` now has `target_resolved = b` — all other columns,
including the raw `target_name`, are untouched — so no row mentions `a`
in its `source` or `target_resolved` columns (the raw target may still
be `a`). -/
theorem upsertTypeRow_result_preserves (db db2 : KG) (t n c : Str) (m : AList)
    (err : Option KgError) (h : db.upsertTypeRow t n c m = (err, db2)) :
    db2.links = db.links ∧ db2.nodes = db.nodes := by
  have h2 := upsertTypeRow_preserves db t n c m
  rw [h] at h2
  exact h2

/-- C3 amended: after a successful `mv(a, b)` (with `b` the normalized
destination, distinct from `a`, and no pre-existing row already sourced
at `b`, which the `_links` primary key would reject), every row that had
`source = a` now has `source = b` and every row that had
`target_resolved = a` now has `target_resolved = b` — all other columns,
including the raw `target_name`, are untouched — so no row mentions `a`
in its `source` or `target_resolved` columns (the raw target may still
be `a`). -/
theorem C3_mv_rewrites_source_and_resolved (db : KG) (old newRaw : Str)
    (hne : slugify newRaw ≠ old)
    (hcol : ∀ r ∈ db.links, r.source ≠ slugify newRaw)
    (hsucc : (db.mv old newRaw).1 = none) :
    (db.mv old newRaw).2.links =
      db.links.map (fun r =>
        { r with
          source := if r.source = old then slugify newRaw else r.source
          resolved := if r.resolved = some old then some (slugify newRaw) else r.resolved }) ∧
      ((db.mv old newRaw).2.links.all fun r =>
        r.source != old && r.resolved != some old) = true := by
  have hc := hcol
  clear hc
  simp only [KG.mv] at hsucc ⊢
  split_ifs at hsucc ⊢
  · exact absurd (by assumption : old = slugify newRaw).symm hne
  · rcases hread : db.readNodeData old with e | p
    · rw [hread] at hsucc
      simp at hsucc
    · obtain ⟨content, meta⟩ := p
      try rw [hread] at hsucc
      try rw [hread]
      simp only [ne_eq, decide_not] at hsucc ⊢
      split at hsucc
      · simp at hsucc
      · rename_i db2 heq
        obtain ⟨hl, _⟩ := upsertTypeRow_result_preserves _ _ _ _ _ _ _ heq
        have hl2 : db2.links = db.links := hl
        simp only [hl2]
        constructor
        · rw [List.map_map]
          congr 1
          funext r
          by_cases hs : r.source = old <;> by_cases hr : r.resolved = some old <;>
            simp [hs, hr, Function.comp]
        · rw [List.map_map]
          simp only [List.all_eq_true]
          intro r hr
          rcases List.mem_map.mp hr with ⟨r0, _, rfl⟩
          simp only [Function.comp]
          by_cases hs : r0.source = old <;> by_cases hv : r0.resolved = some old <;>
            simp [hs, hv, bne_iff_ne, hne]

/-- C3 witness: the amended theorem evaluated on a concrete store with
one resolved link, renaming its target. -/
theorem C3_mv_rewrites_source_and_resolved_witness :
    (let db2 := ((KG.init.touch (strLit "t") []).2.write (strLit "s") (strLit "See [[t]]")).2
     (db2.mv (strLit "t") (strLit "New Name")).2.links =
        db2.links.map (fun r =>
          { r with
            source := if r.source = strLit "t" then slugify (strLit "New Name") else r.source
            resolved := if r.resolved = some (strLit "t") then some (slugify (strLit "New Name"))
              else r.resolved }) ∧
       ((db2.mv (strLit "t") (strLit "New Name")).2.links.all fun r =>
         r.source != strLit "t" && r.resolved != some (strLit "t")) = true) :=
  C3_mv_rewrites_source_and_resolved _ _ _ (by decide) (by decide) (by decide)

theorem stripDash_dash_cons (x : Str) : stripDash ('-' :: x) = stripDash x := by
  simp [stripDash, List.dropWhile]

theorem slugChars_sep_eq_collapse (cs : Str) : ∀ p, slugChars cs p true = collapseAux cs p := by
  induction cs with
  | nil => intro p; rfl
  | cons c cs ih =>
    intro p
    by_cases hk : keepChar c
    · simp [slugChars, collapseAux, hk, ih]
    · cases p <;> simp [slugChars, collapseAux, hk, ih]

theorem stripDash_collapse_sep (cs : Str) :
    stripDash (collapseAux cs true) = stripDash (collapseAux cs false) := by
  cases cs with
  | nil => rfl
  | cons c cs =>
    by_cases hk : keepChar c
    · simp [collapseAux, hk]
    · simp [collapseAux, hk, stripDash_dash_cons]

theorem stripDash_slugChars_eq_collapse (cs : Str) :
    stripDash (slugChars cs false false) = stripDash (collapseAux cs false) := by
  induction cs with
  | nil => rfl
  | cons c cs ih =>
    by_cases hk : keepChar c
    · simp [slugChars, collapseAux, hk, slugChars_sep_eq_collapse]
    · rw [show slugChars (c :: cs) false false = slugChars cs false false by simp [slugChars, hk]]
      rw [ih]
      rw [show collapseAux (c :: cs) false = '-' :: collapseAux cs true by simp [collapseAux, hk]]
      rw [stripDash_dash_cons, stripDash_collapse_sep]

/-- C7: `slugify` agrees with the specification algorithm on every
input — strip outer whitespace, lowercase, keep alphanumerics,
underscore and dot, collapse each maximal run of other characters into
one hyphen (never at the start), trim hyphens at both ends, and fall
back to the literal `"item"` — and in particular empty, whitespace-only
and all-special-character inputs yield `"item"`. -/
theorem C7_slugify_matches_spec (s : Str) :
    slugify s = slugifySpecFn s ∧
      slugify [] = strLit "item" ∧
      slugify (strLit "   ") = strLit "item" ∧
      slugify (strLit "!?*(&") = strLit "item" := by
  refine ⟨?_, by decide, by decide, by decide⟩
  simp only [slugify, slugifySpecFn]
  rw [stripDash_slugChars_eq_collapse]

/-- C10: lookup operations match the stored canonical name exactly and
do not normalize their argument: after `touch(s)` creates node
`slugify(s)`, `exists(s)` is false and `cat`, `rm`, `frontmatter`,
`body` raise NotFound for the raw spelling; the write-side entry points
(`touch`, `write`, `mv`/`cp`/`ln` destinations) normalize — renaming or
copying to another spelling of the same slug is detected as the same
node, `ln` to it collides, and renaming to a fresh raw name creates its
slug only. -/
theorem C10_lookups_exact_writes_normalize (s s2 : Str)
    (hs : slugify s ≠ s) (hs2 : slugify s2 ≠ s2) (hdiff : slugify s2 ≠ slugify s) :
    (let r := KG.init.touch s []
     let db1 := r.2
     r.1 = none ∧
       db1.existsNode (slugify s) = true ∧
       db1.existsNode s = false ∧
       db1.readNodeData s = .error (.notFound s) ∧
       db1.cat s = .error (.notFound s) ∧
       db1.frontmatter s = .error (.notFound s) ∧
       db1.body s = .error (.notFound s) ∧
       db1.rm s = (some (.notFound s), db1) ∧
       (KG.init.write s (strLit "x")).2.existsNode (slugify s) = true ∧
       (KG.init.write s (strLit "x")).2.existsNode s = false ∧
       db1.mv (slugify s) s = (none, db1) ∧
       db1.cp (slugify s) s = (some .valueError, db1) ∧
       db1.ln (strLit "src") s = (some (.alreadyExists (slugify s)), db1) ∧
       (db1.mv (slugify s) s2).2.existsNode (slugify s2) = true ∧
       (db1.mv (slugify s) s2).2.existsNode s2 = false) := by
  have htouch : KG.init.touch s [] =
      (none, KG.mk [(slugify s, kaybeeStr)] [] []
        [(kaybeeStr, ⟨[], [⟨slugify s, [], []⟩]⟩)] none) := rfl
  have hwrite : KG.init.write s (strLit "x") =
      (none, KG.mk [(slugify s, kaybeeStr)] [] []
        [(kaybeeStr, ⟨[], [⟨slugify s, strLit "x", []⟩]⟩)] none) := rfl
  simp only [htouch, hwrite]
  have hsafe : safe_ident kaybeeStr = kaybeeStr := by decide
  have hnc : ¬(strLit "name" = strLit "content") := by decide
  generalize hA : slugify s = a at hs hdiff ⊢
  generalize hB : slugify s2 = b at hs2 hdiff ⊢
  have hne2 : ¬(a = b) := fun h => hdiff h.symm
  have hlook : lookupA [(a, kaybeeStr)] s = (none : Option Str) := by
    simp [lookupA, hs]
  have hread : (KG.mk [(a, kaybeeStr)] [] []
      [(kaybeeStr, ⟨[], [⟨a, [], []⟩]⟩)] none).readNodeData s
      = .error (.notFound s) := by
    simp [KG.readNodeData, hlook]
  have htn : lookupA [(a, kaybeeStr)] a = some kaybeeStr := by simp [lookupA]
  have ht3 : lookupA [(kaybeeStr, (⟨[], [⟨a, [], []⟩]⟩ : Table))] kaybeeStr
      = some ⟨[], [⟨a, [], []⟩]⟩ := by simp [lookupA]
  have ht4 : lookupA [(kaybeeStr, (⟨[], []⟩ : Table))] kaybeeStr = some ⟨[], []⟩ := by
    simp [lookupA]
  have ht5 : lookupA [(a, kaybeeStr)] b = (none : Option Str) := by simp [lookupA, hne2]
  have hmv : ((KG.mk [(a, kaybeeStr)] [] []
        [(kaybeeStr, ⟨[], [⟨a, [], []⟩]⟩)] none).mv a s2) =
      (none, KG.mk [(b, kaybeeStr)] [] []
        [(kaybeeStr, ⟨[], [⟨b, [], []⟩]⟩)] none) := by
    simp [KG.mv, KG.existsNode, hne2, hdiff, hB, KG.readNodeData, rowFind, htn,
      ht3, ht4, ht5, KG.deleteFromTypeTable, updateTable, KG.upsertTypeRow,
      KG.ensureTypeTable, rowReplace, metaKeys, hsafe, hnc]
  refine ⟨trivial, ?_, ?_, hread, ?_, ?_, ?_, ?_, ?_, ?_, ?_, ?_, ?_, ?_, ?_⟩
  · simp [KG.existsNode, lookupA]
  · simp [KG.existsNode, hlook]
  · unfold KG.cat
    rw [hread]
    rfl
  · unfold KG.frontmatter
    rw [hread]
    rfl
  · unfold KG.body
    rw [hread]
    rfl
  · simp [KG.rm, KG.existsNode, hlook]
  · simp [KG.existsNode, lookupA]
  · simp [KG.existsNode, hlook]
  · simp [KG.mv, KG.existsNode, lookupA, hA]
  · simp [KG.cp, KG.existsNode, lookupA, hA]
  · simp [KG.ln, KG.existsNode, lookupA, hA]
  · rw [hmv]
    simp [KG.existsNode, lookupA]
  · rw [hmv]
    simp [KG.existsNode, lookupA, hs2]

/-- C10 witness: the theorem evaluated at the non-canonical spellings
`"A B"` and `"C D"`. -/
theorem C10_lookups_exact_witness :
    (let r := KG.init.touch (strLit "A B") []
     let db1 := r.2
     r.1 = none ∧
       db1.existsNode (slugify (strLit "A B")) = true ∧
       db1.existsNode (strLit "A B") = false ∧
       db1.readNodeData (strLit "A B") = .error (.notFound (strLit "A B")) ∧
       db1.cat (strLit "A B") = .error (.notFound (strLit "A B")) ∧
       db1.frontmatter (strLit "A B") = .error (.notFound (strLit "A B")) ∧
       db1.body (strLit "A B") = .error (.notFound (strLit "A B")) ∧
       db1.rm (strLit "A B") = (some (.notFound (strLit "A B")), db1) ∧
       (KG.init.write (strLit "A B") (strLit "x")).2.existsNode (slugify (strLit "A B")) = true ∧
       (KG.init.write (strLit "A B") (strLit "x")).2.existsNode (strLit "A B") = false ∧
       db1.mv (slugify (strLit "A B")) (strLit "A B") = (none, db1) ∧
       db1.cp (slugify (strLit "A B")) (strLit "A B") = (some .valueError, db1) ∧
       db1.ln (strLit "src") (strLit "A B") = (some (.alreadyExists (slugify (strLit "A B"))), db1) ∧
       (db1.mv (slugify (strLit "A B")) (strLit "C D")).2.existsNode (slugify (strLit "C D")) = true ∧
       (db1.mv (slugify (strLit "A B")) (strLit "C D")).2.existsNode (strLit "C D") = false) :=
  C10_lookups_exact_writes_normalize (strLit "A B") (strLit "C D")
    (by decide) (by decide) (by decide)

/-- C8 fails as stated: the opening fence test is
`text.startswith("---")`, not "begins with a line `---`", so
`"---k: v\n---\nbody"` — whose first line is `---k: v` — still has its
header split off and parsed. -/
theorem C8_counterexample_fences_not_whole_lines :
    parse_frontmatter (strLit "---k: v\n---\nbody")
      = ([(strLit "k", .s (strLit "v"))], strLit "body") := by
  decide

theorem findSubAux_spec (n : Str) (hn : n ≠ []) :
    ∀ (s : Str) (k i : Nat), n.isPrefixOf (s.drop k) = true →
      (∀ j, j < k → ¬(n.isPrefixOf (s.drop j) = true)) →
      findSubAux n s i = some (k + i) := by
  intro s
  induction s with
  | nil =>
    intro k i hk _
    rw [List.drop_nil] at hk
    cases n with
    | nil => exact absurd rfl hn
    | cons c cs => simp [List.isPrefixOf] at hk
  | cons c rest ih =>
    intro k i hk hmin
    cases k with
    | zero =>
      rw [List.drop_zero] at hk
      unfold findSubAux
      rw [if_pos hk]
      simp
    | succ k0 =>
      have h0 : ¬(n.isPrefixOf (c :: rest) = true) := by
        have := hmin 0 (by omega)
        simpa using this
      unfold findSubAux
      rw [if_neg h0]
      have hk2 : n.isPrefixOf (rest.drop k0) = true := by
        simpa [List.drop_succ_cons] using hk
      have hmin2 : ∀ j, j < k0 → ¬(n.isPrefixOf (rest.drop j) = true) := by
        intro j hj
        have := hmin (j + 1) (by omega)
        simpa [List.drop_succ_cons] using this
      rw [ih k0 (i + 1) hk2 hmin2]
      congr 1
      omega

theorem findSub_fence (a b : Str)
    (hclean : ∀ j, j < a.length →
      ¬((strLit "\n---").isPrefixOf ((a ++ strLit "\n---" ++ b).drop j) = true)) :
    findSub (strLit "\n---") (strLit "---" ++ a ++ strLit "\n---" ++ b) 3
      = some (a.length + 3) := by
  unfold findSub
  have hassoc : strLit "---" ++ a ++ strLit "\n---" ++ b
      = strLit "---" ++ (a ++ strLit "\n---" ++ b) := by
    simp [List.append_assoc]
  rw [hassoc, List.drop_left' (by decide)]
  have hpre : (strLit "\n---").isPrefixOf ((a ++ strLit "\n---" ++ b).drop a.length) = true := by
    have h2 : (a ++ strLit "\n---" ++ b).drop a.length = strLit "\n---" ++ b := by
      rw [List.append_assoc, List.drop_left]
    rw [h2]
    simp [List.isPrefixOf_iff_prefix]
  rw [findSubAux_spec _ (by decide) _ _ _ hpre hclean]
  simp

/-- C8 amended: `parse_frontmatter` splits the header whenever the text
starts with the three characters `---` and the four-character sequence
newline-`---` occurs at index 3 or later: the first such occurrence
closes the header (the closing "fence" line need only begin with `---`,
and the opening `---` need not be a whole line); the enclosed block is
stripped, split into lines and YAML-parsed, and the body is everything
after the occurrence plus three characters, with leading newlines
stripped.  If the text does not start with `---`, or no `\n---` occurs
from index 3 on, the attribute map is empty and the body is the original
text unchanged. -/
theorem C8_frontmatter_fence_contract :
    (∀ t : Str, ¬((strLit "---").isPrefixOf t = true) → parse_frontmatter t = ([], t)) ∧
      (∀ t : Str, findSub (strLit "\n---") t 3 = none → parse_frontmatter t = ([], t)) ∧
      (∀ a b : Str,
        (∀ j, j < a.length →
          ¬((strLit "\n---").isPrefixOf ((a ++ strLit "\n---" ++ b).drop j) = true)) →
        parse_frontmatter (strLit "---" ++ a ++ strLit "\n---" ++ b)
          = (parseYamlSubset (splitlinesPy (pyStrip a)), lstripNl b)) := by
  refine ⟨?_, ?_, ?_⟩
  · intro t ht
    unfold parse_frontmatter
    rw [if_neg ht]
  · intro t ht
    unfold parse_frontmatter
    by_cases hp : (strLit "---").isPrefixOf t = true
    · rw [if_pos hp, ht]
    · rw [if_neg hp]
  · intro a b hclean
    unfold parse_frontmatter
    rw [if_pos ?hpre]
    case hpre =>
      have hassoc : strLit "---" ++ a ++ strLit "\n---" ++ b
          = strLit "---" ++ (a ++ strLit "\n---" ++ b) := by
        simp [List.append_assoc]
      rw [hassoc]
      simp [List.isPrefixOf_iff_prefix]
    have htake : (strLit "---" ++ a ++ strLit "\n---" ++ b).take (a.length + 3)
        = strLit "---" ++ a := by
      have hassoc : strLit "---" ++ a ++ strLit "\n---" ++ b
          = (strLit "---" ++ a) ++ (strLit "\n---" ++ b) := by
        simp [List.append_assoc]
      rw [hassoc]
      exact List.take_left' (by simp [strLit])
    have hdrop : (strLit "---" ++ a ++ strLit "\n---" ++ b).drop (a.length + 3 + 4)
        = b := by
      have hassoc : strLit "---" ++ a ++ strLit "\n---" ++ b
          = ((strLit "---" ++ a) ++ strLit "\n---") ++ b := by
        simp [List.append_assoc]
      rw [hassoc]
      exact List.drop_left' (by simp [strLit])
    rw [findSub_fence a b hclean]
    show (parseYamlSubset (splitlinesPy (pyStrip
        (((strLit "---" ++ a ++ strLit "\n---" ++ b).take (a.length + 3)).drop 3))),
      lstripNl ((strLit "---" ++ a ++ strLit "\n---" ++ b).drop (a.length + 3 + 4)))
      = (parseYamlSubset (splitlinesPy (pyStrip a)), lstripNl b)
    rw [htake, hdrop, List.drop_left' (by decide)]

/-- C8 witness: the amended contract evaluated on a text with no
fence, a text with an unclosed fence, and a properly decomposed fenced
text. -/
theorem C8_frontmatter_fence_witness :
    parse_frontmatter (strLit "xyz") = ([], strLit "xyz") ∧
      parse_frontmatter (strLit "---abc") = ([], strLit "---abc") ∧
      parse_frontmatter (strLit "---" ++ strLit "\nk: v" ++ strLit "\n---" ++ strLit "\nbody")
        = (parseYamlSubset (splitlinesPy (pyStrip (strLit "\nk: v"))), lstripNl (strLit "\nbody")) :=
  ⟨C8_frontmatter_fence_contract.1 _ (by decide),
   C8_frontmatter_fence_contract.2.1 _ (by decide),
   C8_frontmatter_fence_contract.2.2 _ _ (by decide)⟩

theorem pyStripLeft_noop {s : Str} (h : s.head?.all (fun c => !c.isWhitespace) = true) :
    pyStripLeft s = s := by
  cases s with
  | nil => rfl
  | cons c cs =>
    simp only [List.head?_cons, Option.all_some, Bool.not_eq_true'] at h
    simp [pyStripLeft, List.dropWhile_cons, h]

theorem pyStripRight_noop {s : Str} (h : s.getLast?.all (fun c => !c.isWhitespace) = true) :
    pyStripRight s = s := by
  unfold pyStripRight
  rcases hs : s.reverse with _ | ⟨c, cs⟩
  · simpa using congrArg List.reverse hs
  · have hc : c.isWhitespace = false := by
      have h2 : s.getLast? = some c := by
        rw [← List.head?_reverse, hs, List.head?_cons]
      rw [h2] at h
      simpa using h
    rw [List.dropWhile_cons, hc]
    simp only [Bool.false_eq_true, if_false]
    rw [← hs, List.reverse_reverse]

theorem pyStrip_noop {s : Str} (h1 : s.head?.all (fun c => !c.isWhitespace) = true)
    (h2 : s.getLast?.all (fun c => !c.isWhitespace) = true) : pyStrip s = s := by
  unfold pyStrip
  rw [pyStripLeft_noop h1, pyStripRight_noop h2]

theorem pyStripLeft_length (s : Str) : (pyStripLeft s).length ≤ s.length :=
  (List.dropWhile_sublist _).length_le

theorem pyStripRight_length (s : Str) : (pyStripRight s).length ≤ s.length := by
  unfold pyStripRight
  simpa using (List.dropWhile_sublist (l := s.reverse) _).length_le

theorem pyStripLeft_eq_self_of_length {s : Str} (h : s.length ≤ (pyStripLeft s).length) :
    pyStripLeft s = s :=
  (List.dropWhile_suffix _).eq_of_length (Nat.le_antisymm (pyStripLeft_length s) h)

theorem pyStripRight_eq_self_of_length {s : Str} (h : s.length ≤ (pyStripRight s).length) :
    pyStripRight s = s := by
  have h2 := (List.dropWhile_suffix (l := s.reverse)
    (p := Char.isWhitespace)).eq_of_length ?_
  · unfold pyStripRight
    rw [h2, List.reverse_reverse]
  · have := pyStripRight_length s
    unfold pyStripRight at this h
    have h3 : (List.dropWhile Char.isWhitespace s.reverse).length = s.reverse.length := by
      simp only [List.length_reverse] at h ⊢
      have h4 : (List.dropWhile Char.isWhitespace s.reverse).length
          = ((List.dropWhile Char.isWhitespace s.reverse).reverse).length := by simp
      omega
    exact h3

theorem pyStrip_fix_left {s : Str} (h : pyStrip s = s) : pyStripLeft s = s := by
  have hlen : s.length ≤ (pyStripLeft s).length := by
    have h1 := pyStripRight_length (pyStripLeft s)
    have h2 : (pyStrip s).length = s.length := by rw [h]
    unfold pyStrip at h2
    omega
  exact pyStripLeft_eq_self_of_length hlen

theorem pyStrip_fix_right {s : Str} (h : pyStrip s = s) : pyStripRight s = s := by
  have hl := pyStrip_fix_left h
  unfold pyStrip at h
  rwa [hl] at h

theorem pyStrip_head {s : Str} (h : pyStrip s = s) :
    s.head?.all (fun c => !c.isWhitespace) = true := by
  have hl := pyStrip_fix_left h
  unfold pyStripLeft at hl
  have h5 := List.head?_dropWhile_not (fun c => c.isWhitespace) s
  rw [hl] at h5
  rcases hh : s.head? with _ | c
  · simp
  · rw [hh] at h5
    simpa using h5

theorem pyStrip_last {s : Str} (h : pyStrip s = s) :
    s.getLast?.all (fun c => !c.isWhitespace) = true := by
  have hr := pyStrip_fix_right h
  unfold pyStripRight at hr
  have h2 : List.dropWhile Char.isWhitespace s.reverse = s.reverse := by
    have := congrArg List.reverse hr
    simpa using this
  have h5 := List.head?_dropWhile_not (fun c => c.isWhitespace) s.reverse
  rw [h2, List.head?_reverse] at h5
  rcases hh : s.getLast? with _ | c
  · simp
  · rw [hh] at h5
    simpa using h5

theorem pyStripLeft_cons_ws {c : Char} {s : Str} (h : c.isWhitespace = true) :
    pyStripLeft (c :: s) = pyStripLeft s := by
  simp [pyStripLeft, List.dropWhile_cons, h]

theorem pyStrip_cons_ws {c : Char} {s : Str} (h : c.isWhitespace = true) :
    pyStrip (c :: s) = pyStrip s := by
  unfold pyStrip
  rw [pyStripLeft_cons_ws h]

theorem ws_cases {c : Char} (h : c.isWhitespace = true) :
    c = ' ' ∨ c = '\t' ∨ c = '\r' ∨ c = '\n' := by
  unfold Char.isWhitespace at h
  simpa [Bool.or_eq_true, decide_eq_true_eq, or_assoc] using h

theorem keyCharOk_not_ws {c : Char} (h : keyCharOk c = true) : c.isWhitespace = false := by
  cases hw : c.isWhitespace
  · rfl
  · rcases ws_cases hw with rfl | rfl | rfl | rfl <;> exact absurd h (by decide)

theorem isPrefixOf_false_of_head {c : Char} {n s : Str} (h : s.head? ≠ some c) :
    ((c :: n).isPrefixOf s) = false := by
  cases s with
  | nil => rfl
  | cons b bs =>
    simp only [List.head?_cons, ne_eq, Option.some.injEq] at h
    simp [List.isPrefixOf, List.isPrefixOf_iff_prefix, List.cons_prefix_cons]
    intro heq
    exact absurd heq.symm h

theorem singleton_isPrefixOf {c : Char} {s : Str} :
    ([c].isPrefixOf s = true) ↔ s.head? = some c := by
  cases s with
  | nil => simp [List.isPrefixOf]
  | cons b bs =>
    constructor
    · intro h
      simp only [List.isPrefixOf, Bool.and_eq_true, beq_iff_eq] at h
      simp [h.1]
    · intro h
      simp only [List.head?_cons, Option.some.injEq] at h
      simp [List.isPrefixOf, h]

theorem bool_pred_ne {p : Char → Bool} {c d : Char} (h : p c = true) (hd : p d = false) :
    c ≠ d := by
  intro he
  subst he
  rw [h] at hd
  cases hd

theorem findSub_key_colon (k x : Str) (hk : ∀ c ∈ k, c ≠ ':') :
    findSub [':'] (k ++ ':' :: x) 0 = some k.length := by
  have hpre : ([':'] : Str).isPrefixOf ((k ++ ':' :: x).drop k.length) = true := by
    rw [List.drop_left]
    exact singleton_isPrefixOf.mpr rfl
  have hmin : ∀ j, j < k.length → ¬(([':'] : Str).isPrefixOf ((k ++ ':' :: x).drop j) = true) := by
    intro j hj hpre2
    rw [singleton_isPrefixOf] at hpre2
    rw [List.drop_append_of_le_length (Nat.le_of_lt hj)] at hpre2
    rw [List.head?_append, List.head?_drop] at hpre2
    have hj2 : j < k.length := hj
    rw [List.getElem?_eq_getElem hj2] at hpre2
    simp only [Option.or_some] at hpre2
    have hmem : k[j] ∈ k := List.getElem_mem hj2
    exact hk _ hmem (by simpa using hpre2)
  have h := findSubAux_spec [':'] (by decide) (k ++ ':' :: x) k.length 0 hpre hmin
  unfold findSub
  rw [List.drop_zero, h]
  simp

theorem drop_len_succ (k : Str) (c : Char) (x : Str) :
    (k ++ c :: x).drop (k.length + 1) = x := by
  rw [List.drop_append]
  rfl

theorem blockSpan_break {lines : List Str}
    (h : match lines with
      | [] => True
      | l :: _ => pyStrip l ≠ [] ∧ (pyStrip l).head? ≠ some '#' ∧
          l.head?.all (fun c => !c.isWhitespace) = true) :
    blockSpan lines = ([], lines) := by
  cases lines with
  | nil => rfl
  | cons l rest =>
    obtain ⟨h1, h2, h3⟩ := h
    unfold blockSpan
    rw [if_neg h1, if_pos ⟨h2, h3⟩]

theorem blockSpan_collect {l : Str} {rest : List Str}
    (hws : l.head? = some ' ') (h1 : pyStrip l ≠ []) (h3 : (pyStrip l).head? ≠ some '#') :
    blockSpan (l :: rest) = (l :: (blockSpan rest).1, (blockSpan rest).2) := by
  have hcon : ¬((pyStrip l).head? ≠ some '#' ∧ (l.head?.all fun c => !c.isWhitespace) = true) := by
    rintro ⟨-, h2⟩
    rw [hws] at h2
    simp at h2
  have key : blockSpan (l :: rest) =
      (if pyStrip l = [] then ([], l :: rest)
       else if (pyStrip l).head? ≠ some '#' ∧ (l.head?.all fun c => !c.isWhitespace) = true then
         ([], l :: rest)
       else if (pyStrip l).head? = some '#' then blockSpan rest
       else (l :: (blockSpan rest).1, (blockSpan rest).2)) := rfl
  rw [key, if_neg h1, if_neg hcon, if_neg h3]

theorem insertRep_fresh {α : Type} (k : Str) (v : α) (l : List (Str × α))
    (h : ∀ p ∈ l, p.1 ≠ k) : insertRep k v l = l ++ [(k, v)] := by
  induction l with
  | nil => rfl
  | cons p rest ih =>
    obtain ⟨a, b⟩ := p
    unfold insertRep
    rw [if_neg (h (a, b) (by simp))]
    rw [ih fun q hq => h q (List.mem_cons_of_mem _ hq)]
    rfl

theorem lookupA_append_right {α : Type} (l1 l2 : List (Str × α)) (k : Str)
    (h : ∀ p ∈ l1, p.1 ≠ k) : lookupA (l1 ++ l2) k = lookupA l2 k := by
  induction l1 with
  | nil => rfl
  | cons p rest ih =>
    obtain ⟨a, b⟩ := p
    rw [List.cons_append]
    have key : lookupA ((a, b) :: (rest ++ l2)) k =
        if a = k then some b else lookupA (rest ++ l2) k := rfl
    rw [key, if_neg (h (a, b) (by simp)), ih fun q hq => h q (List.mem_cons_of_mem _ hq)]

theorem lookupA_filter_ne {α : Type} (l : List (Str × α)) (bad k : Str) (h : k ≠ bad) :
    lookupA (l.filter fun p => p.1 ≠ bad) k = lookupA l k := by
  induction l with
  | nil => rfl
  | cons p rest ih =>
    obtain ⟨a, b⟩ := p
    rw [List.filter_cons]
    by_cases hp : a = bad
    · rw [if_neg (by simp [hp])]
      have key : lookupA ((a, b) :: rest) k =
          if a = k then some b else lookupA rest k := rfl
      rw [key, if_neg (fun he => h (by rw [← he]; exact hp)), ih]
    · rw [if_pos (by simp [hp])]
      have key1 : lookupA ((a, b) :: (rest.filter fun p => p.1 ≠ bad)) k =
          if a = k then some b else lookupA (rest.filter fun p => p.1 ≠ bad) k := rfl
      have key2 : lookupA ((a, b) :: rest) k =
          if a = k then some b else lookupA rest k := rfl
      rw [key1, key2, ih]

theorem joinNl_cons (l : Str) (ls : List Str) (h : ls ≠ []) :
    joinNl (l :: ls) = l ++ '\n' :: joinNl ls := by
  cases ls with
  | nil => exact absurd rfl h
  | cons m rest =>
    simp [joinNl, List.intercalate, List.intersperse]

theorem splitlinesAux_no_nl (cur : Str) (l : Str) (h : '\n' ∉ l) :
    splitlinesAux cur l = [cur.reverse ++ l] := by
  induction l generalizing cur with
  | nil => simp [splitlinesAux]
  | cons c rest ih =>
    have hc : ¬(c = '\n') := fun he => h (by simp [he])
    unfold splitlinesAux
    rw [if_neg hc]
    rw [ih _ fun hm => h (by simp [hm])]
    simp

theorem splitlinesAux_sep (cur : Str) (l rest : Str) (h : '\n' ∉ l) (hr : rest ≠ []) :
    splitlinesAux cur (l ++ '\n' :: rest) = (cur.reverse ++ l) :: splitlinesAux [] rest := by
  induction l generalizing cur with
  | nil =>
    rw [List.nil_append]
    cases rest with
    | nil => exact absurd rfl hr
    | cons r rs =>
      have key : splitlinesAux cur ('\n' :: r :: rs) =
          cur.reverse :: splitlinesAux [] (r :: rs) := rfl
      rw [key]
      simp
  | cons c cs ih =>
    have hc : ¬(c = '\n') := fun he => h (by simp [he])
    rw [List.cons_append]
    have key : splitlinesAux cur (c :: (cs ++ '\n' :: rest)) =
        if c = '\n' then
          (match cs ++ '\n' :: rest with
            | [] => [cur.reverse]
            | _ => cur.reverse :: splitlinesAux [] (cs ++ '\n' :: rest))
        else splitlinesAux (c :: cur) (cs ++ '\n' :: rest) := rfl
    rw [key, if_neg hc]
    rw [ih _ fun hm => h (List.mem_cons_of_mem _ hm)]
    simp

theorem splitlinesPy_joinNl (ls : List Str) (h1 : ls ≠ [])
    (h2 : ∀ l ∈ ls, l ≠ [] ∧ '\n' ∉ l) : splitlinesPy (joinNl ls) = ls := by
  induction ls with
  | nil => exact absurd rfl h1
  | cons l rest ih =>
    obtain ⟨hl, hnl⟩ := h2 l (by simp)
    cases rest with
    | nil =>
      have hjoin : joinNl [l] = l := by simp [joinNl, List.intercalate, List.intersperse]
      rw [hjoin]
      cases hl2 : l with
      | nil => exact absurd hl2 hl
      | cons c cs =>
        have hpy : splitlinesPy (c :: cs) = splitlinesAux [] (c :: cs) := rfl
        rw [hpy]
        have hno := splitlinesAux_no_nl [] (c :: cs) (hl2 ▸ hnl)
        rw [hno]
        simp
    | cons m ms =>
      rw [joinNl_cons l (m :: ms) (by simp)]
      have hrest : joinNl (m :: ms) ≠ [] := by
        obtain ⟨hm, hx⟩ := h2 m (by simp)
        cases ms with
        | nil =>
          simpa [joinNl, List.intercalate, List.intersperse] using hm
        | cons m2 ms2 =>
          rw [joinNl_cons m (m2 :: ms2) (by simp)]
          cases hm2 : m with
          | nil => exact absurd hm2 hm
          | cons a as => simp
      have hsep := splitlinesAux_sep [] l (joinNl (m :: ms)) hnl hrest
      cases hl2 : l with
      | nil => exact absurd hl2 hl
      | cons c cs =>
        rw [hl2] at hsep
        have hpy : splitlinesPy ((c :: cs) ++ '\n' :: joinNl (m :: ms)) =
            splitlinesAux [] ((c :: cs) ++ '\n' :: joinNl (m :: ms)) := rfl
        rw [hpy, hsep]
        simp only [List.reverse_nil, List.nil_append]
        have ihr := ih (by simp) fun x hx => h2 x (List.mem_cons_of_mem _ hx)
        cases hj : joinNl (m :: ms) with
        | nil => exact absurd hj hrest
        | cons d ds =>
          rw [hj] at ihr
          have hpy2 : splitlinesPy (d :: ds) = splitlinesAux [] (d :: ds) := rfl
          rw [hpy2] at ihr
          rw [ihr]

theorem safe_ident_id (s : Str) (h : ∀ c ∈ s, keyCharOk c = true) : safe_ident s = s := by
  unfold safe_ident
  have hcong : s.map (fun c => if c.isAlphanum || c = '_' then c else '_') = s.map id := by
    refine List.map_congr_left fun c hc => ?_
    have hk := h c hc
    unfold keyCharOk at hk
    rw [if_pos hk]
    rfl
  rw [hcong, List.map_id]

theorem lookupA_self_of_nodup {α : Type} (l : List (Str × α)) (h : (l.map Prod.fst).Nodup) :
    ∀ kv ∈ l, lookupA l kv.1 = some kv.2 := by
  induction l with
  | nil => intro kv hkv; cases hkv
  | cons p rest ih =>
    obtain ⟨a, b⟩ := p
    rw [List.map_cons, List.nodup_cons] at h
    intro kv hkv
    rcases List.mem_cons.mp hkv with he | hm
    · subst he
      have key : lookupA ((a, b) :: rest) a = if a = a then some b else lookupA rest a := rfl
      rw [key, if_pos rfl]
    · have hne : a ≠ kv.1 := by
        intro hcon
        exact h.1 (hcon ▸ List.mem_map.mpr ⟨kv, hm, rfl⟩)
      have key : lookupA ((a, b) :: rest) kv.1 =
          if a = kv.1 then some b else lookupA rest kv.1 := rfl
      rw [key, if_neg hne]
      exact ih h.2 kv hm

theorem lookupA_append_left {α : Type} {l1 l2 : List (Str × α)} {k : Str} {v : α}
    (h : lookupA l1 k = some v) : lookupA (l1 ++ l2) k = some v := by
  induction l1 with
  | nil => cases h
  | cons p rest ih =>
    obtain ⟨a, b⟩ := p
    have key : lookupA ((a, b) :: rest) k = if a = k then some b else lookupA rest k := rfl
    have key2 : lookupA ((a, b) :: (rest ++ l2)) k =
        if a = k then some b else lookupA (rest ++ l2) k := rfl
    rw [key] at h
    rw [List.cons_append, key2]
    by_cases ha : a = k
    · rw [if_pos ha] at h
      rw [if_pos ha]
      exact h
    · rw [if_neg ha] at h
      rw [if_neg ha]
      exact ih h

theorem lookupA_map_value {α β : Type} (f : α → β) (l : List (Str × α)) (k : Str) :
    lookupA (l.map fun kv => (kv.1, f kv.2)) k = (lookupA l k).map f := by
  induction l with
  | nil => rfl
  | cons p rest ih =>
    obtain ⟨a, b⟩ := p
    rw [List.map_cons]
    have key : lookupA ((a, f b) :: (rest.map fun kv => (kv.1, f kv.2))) k =
        if a = k then some (f b) else lookupA (rest.map fun kv => (kv.1, f kv.2)) k := rfl
    have key2 : lookupA ((a, b) :: rest) k = if a = k then some b else lookupA rest k := rfl
    rw [key, key2]
    by_cases ha : a = k
    · rw [if_pos ha, if_pos ha]
      rfl
    · rw [if_neg ha, if_neg ha]
      exact ih

theorem lookupA_eq_none {α : Type} {l : List (Str × α)} {k : Str}
    (h : ∀ p ∈ l, p.1 ≠ k) : lookupA l k = none := by
  induction l with
  | nil => rfl
  | cons p rest ih =>
    obtain ⟨a, b⟩ := p
    have key : lookupA ((a, b) :: rest) k = if a = k then some b else lookupA rest k := rfl
    rw [key, if_neg (h (a, b) (by simp))]
    exact ih fun q hq => h q (List.mem_cons_of_mem _ hq)

theorem nodeUpsert_lookup (nodes : List (Str × Str)) (n ty : Str) :
    lookupA (nodeUpsert nodes n ty) n = some ty := by
  unfold nodeUpsert
  rw [lookupA_append_right _ _ _ fun p hp => of_decide_eq_true (List.mem_filter.mp hp).2]
  have key : lookupA [(n, ty)] n = if n = n then some ty else lookupA [] n := rfl
  rw [key, if_pos rfl]

theorem find?_append_right {α : Type} {p : α → Bool} {l1 l2 : List α}
    (h : ∀ x ∈ l1, p x = false) : List.find? p (l1 ++ l2) = List.find? p l2 := by
  induction l1 with
  | nil => rfl
  | cons a rest ih =>
    rw [List.cons_append, List.find?_cons, h a (by simp)]
    exact ih fun x hx => h x (List.mem_cons_of_mem _ hx)

theorem rowFind_rowReplace (rows : List Row) (r : Row) :
    rowFind (rowReplace rows r) r.rname = some r := by
  unfold rowFind rowReplace
  rw [find?_append_right fun r0 h0 => ?_]
  · rw [List.find?_cons]
    have : decide (r.rname = r.rname) = true := by simp
    rw [this]
  · have hne : r0.rname ≠ r.rname := of_decide_eq_true (List.mem_filter.mp h0).2
    simpa using hne

theorem updateTable_cons (a : Str) (t : Table) (rest : List (Str × Table)) (key : Str)
    (f : Table → Table) :
    updateTable ((a, t) :: rest) key f =
      (if a = key then (a, f t) else (a, t)) :: updateTable rest key f := by
  unfold updateTable
  rw [List.map_cons]

theorem updateTable_lookup (tables : List (Str × Table)) (key : Str) (f : Table → Table) :
    lookupA (updateTable tables key f) key = (lookupA tables key).map f := by
  induction tables with
  | nil => rfl
  | cons p rest ih =>
    obtain ⟨a, t⟩ := p
    rw [updateTable_cons]
    by_cases ha : a = key
    · rw [if_pos ha]
      have key1 : lookupA ((a, f t) :: updateTable rest key f) key =
          if a = key then some (f t) else lookupA (updateTable rest key f) key := rfl
      have key2 : lookupA ((a, t) :: rest) key =
          if a = key then some t else lookupA rest key := rfl
      rw [key1, key2, if_pos ha, if_pos ha]
      rfl
    · rw [if_neg ha]
      have key1 : lookupA ((a, t) :: updateTable rest key f) key =
          if a = key then some t else lookupA (updateTable rest key f) key := rfl
      have key2 : lookupA ((a, t) :: rest) key =
          if a = key then some t else lookupA rest key := rfl
      rw [key1, key2, if_neg ha, if_neg ha]
      exact ih

theorem updateTable_lookup_ne (tables : List (Str × Table)) (key k2 : Str) (f : Table → Table)
    (h : k2 ≠ key) : lookupA (updateTable tables key f) k2 = lookupA tables k2 := by
  induction tables with
  | nil => rfl
  | cons p rest ih =>
    obtain ⟨a, t⟩ := p
    rw [updateTable_cons]
    by_cases ha : a = key
    · rw [if_pos ha]
      have key1 : lookupA ((a, f t) :: updateTable rest key f) k2 =
          if a = k2 then some (f t) else lookupA (updateTable rest key f) k2 := rfl
      have key2 : lookupA ((a, t) :: rest) k2 =
          if a = k2 then some t else lookupA rest k2 := rfl
      have hak : a ≠ k2 := fun he => h (by rw [← he]; exact ha)
      rw [key1, key2, if_neg hak, if_neg hak]
      exact ih
    · rw [if_neg ha]
      have key1 : lookupA ((a, t) :: updateTable rest key f) k2 =
          if a = k2 then some t else lookupA (updateTable rest key f) k2 := rfl
      have key2 : lookupA ((a, t) :: rest) k2 =
          if a = k2 then some t else lookupA rest k2 := rfl
      rw [key1, key2]
      by_cases hak : a = k2
      · rw [if_pos hak, if_pos hak]
      · rw [if_neg hak, if_neg hak]
        exact ih

theorem findSub_zero_none {needle hay : Str} (h : hasSub needle hay = false) :
    findSub needle hay 0 = none := by
  unfold hasSub at h
  unfold findSub
  rw [List.drop_zero]
  rcases hfa : findSubAux needle hay 0 with _ | i
  · rfl
  · rw [hfa] at h
    simp at h

theorem unquote_noquote {v : Str} (h : v.head? ≠ some '"') (h2 : v.head? ≠ some squote) :
    unquote v = v := by
  cases v with
  | nil => rfl
  | cons c rest =>
    have key : unquote (c :: rest) =
        if rest ≠ [] ∧ ((c = '"' ∧ rest.getLast? = some '"') ∨
            (c = squote ∧ rest.getLast? = some squote)) then
          rest.dropLast
        else c :: rest := rfl
    rw [key, if_neg ?hcon]
    case hcon =>
      rintro ⟨-, hq | hq⟩
      · exact h (by simp [hq.1])
      · exact h2 (by simp [hq.1])

theorem fence_prefix_head2 {s : Str} (h : (strLit "\n---").isPrefixOf s = true) :
    s.head? = some '\n' ∧ (s.drop 1).head? = some '-' := by
  rw [List.isPrefixOf_iff_prefix] at h
  obtain ⟨t, ht⟩ := h
  rw [← ht]
  exact ⟨rfl, rfl⟩

theorem fence_clean_line (l : Str) (rest : Str) (hl : l ≠ []) (hnl : '\n' ∉ l)
    (hh : l.head? ≠ some '-') :
    ∀ j, j < l.length + 1 →
      ¬((strLit "\n---").isPrefixOf ((('\n' :: l) ++ rest).drop j) = true) := by
  intro j hj hpre
  obtain ⟨h1, h2⟩ := fence_prefix_head2 hpre
  rw [List.drop_drop] at h2
  rw [List.head?_drop] at h1
  rw [List.head?_drop] at h2
  cases j with
  | zero =>
    cases l with
    | nil => exact hl rfl
    | cons c cs =>
      have h2x : ((('\n' :: c :: cs) ++ rest))[1]? = some c := by simp
      have hc : c = '-' := by
        have h2y := h2
        rw [h2x] at h2y
        simpa using h2y
      exact hh (by simp [hc])
  | succ j0 =>
    have hj0 : j0 < l.length := by omega
    have hlt : j0 + 1 < ('\n' :: l).length := by simp; omega
    rw [List.getElem?_append_left hlt] at h1
    rw [List.getElem?_cons_succ] at h1
    rw [List.getElem?_eq_getElem hj0] at h1
    have : l[j0] = '\n' := by simpa using h1
    exact hnl (this ▸ List.getElem_mem hj0)

theorem fence_clean_lines (b : Str) : ∀ (ls : List Str),
    (∀ l ∈ ls, l ≠ [] ∧ '\n' ∉ l ∧ l.head? ≠ some '-') → ls ≠ [] →
    ∀ j, j < ('\n' :: joinNl ls).length →
      ¬((strLit "\n---").isPrefixOf ((('\n' :: joinNl ls) ++ strLit "\n---" ++ b).drop j) = true) := by
  intro ls
  induction ls with
  | nil => intro hx hne; exact absurd rfl hne
  | cons l rest ih =>
    intro hls hne j hj
    obtain ⟨hl1, hl2, hl3⟩ := hls l (by simp)
    cases rest with
    | nil =>
      have hjoin : joinNl [l] = l := by simp [joinNl, List.intercalate, List.intersperse]
      rw [hjoin] at hj ⊢
      have hS : ('\n' :: l) ++ strLit "\n---" ++ b = ('\n' :: l) ++ (strLit "\n---" ++ b) := by
        simp [List.append_assoc]
      rw [hS]
      exact fence_clean_line l _ hl1 hl2 hl3 j (by simpa using hj)
    | cons m ms =>
      rw [joinNl_cons l (m :: ms) (by simp)] at hj ⊢
      have hS : ('\n' :: (l ++ '\n' :: joinNl (m :: ms))) ++ strLit "\n---" ++ b
          = ('\n' :: l) ++ (('\n' :: joinNl (m :: ms)) ++ strLit "\n---" ++ b) := by
        simp [List.append_assoc]
      rw [hS]
      by_cases hjl : j < l.length + 1
      · exact fence_clean_line l _ hl1 hl2 hl3 j hjl
      · intro hpre
        have hj2 : j = ('\n' :: l).length + (j - (l.length + 1)) := by simp; omega
        rw [hj2] at hpre
        rw [List.drop_append] at hpre
        refine ih (fun x hx => hls x (List.mem_cons_of_mem _ hx)) (by simp)
          (j - (l.length + 1)) ?_ hpre
        simp only [List.length_cons, List.length_append] at hj ⊢
        omega

theorem head?_append_left {l1 l2 : Str} (h : l1 ≠ []) : (l1 ++ l2).head? = l1.head? := by
  cases l1 with
  | nil => exact absurd rfl h
  | cons c cs => rfl

theorem getLast?_append_right {l1 l2 : Str} (h : l2 ≠ []) :
    (l1 ++ l2).getLast? = l2.getLast? := by
  rw [← List.head?_reverse, List.reverse_append, head?_append_left (by simpa using h),
    List.head?_reverse]

theorem intercalate_cons2 (sep : Str) (l : Str) (ls : List Str) (h : ls ≠ []) :
    List.intercalate sep (l :: ls) = l ++ sep ++ List.intercalate sep ls := by
  cases ls with
  | nil => exact absurd rfl h
  | cons m rest => simp [List.intercalate, List.intersperse, List.append_assoc]

theorem intercalate_single (sep : Str) (l : Str) : List.intercalate sep [l] = l := by
  simp [List.intercalate, List.intersperse]

theorem mem_intercalate {c : Char} {sep : Str} {ls : List Str}
    (h : c ∈ List.intercalate sep ls) : (∃ l ∈ ls, c ∈ l) ∨ c ∈ sep := by
  induction ls with
  | nil => simp [List.intercalate] at h
  | cons l rest ih =>
    cases rest with
    | nil =>
      rw [intercalate_single] at h
      exact Or.inl ⟨l, by simp, h⟩
    | cons m ms =>
      rw [intercalate_cons2 sep l (m :: ms) (by simp)] at h
      rcases List.mem_append.mp h with h2 | h2
      · rcases List.mem_append.mp h2 with h3 | h3
        · exact Or.inl ⟨l, by simp, h3⟩
        · exact Or.inr h3
      · rcases ih h2 with ⟨x, hx, hcx⟩ | h3
        · exact Or.inl ⟨x, List.mem_cons_of_mem _ hx, hcx⟩
        · exact Or.inr h3

theorem ne_nil_of_isEmpty_eq_false {α : Type} {l : List α} (h : l.isEmpty = false) :
    l ≠ [] := by
  cases l with
  | nil => simp at h
  | cons a b => simp

theorem stableKey_props {k : Str} (h : stableKey k = true) :
    k ≠ [] ∧ (∀ c ∈ k, keyCharOk c = true) ∧ k ≠ strLit "name" ∧ k ≠ strLit "content" := by
  simp only [stableKey, Bool.and_eq_true, Bool.not_eq_true',
    List.all_eq_true, decide_eq_true_eq, ne_eq] at h
  exact ⟨ne_nil_of_isEmpty_eq_false h.1.1.1, h.1.1.2, h.1.2, h.2⟩

theorem stableScalar_props {v : Str} (h : stableScalar v = true) :
    v ≠ [] ∧ (∀ c ∈ v, plainChar c = true) ∧ pyStrip v = v ∧ v.head? ≠ some '[' ∧
      v.head? ≠ some (Char.ofNat 123) ∧ hasSub (strLit " #") v = false := by
  simp only [stableScalar, Bool.and_eq_true, Bool.not_eq_true',
    List.all_eq_true, decide_eq_true_eq, beq_iff_eq, ne_eq] at h
  exact ⟨ne_nil_of_isEmpty_eq_false h.1.1.1.1.1, h.1.1.1.1.2, h.1.1.1.2, h.1.1.2, h.1.2, h.2⟩

theorem stableItem_props {e : Str} (h : stableItem e = true) :
    e ≠ [] ∧ (∀ c ∈ e, plainChar c = true ∧ c ≠ ',') ∧ pyStrip e = e := by
  simp only [stableItem, Bool.and_eq_true, Bool.not_eq_true',
    List.all_eq_true, decide_eq_true_eq, beq_iff_eq, ne_eq] at h
  exact ⟨ne_nil_of_isEmpty_eq_false h.1.1, fun c hc => h.1.2 c hc, h.2⟩

theorem stableSubKey_props {sk : Str} (h : stableSubKey sk = true) :
    sk ≠ [] ∧ (∀ c ∈ sk, plainChar c = true ∧ c ≠ ':') ∧ pyStrip sk = sk ∧
      sk.head? ≠ some '#' ∧ sk.head? ≠ some '-' := by
  simp only [stableSubKey, Bool.and_eq_true, Bool.not_eq_true',
    List.all_eq_true, decide_eq_true_eq, beq_iff_eq, ne_eq] at h
  exact ⟨ne_nil_of_isEmpty_eq_false h.1.1.1.1, fun c hc => h.1.1.1.2 c hc, h.1.1.2,
    h.1.2, h.2⟩

theorem stableSubVal_props {sv : Str} (h : stableSubVal sv = true) :
    sv ≠ [] ∧ (∀ c ∈ sv, plainChar c = true) ∧ pyStrip sv = sv := by
  simp only [stableSubVal, Bool.and_eq_true, Bool.not_eq_true',
    List.all_eq_true, decide_eq_true_eq, beq_iff_eq, ne_eq] at h
  exact ⟨ne_nil_of_isEmpty_eq_false h.1.1, h.1.2, h.2⟩

theorem renderLines_clean (k : Str) (v : Value) (hk : stableKey k = true)
    (hv : stableValue v = true) :
    ∀ l ∈ renderValueLines k v, l ≠ [] ∧ '\n' ∉ l ∧ l.head? ≠ some '-' := by
  obtain ⟨hk1, hk2, hk3, hk4⟩ := stableKey_props hk
  have hknl : '\n' ∉ k := fun hm => absurd (hk2 _ hm) (by decide)
  have hkhd : ∀ x : Str, (k ++ x).head? ≠ some '-' := by
    intro x hcon
    rw [head?_append_left hk1] at hcon
    cases k with
    | nil => exact hk1 rfl
    | cons a b =>
      have ha := hk2 a (by simp)
      have hae : a = '-' := by simpa using hcon
      rw [hae] at ha
      exact absurd ha (by decide)
  have hkne : ∀ x : Str, k ++ x ≠ [] := by
    intro x hcon
    cases k with
    | nil => exact hk1 rfl
    | cons a b => simp at hcon
  cases v with
  | s sv =>
    have hvs : stableScalar sv = true := hv
    obtain ⟨hv1, hv2, hv3, hv4, hv5, hv6⟩ := stableScalar_props hvs
    intro l hl
    simp only [renderValueLines, List.mem_singleton] at hl
    subst hl
    refine ⟨?_, ?_, ?_⟩
    · intro hcon
      rw [List.append_assoc] at hcon
      exact hkne _ hcon
    · intro hm
      rcases List.mem_append.mp hm with h2 | h2
      · rcases List.mem_append.mp h2 with h3 | h3
        · exact hknl h3
        · exact absurd h3 (by decide)
      · exact absurd (hv2 _ h2) (by decide)
    · rw [List.append_assoc]
      exact hkhd _
  | l items =>
    have hvl : items.all stableItem = true := hv
    intro l hl
    simp only [renderValueLines, List.mem_singleton] at hl
    subst hl
    refine ⟨?_, ?_, ?_⟩
    · intro hcon
      simp at hcon
    · intro hm
      rcases List.mem_append.mp hm with h2 | h2
      · rcases List.mem_append.mp h2 with h3 | h3
        · rcases List.mem_append.mp h3 with h4 | h4
          · exact hknl h4
          · exact absurd h4 (by decide)
        · rcases mem_intercalate h3 with ⟨x, hx, hcx⟩ | h4
          · obtain ⟨hx1, hx2, hx3⟩ := stableItem_props (List.all_eq_true.mp hvl x hx)
            exact absurd (hx2 _ hcx).1 (by decide)
          · exact absurd h4 (by decide)
      · exact absurd h2 (by decide)
    · rw [List.append_assoc, List.append_assoc]
      exact hkhd _
  | m pairs =>
    have hpairs : ∀ p ∈ pairs, stableSubKey p.1 = true ∧ stableSubVal p.2 = true := by
      have h2 : (pairs.all fun p => stableSubKey p.1 && stableSubVal p.2) = true := by
        simp only [stableValue, Bool.and_eq_true] at hv
        exact hv.1.2
      intro p hp
      simpa using List.all_eq_true.mp h2 p hp
    intro l hl
    have key : renderValueLines k (Value.m pairs) =
        (k ++ [':']) :: pairs.map (fun p => strLit "  " ++ p.1 ++ strLit ": " ++ p.2) := rfl
    rw [key] at hl
    rcases List.mem_cons.mp hl with he | hm2
    · subst he
      refine ⟨hkne _, ?_, hkhd _⟩
      intro hm
      rcases List.mem_append.mp hm with h2 | h2
      · exact hknl h2
      · exact absurd h2 (by decide)
    · obtain ⟨p, hp, hpe⟩ := List.mem_map.mp hm2
      obtain ⟨hsk, hsv⟩ := hpairs p hp
      obtain ⟨hs1, hs2, hs3, hs4, hs5⟩ := stableSubKey_props hsk
      obtain ⟨ht1, ht2, ht3⟩ := stableSubVal_props hsv
      subst hpe
      refine ⟨?_, ?_, ?_⟩
      · intro hcon
        simp [strLit] at hcon
      · intro hm
        rcases List.mem_append.mp hm with h2 | h2
        · rcases List.mem_append.mp h2 with h3 | h3
          · rcases List.mem_append.mp h3 with h4 | h4
            · exact absurd h4 (by decide)
            · exact absurd (hs2 _ h4).1 (by decide)
          · exact absurd h3 (by decide)
        · exact absurd (ht2 _ h2) (by decide)
      · intro hcon
        rw [head?_append_left (show strLit "  " ++ p.1 ++ strLit ": " ≠ [] by simp [strLit])]
          at hcon
        rw [head?_append_left (show strLit "  " ++ p.1 ≠ [] by simp [strLit])] at hcon
        rw [head?_append_left (show strLit "  " ≠ [] by simp [strLit])] at hcon
        exact absurd hcon (by decide)

theorem parseYamlAux_cons (fuel : Nat) (line : Str) (rest : List Str) (acc : AList) :
    parseYamlAux (fuel + 1) (line :: rest) acc =
      (if pyStrip line = [] ∨ (pyStrip line).head? = some '#' then parseYamlAux fuel rest acc
       else
         match findSub [':'] (pyStrip line) 0 with
         | none => parseYamlAux fuel rest acc
         | some colon =>
           if stripInlineComment (pyStrip ((pyStrip line).drop (colon + 1))) ≠ [] then
             parseYamlAux fuel rest
               (insertRep (pyStrip ((pyStrip line).take colon))
                 (parseYamlValue
                   (stripInlineComment (pyStrip ((pyStrip line).drop (colon + 1))))) acc)
           else
             parseYamlAux fuel (blockSpan rest).2
               (insertRep (pyStrip ((pyStrip line).take colon))
                 (blockValue (blockSpan rest).1) acc)) := rfl

theorem parseYamlAux_cons_some (fuel : Nat) (line : Str) (rest : List Str) (acc : AList)
    (colon : Nat) (h1 : ¬(pyStrip line = [] ∨ (pyStrip line).head? = some '#'))
    (h2 : findSub [':'] (pyStrip line) 0 = some colon) :
    parseYamlAux (fuel + 1) (line :: rest) acc =
      (if stripInlineComment (pyStrip ((pyStrip line).drop (colon + 1))) ≠ [] then
         parseYamlAux fuel rest
           (insertRep (pyStrip ((pyStrip line).take colon))
             (parseYamlValue
               (stripInlineComment (pyStrip ((pyStrip line).drop (colon + 1))))) acc)
       else
         parseYamlAux fuel (blockSpan rest).2
           (insertRep (pyStrip ((pyStrip line).take colon))
             (blockValue (blockSpan rest).1) acc)) := by
  rw [parseYamlAux_cons, if_neg h1, h2]

theorem mem_of_head2 {c : Char} {s : Str} (h : s.head? = some c) : c ∈ s := by
  cases s with
  | nil => cases h
  | cons a b =>
    have ha : a = c := by simpa using h
    rw [← ha]
    exact List.mem_cons_self a b

theorem mem_of_getLast2 {c : Char} {s : Str} (h : s.getLast? = some c) : c ∈ s := by
  have h2 : s.reverse.head? = some c := by rw [List.head?_reverse]; exact h
  have := mem_of_head2 h2
  simpa using this

theorem pyStrip_of_keyChars {k : Str} (h : ∀ c ∈ k, keyCharOk c = true) : pyStrip k = k := by
  cases k with
  | nil => rfl
  | cons a b =>
    apply pyStrip_noop
    · simpa using keyCharOk_not_ws (h a (by simp))
    · rcases hl : (a :: b).getLast? with _ | c
      · simp at hl
      · simpa using keyCharOk_not_ws (h c (mem_of_getLast2 hl))

theorem stripInlineComment_plain {v : Str} (h1 : v ≠ []) (h2 : v.head? ≠ some '[')
    (hq : ∀ c ∈ v, plainChar c = true) (h3 : hasSub (strLit " #") v = false) :
    stripInlineComment v = v := by
  have hcond : v ≠ [] ∧ v.head? ≠ some '[' ∧ v.head? ≠ some '"' ∧ v.head? ≠ some squote :=
    ⟨h1, h2, fun hcon => absurd (hq _ (mem_of_head2 hcon)) (by decide),
      fun hcon => absurd (hq _ (mem_of_head2 hcon)) (by decide)⟩
  unfold stripInlineComment
  rw [if_pos hcond, findSub_zero_none h3]

theorem stripInlineComment_bracket {v : Str} (h : v.head? = some '[') :
    stripInlineComment v = v := by
  unfold stripInlineComment
  rw [if_neg (fun hcon => hcon.2.1 h)]

theorem stripInlineComment_nil : stripInlineComment [] = [] := by
  unfold stripInlineComment
  rw [if_neg (fun hcon => hcon.1 rfl)]

theorem parseYamlValue_scalar {v : Str} (h2 : v.head? ≠ some '[')
    (hq : ∀ c ∈ v, plainChar c = true) : parseYamlValue v = .s v := by
  unfold parseYamlValue
  rw [if_neg (fun hcon => h2 hcon.1)]
  rw [unquote_noquote (fun hcon => absurd (hq _ (mem_of_head2 hcon)) (by decide))
    (fun hcon => absurd (hq _ (mem_of_head2 hcon)) (by decide))]

theorem pyStrip_spaces_append {pre : Str} (h : ∀ c ∈ pre, c = ' ') (s : Str) :
    pyStrip (pre ++ s) = pyStrip s := by
  induction pre with
  | nil => rfl
  | cons c cs ih =>
    rw [List.cons_append, pyStrip_cons_ws (by rw [h c (by simp)]; decide)]
    exact ih fun x hx => h x (List.mem_cons_of_mem _ hx)

theorem findSubAux_isSome_of_mem {c : Char} {s : Str} (h : c ∈ s) :
    ∀ i, (findSubAux [c] s i).isSome = true := by
  induction s with
  | nil => cases h
  | cons a rest ih =>
    intro i
    unfold findSubAux
    by_cases hp : ([c] : Str).isPrefixOf (a :: rest) = true
    · rw [if_pos hp]
      rfl
    · rw [if_neg hp]
      have hac : ¬(a = c) := by
        intro he
        exact hp (singleton_isPrefixOf.mpr (by simp [he]))
      have hm : c ∈ rest := by
        rcases List.mem_cons.mp h with he | hm
        · exact absurd he.symm hac
        · exact hm
      exact ih hm (i + 1)

theorem hasSub_of_mem {c : Char} {s : Str} (h : c ∈ s) : hasSub [c] s = true :=
  findSubAux_isSome_of_mem h 0

theorem splitYamlListAux_consume (e : Str) (he : ∀ c ∈ e, c ≠ '"' ∧ c ≠ squote ∧ c ≠ ',') :
    ∀ (s current : Str),
      splitYamlListAux (e ++ s) none current = splitYamlListAux s none (e.reverse ++ current) := by
  induction e with
  | nil => intro s current; simp
  | cons c cs ih =>
    intro s current
    obtain ⟨hq1, hq2, hc⟩ := he c (by simp)
    rw [List.cons_append]
    have key : splitYamlListAux (c :: (cs ++ s)) none current =
        (if c = '"' ∨ c = squote then splitYamlListAux (cs ++ s) (some c) (c :: current)
         else if c = ',' then pyStrip current.reverse :: splitYamlListAux (cs ++ s) none []
         else splitYamlListAux (cs ++ s) none (c :: current)) := rfl
    rw [key, if_neg (by rintro (h | h) <;> [exact hq1 h; exact hq2 h]), if_neg hc]
    rw [ih (fun x hx => he x (List.mem_cons_of_mem _ hx)) s (c :: current)]
    rw [List.reverse_cons, List.append_assoc]
    rfl

theorem splitYamlListAux_comma (s current : Str) :
    splitYamlListAux (',' :: s) none current =
      pyStrip current.reverse :: splitYamlListAux s none [] := by
  have key : splitYamlListAux (',' :: s) none current =
      (if (',' : Char) = '"' ∨ (',' : Char) = squote then
        splitYamlListAux s (some ',') (',' :: current)
       else if (',' : Char) = ',' then pyStrip current.reverse :: splitYamlListAux s none []
       else splitYamlListAux s none (',' :: current)) := rfl
  rw [key, if_neg (by decide), if_pos rfl]

theorem splitYamlListAux_chunks (items : List Str) (hitems : ∀ e ∈ items, stableItem e = true)
    (hne : items ≠ []) :
    ∀ pre : Str, (∀ c ∈ pre, c = ' ') →
      splitYamlListAux (pre ++ List.intercalate (strLit ", ") items) none [] = items := by
  induction items with
  | nil => exact absurd rfl hne
  | cons e rest ih =>
    intro pre hpre
    obtain ⟨he1, he2, he3⟩ := stableItem_props (hitems e (by simp))
    have hech : ∀ c ∈ pre ++ e, c ≠ '"' ∧ c ≠ squote ∧ c ≠ ',' := by
      intro c hcm
      rcases List.mem_append.mp hcm with hcm | hcm
      · rw [hpre c hcm]
        exact ⟨by decide, by decide, by decide⟩
      · obtain ⟨hp, hcc⟩ := he2 c hcm
        exact ⟨bool_pred_ne hp (by decide), bool_pred_ne hp (by decide), hcc⟩
    have hstrip : pyStrip ((pre ++ e).reverse.reverse) = e := by
      rw [List.reverse_reverse, pyStrip_spaces_append hpre, he3]
    cases rest with
    | nil =>
      rw [intercalate_single]
      have h0 : pre ++ e = (pre ++ e) ++ [] := by simp
      rw [h0, splitYamlListAux_consume _ hech [] []]
      have key : splitYamlListAux ([] : Str) none ((pre ++ e).reverse ++ []) =
          (if (pre ++ e).reverse ++ [] ≠ [] then [pyStrip ((pre ++ e).reverse ++ []).reverse]
           else []) := rfl
      rw [key, if_pos (by simp [he1])]
      simp only [List.append_nil]
      rw [hstrip]
    | cons f frest =>
      rw [intercalate_cons2 _ _ _ (by simp)]
      have hform : pre ++ (e ++ strLit ", " ++ List.intercalate (strLit ", ") (f :: frest))
          = (pre ++ e) ++ (',' :: (' ' :: List.intercalate (strLit ", ") (f :: frest))) := by
        simp [List.append_assoc]
        rfl
      rw [hform, splitYamlListAux_consume _ hech _ []]
      rw [splitYamlListAux_comma]
      simp only [List.append_nil]
      rw [hstrip]
      have hstep : (' ' :: List.intercalate (strLit ", ") (f :: frest))
          = [' '] ++ List.intercalate (strLit ", ") (f :: frest) := rfl
      rw [hstep, ih (fun x hx => hitems x (List.mem_cons_of_mem _ hx)) (by simp) [' ']
        (by intro c hc; simpa using hc)]

theorem blockSpan_collect_all (ls : List Str)
    (hcol : ∀ l ∈ ls, l.head? = some ' ' ∧ pyStrip l ≠ [] ∧ (pyStrip l).head? ≠ some '#')
    (rest2 : List Str)
    (hrest : match rest2 with
      | [] => True
      | l :: _ => pyStrip l ≠ [] ∧ (pyStrip l).head? ≠ some '#' ∧
          l.head?.all (fun c => !c.isWhitespace) = true) :
    blockSpan (ls ++ rest2) = (ls, rest2) := by
  induction ls with
  | nil => simpa using blockSpan_break hrest
  | cons l lsr ih =>
    obtain ⟨h1, h2, h3⟩ := hcol l (by simp)
    rw [List.cons_append, blockSpan_collect h1 h2 h3,
      ih fun x hx => hcol x (List.mem_cons_of_mem _ hx)]

theorem key_line_head_ws {k : Str} (hk1 : k ≠ []) (hk2 : ∀ c ∈ k, keyCharOk c = true)
    (x : Str) : ((k ++ x).head?.all fun c => !c.isWhitespace) = true := by
  rw [head?_append_left hk1]
  cases k with
  | nil => exact absurd rfl hk1
  | cons a b => simpa using keyCharOk_not_ws (hk2 a (by simp))

theorem key_line_head_ne {k : Str} (hk1 : k ≠ []) (hk2 : ∀ c ∈ k, keyCharOk c = true)
    (x : Str) {d : Char} (hd : keyCharOk d = false) : (k ++ x).head? ≠ some d := by
  rw [head?_append_left hk1]
  cases k with
  | nil => exact absurd rfl hk1
  | cons a b =>
    intro hcon
    have ha := hk2 a (by simp)
    rw [show a = d by simpa using hcon, hd] at ha
    simp at ha

theorem key_line_ne_nil {k : Str} (hk1 : k ≠ []) (x : Str) : k ++ x ≠ [] := by
  cases k with
  | nil => exact absurd rfl hk1
  | cons a b => simp

theorem pyStripRight_isPref (l : Str) : pyStripRight l <+: l := by
  unfold pyStripRight
  have h := (List.dropWhile_suffix (l := l.reverse) (p := Char.isWhitespace)).reverse
  rwa [List.reverse_reverse] at h

theorem prefix_head {l1 l2 : Str} (h : l1 <+: l2) (hne : l1 ≠ []) : l1.head? = l2.head? := by
  obtain ⟨t, ht⟩ := h
  rw [← ht, head?_append_left hne]

theorem pyStripRight_ne_nil {l : Str} {c : Char} (hc : c ∈ l) (hw : c.isWhitespace = false) :
    pyStripRight l ≠ [] := by
  intro hcon
  unfold pyStripRight at hcon
  have h2 : List.dropWhile Char.isWhitespace l.reverse = [] := by
    have := congrArg List.reverse hcon
    simpa using this
  have h3 := List.dropWhile_eq_nil_iff.mp h2 c (by simpa using hc)
  rw [hw] at h3
  cases h3

theorem key_led_break {l1 : Str} {k : Str} (hk1 : k ≠ []) (hk2 : ∀ c ∈ k, keyCharOk c = true)
    (hhead : l1.head? = k.head?) :
    pyStrip l1 ≠ [] ∧ (pyStrip l1).head? ≠ some '#' ∧
      l1.head?.all (fun c => !c.isWhitespace) = true := by
  obtain ⟨c0, k0, hk0⟩ : ∃ c0 k0, k = c0 :: k0 := by
    cases k with
    | nil => exact absurd rfl hk1
    | cons a b => exact ⟨a, b, rfl⟩
  have hh1 : l1.head? = some c0 := by rw [hhead, hk0]; rfl
  have hc0 : keyCharOk c0 = true := hk2 c0 (by simp [hk0])
  have hc0w : c0.isWhitespace = false := keyCharOk_not_ws hc0
  have hLs : pyStrip l1 = pyStripRight l1 := by
    unfold pyStrip
    rw [pyStripLeft_noop (by rw [hh1]; simpa using hc0w)]
  have hne : pyStripRight l1 ≠ [] := pyStripRight_ne_nil (mem_of_head2 hh1) hc0w
  have hph : (pyStripRight l1).head? = some c0 := by
    rw [prefix_head (pyStripRight_isPref l1) hne, hh1]
  refine ⟨by rw [hLs]; exact hne, ?_, by rw [hh1]; simpa using hc0w⟩
  rw [hLs, hph]
  intro hcon
  have : c0 = '#' := by simpa using hcon
  rw [this] at hc0
  exact absurd hc0 (by decide)

theorem intercalate_ne_nil {items : List Str} (h : ∀ e ∈ items, e ≠ []) (hne : items ≠ [])
    (sep : Str) : List.intercalate sep items ≠ [] := by
  cases items with
  | nil => exact absurd rfl hne
  | cons e rest =>
    cases rest with
    | nil =>
      rw [intercalate_single]
      exact h e (by simp)
    | cons f frest =>
      rw [intercalate_cons2 _ _ _ (by simp)]
      exact key_line_ne_nil (fun hcon => by
        have := h e (by simp)
        rw [List.append_eq_nil] at hcon
        exact this hcon.1) _

theorem intercalate_head2 {e : Str} {rest : List Str} (he : e ≠ []) (sep : Str) :
    (List.intercalate sep (e :: rest)).head? = e.head? := by
  cases rest with
  | nil => rw [intercalate_single]
  | cons f frest =>
    rw [intercalate_cons2 _ _ _ (by simp), head?_append_left (key_line_ne_nil he _),
      head?_append_left he]

theorem intercalate_getLast2 (sep : Str) : ∀ (items : List Str), (∀ e ∈ items, e ≠ []) →
    items ≠ [] → ∃ f ∈ items, (List.intercalate sep items).getLast? = f.getLast? := by
  intro items
  induction items with
  | nil => intro _ hne; exact absurd rfl hne
  | cons e rest ih =>
    intro h hne
    cases rest with
    | nil => exact ⟨e, by simp, by rw [intercalate_single]⟩
    | cons f frest =>
      obtain ⟨g, hg, heq⟩ := ih (fun x hx => h x (List.mem_cons_of_mem _ hx)) (by simp)
      refine ⟨g, List.mem_cons_of_mem _ hg, ?_⟩
      have hI : List.intercalate sep (f :: frest) ≠ [] :=
        intercalate_ne_nil (fun x hx => h x (List.mem_cons_of_mem _ hx)) (by simp) sep
      rw [intercalate_cons2 _ _ _ (by simp), getLast?_append_right hI, heq]

theorem unquote_plain {e : Str} (h : ∀ c ∈ e, plainChar c = true) : unquote e = e :=
  unquote_noquote (fun hcon => absurd (h _ (mem_of_head2 hcon)) (by decide))
    (fun hcon => absurd (h _ (mem_of_head2 hcon)) (by decide))

theorem pyStrip_intercalate {items : List Str} (h : ∀ e ∈ items, stableItem e = true) :
    pyStrip (List.intercalate (strLit ", ") items) = List.intercalate (strLit ", ") items := by
  cases items with
  | nil => rfl
  | cons e rest =>
    have hne : ∀ x ∈ e :: rest, x ≠ [] := fun x hx => (stableItem_props (h x hx)).1
    apply pyStrip_noop
    · rw [intercalate_head2 (hne e (by simp))]
      exact pyStrip_head (stableItem_props (h e (by simp))).2.2
    · obtain ⟨f, hf, heq⟩ := intercalate_getLast2 (strLit ", ") (e :: rest) hne (by simp)
      rw [heq]
      exact pyStrip_last (stableItem_props (h f hf)).2.2

theorem parseYamlValue_expand (val : Str) : parseYamlValue val =
    (if val.head? = some '[' ∧ val.getLast? = some ']' then
      (if pyStrip (val.dropLast.drop 1) = [] then Value.l []
       else Value.l ((splitYamlList (pyStrip (val.dropLast.drop 1))).map
         fun item => unquote (pyStrip item)))
     else Value.s (unquote val)) := rfl

theorem parseYamlValue_list (items : List Str) (hv : items.all stableItem = true) :
    parseYamlValue ('[' :: (List.intercalate (strLit ", ") items ++ [']'])) = .l items := by
  have hall : ∀ e ∈ items, stableItem e = true := List.all_eq_true.mp hv
  cases items with
  | nil => decide
  | cons e rest =>
    have hform : ('[' :: (List.intercalate (strLit ", ") (e :: rest) ++ [']']))
        = ('[' :: List.intercalate (strLit ", ") (e :: rest)) ++ [']'] := by simp
    have hhead : ('[' :: (List.intercalate (strLit ", ") (e :: rest) ++ [']'])).head?
        = some '[' := rfl
    have hlast : ('[' :: (List.intercalate (strLit ", ") (e :: rest) ++ [']'])).getLast?
        = some ']' := by
      rw [hform, List.getLast?_concat]
    rw [parseYamlValue_expand, if_pos ⟨hhead, hlast⟩]
    have hdl : ('[' :: (List.intercalate (strLit ", ") (e :: rest) ++ [']'])).dropLast
        = '[' :: List.intercalate (strLit ", ") (e :: rest) := by
      rw [hform, List.dropLast_concat]
    rw [hdl]
    have hd1 : ('[' :: List.intercalate (strLit ", ") (e :: rest)).drop 1
        = List.intercalate (strLit ", ") (e :: rest) := rfl
    rw [hd1, pyStrip_intercalate hall]
    rw [if_neg (intercalate_ne_nil (fun x hx => (stableItem_props (hall x hx)).1) (by simp) _)]
    have hsplit : splitYamlList (List.intercalate (strLit ", ") (e :: rest)) = e :: rest := by
      have h2 := splitYamlListAux_chunks (e :: rest) hall (by simp) [] (by intro c hc; cases hc)
      rw [List.nil_append] at h2
      exact h2
    rw [hsplit]
    have hmap : (e :: rest).map (fun item => unquote (pyStrip item)) = (e :: rest).map id :=
      List.map_congr_left fun x hx => by
        obtain ⟨hx1, hx2, hx3⟩ := stableItem_props (hall x hx)
        rw [hx3, unquote_plain fun c hc => (hx2 c hc).1]
        rfl
    rw [hmap, List.map_id]

theorem parseYaml_step_scalar (fuel : Nat) (k v : Str) (rest : List Str) (acc : AList)
    (hk : stableKey k = true) (hv : stableScalar v = true) :
    parseYamlAux (fuel + 1) ((k ++ strLit ": " ++ v) :: rest) acc
      = parseYamlAux fuel rest (insertRep k (Value.s v) acc) := by
  obtain ⟨hk1, hk2, hk3, hk4⟩ := stableKey_props hk
  obtain ⟨hv1, hv2, hv3, hv4, hv5, hv6⟩ := stableScalar_props hv
  have hform : k ++ strLit ": " ++ v = k ++ ':' :: ' ' :: v := by
    rw [List.append_assoc]
    rfl
  have hstrip : pyStrip (k ++ ':' :: ' ' :: v) = k ++ ':' :: ' ' :: v := by
    apply pyStrip_noop
    · exact key_line_head_ws hk1 hk2 _
    · rw [getLast?_append_right (by simp)]
      have hl2 : (':' :: ' ' :: v).getLast? = v.getLast? := by
        have hx : (':' :: ' ' :: v) = [':', ' '] ++ v := rfl
        rw [hx, getLast?_append_right hv1]
      rw [hl2]
      exact pyStrip_last hv3
  have hne : ¬(pyStrip (k ++ ':' :: ' ' :: v) = [] ∨
      (pyStrip (k ++ ':' :: ' ' :: v)).head? = some '#') := by
    rw [hstrip]
    rintro (hcon | hcon)
    · exact key_line_ne_nil hk1 _ hcon
    · exact key_line_head_ne hk1 hk2 _ (by decide) hcon
  have hcolon : findSub [':'] (pyStrip (k ++ ':' :: ' ' :: v)) 0 = some k.length := by
    rw [hstrip]
    exact findSub_key_colon k _ fun c hc => bool_pred_ne (hk2 c hc) (by decide)
  rw [hform, parseYamlAux_cons_some fuel _ rest acc k.length hne hcolon, hstrip]
  rw [drop_len_succ k ':' (' ' :: v), List.take_left' rfl]
  have hps : pyStrip (' ' :: v) = v := by
    rw [pyStrip_cons_ws (by decide)]
    exact hv3
  rw [hps, stripInlineComment_plain hv1 hv4 hv2 hv6, if_pos hv1, pyStrip_of_keyChars hk2,
    parseYamlValue_scalar hv4 hv2]

theorem parseYaml_step_list (fuel : Nat) (k : Str) (items : List Str) (rest : List Str)
    (acc : AList) (hk : stableKey k = true) (hv : items.all stableItem = true) :
    parseYamlAux (fuel + 1)
        ((k ++ strLit ": [" ++ List.intercalate (strLit ", ") items ++ [']']) :: rest) acc
      = parseYamlAux fuel rest (insertRep k (Value.l items) acc) := by
  obtain ⟨hk1, hk2, hk3, hk4⟩ := stableKey_props hk
  have hall : ∀ e ∈ items, stableItem e = true := List.all_eq_true.mp hv
  have hform : k ++ strLit ": [" ++ List.intercalate (strLit ", ") items ++ [']']
      = k ++ ':' :: ' ' :: '[' :: (List.intercalate (strLit ", ") items ++ [']']) := by
    rw [List.append_assoc, List.append_assoc]
    rfl
  have htail : ('[' :: (List.intercalate (strLit ", ") items ++ [']']))
      = ('[' :: List.intercalate (strLit ", ") items) ++ [']'] := by simp
  have hstrip : pyStrip (k ++ ':' :: ' ' :: '[' :: (List.intercalate (strLit ", ") items ++ [']']))
      = k ++ ':' :: ' ' :: '[' :: (List.intercalate (strLit ", ") items ++ [']']) := by
    apply pyStrip_noop
    · exact key_line_head_ws hk1 hk2 _
    · rw [getLast?_append_right (by simp)]
      have hl2 : (':' :: ' ' :: '[' :: (List.intercalate (strLit ", ") items ++ [']']))
          = ([':', ' ', '['] ++ List.intercalate (strLit ", ") items) ++ [']'] := by simp
      rw [hl2, List.getLast?_concat]
      decide
  have hne : ¬(pyStrip (k ++ ':' :: ' ' :: '[' ::
        (List.intercalate (strLit ", ") items ++ [']'])) = [] ∨
      (pyStrip (k ++ ':' :: ' ' :: '[' ::
        (List.intercalate (strLit ", ") items ++ [']']))).head? = some '#') := by
    rw [hstrip]
    rintro (hcon | hcon)
    · exact key_line_ne_nil hk1 _ hcon
    · exact key_line_head_ne hk1 hk2 _ (by decide) hcon
  have hcolon : findSub [':'] (pyStrip (k ++ ':' :: ' ' :: '[' ::
      (List.intercalate (strLit ", ") items ++ [']']))) 0 = some k.length := by
    rw [hstrip]
    exact findSub_key_colon k _ fun c hc => bool_pred_ne (hk2 c hc) (by decide)
  rw [hform, parseYamlAux_cons_some fuel _ rest acc k.length hne hcolon, hstrip]
  rw [drop_len_succ k ':' _, List.take_left' rfl]
  have hps : pyStrip (' ' :: '[' :: (List.intercalate (strLit ", ") items ++ [']']))
      = '[' :: (List.intercalate (strLit ", ") items ++ [']']) := by
    rw [pyStrip_cons_ws (by decide)]
    apply pyStrip_noop
    · have hh : ('[' :: (List.intercalate (strLit ", ") items ++ [']'])).head?
          = some '[' := rfl
      rw [hh]
      decide
    · rw [htail, List.getLast?_concat]
      decide
  have hbr : stripInlineComment ('[' :: (List.intercalate (strLit ", ") items ++ [']']))
      = '[' :: (List.intercalate (strLit ", ") items ++ [']']) :=
    stripInlineComment_bracket rfl
  rw [hps, hbr, if_pos (by simp), pyStrip_of_keyChars hk2,
    parseYamlValue_list items hv]

theorem subLine_strip (sk sv : Str) (hsk : stableSubKey sk = true)
    (hsv : stableSubVal sv = true) :
    pyStrip (strLit "  " ++ sk ++ strLit ": " ++ sv) = sk ++ ':' :: ' ' :: sv := by
  obtain ⟨hs1, hs2, hs3, hs4, hs5⟩ := stableSubKey_props hsk
  obtain ⟨ht1, ht2, ht3⟩ := stableSubVal_props hsv
  have hform : strLit "  " ++ sk ++ strLit ": " ++ sv
      = ' ' :: ' ' :: (sk ++ ':' :: ' ' :: sv) := by
    rw [List.append_assoc, List.append_assoc]
    rfl
  rw [hform, pyStrip_cons_ws (by decide), pyStrip_cons_ws (by decide)]
  apply pyStrip_noop
  · rw [head?_append_left hs1]
    exact pyStrip_head hs3
  · rw [getLast?_append_right (by simp)]
    have hl2 : (':' :: ' ' :: sv).getLast? = sv.getLast? := by
      have hx : (':' :: ' ' :: sv) = [':', ' '] ++ sv := rfl
      rw [hx, getLast?_append_right ht1]
    rw [hl2]
    exact pyStrip_last ht3

theorem blockValue_expand (collected : List Str) : blockValue collected =
    (if collected.any (fun bl => (strLit "- ").isPrefixOf (pyStrip bl)) then
      Value.l (collected.filterMap fun bl =>
        if (strLit "- ").isPrefixOf (pyStrip bl) then
          some (unquote (pyStrip ((pyStrip bl).drop 2)))
        else none)
     else if collected.any (fun bl =>
        hasSub [':'] (pyStrip bl) ∧ ¬(strLit "- ").isPrefixOf (pyStrip bl)) then
      Value.m (collected.foldl (fun sub bl =>
        match findSub [':'] (pyStrip bl) 0 with
        | some sc => insertRep (pyStrip ((pyStrip bl).take sc))
            (unquote (pyStrip ((pyStrip bl).drop (sc + 1)))) sub
        | none => sub) [])
     else
       match collected with
       | bl :: _ => Value.s (unquote (pyStrip bl))
       | [] => Value.s []) := rfl

theorem dictFold_aux (pairs : List (Str × Str))
    (hall : ∀ p ∈ pairs, stableSubKey p.1 = true ∧ stableSubVal p.2 = true)
    (hnd : (pairs.map Prod.fst).Nodup) :
    ∀ sub : List (Str × Str), (∀ p ∈ pairs, ∀ q ∈ sub, q.1 ≠ p.1) →
      (pairs.map fun p => strLit "  " ++ p.1 ++ strLit ": " ++ p.2).foldl
          (fun sub bl =>
            match findSub [':'] (pyStrip bl) 0 with
            | some sc => insertRep (pyStrip ((pyStrip bl).take sc))
                (unquote (pyStrip ((pyStrip bl).drop (sc + 1)))) sub
            | none => sub) sub
        = sub ++ pairs := by
  induction pairs with
  | nil => intro sub hfresh; simp
  | cons p rest ih =>
    intro sub hfresh
    obtain ⟨hsk, hsv⟩ := hall p (by simp)
    obtain ⟨hs1, hs2, hs3, hs4, hs5⟩ := stableSubKey_props hsk
    obtain ⟨ht1, ht2, ht3⟩ := stableSubVal_props hsv
    simp only [List.map_cons, List.foldl_cons]
    have hstep : (match findSub [':'] (pyStrip (strLit "  " ++ p.1 ++ strLit ": " ++ p.2)) 0 with
        | some sc => insertRep
            (pyStrip ((pyStrip (strLit "  " ++ p.1 ++ strLit ": " ++ p.2)).take sc))
            (unquote (pyStrip
              ((pyStrip (strLit "  " ++ p.1 ++ strLit ": " ++ p.2)).drop (sc + 1)))) sub
        | none => sub) = sub ++ [p] := by
      rw [subLine_strip p.1 p.2 hsk hsv,
        findSub_key_colon p.1 _ (fun c hc => (hs2 c hc).2)]
      show insertRep (pyStrip ((p.1 ++ ':' :: ' ' :: p.2).take p.1.length))
          (unquote (pyStrip ((p.1 ++ ':' :: ' ' :: p.2).drop (p.1.length + 1)))) sub
        = sub ++ [p]
      rw [drop_len_succ p.1 ':' (' ' :: p.2), List.take_left' rfl, hs3,
        pyStrip_cons_ws (by decide), ht3, unquote_plain ht2,
        insertRep_fresh p.1 p.2 sub (fun q hq => hfresh p (by simp) q hq)]
    rw [hstep]
    have hnd2 : (rest.map Prod.fst).Nodup := by
      rw [List.map_cons, List.nodup_cons] at hnd
      exact hnd.2
    have hfresh2 : ∀ kv ∈ rest, ∀ q ∈ sub ++ [p], q.1 ≠ kv.1 := by
      intro kv hkv q hq
      rcases List.mem_append.mp hq with hq2 | hq2
      · exact hfresh kv (List.mem_cons_of_mem _ hkv) q hq2
      · have hq3 : q = p := by simpa using hq2
        subst hq3
        intro hcon
        rw [List.map_cons, List.nodup_cons] at hnd
        exact hnd.1 (hcon ▸ List.mem_map.mpr ⟨kv, hkv, rfl⟩)
    rw [ih (fun x hx => hall x (List.mem_cons_of_mem _ hx)) hnd2 (sub ++ [p]) hfresh2]
    simp

theorem blockValue_subLines (pairs : List (Str × Str)) (hp : pairs ≠ [])
    (hall : ∀ p ∈ pairs, stableSubKey p.1 = true ∧ stableSubVal p.2 = true)
    (hnd : (pairs.map Prod.fst).Nodup) :
    blockValue (pairs.map fun p => strLit "  " ++ p.1 ++ strLit ": " ++ p.2)
      = Value.m pairs := by
  have hnopre : ∀ bl ∈ pairs.map (fun p => strLit "  " ++ p.1 ++ strLit ": " ++ p.2),
      (strLit "- ").isPrefixOf (pyStrip bl) = false := by
    intro bl hbl
    obtain ⟨p, hp2, hpe⟩ := List.mem_map.mp hbl
    obtain ⟨hsk, hsv⟩ := hall p hp2
    obtain ⟨hs1, hs2, hs3, hs4, hs5⟩ := stableSubKey_props hsk
    rw [← hpe, subLine_strip p.1 p.2 hsk hsv]
    exact isPrefixOf_false_of_head (by rw [head?_append_left hs1]; exact hs5)
  rw [blockValue_expand]
  rw [if_neg ?hnl]
  case hnl =>
    intro hcon
    obtain ⟨bl, hbl, hpre⟩ := List.any_eq_true.mp hcon
    rw [hnopre bl hbl] at hpre
    cases hpre
  rw [if_pos ?hd]
  case hd =>
    apply List.any_eq_true.mpr
    obtain ⟨p0, prest, hp0⟩ : ∃ p0 prest, pairs = p0 :: prest := by
      cases pairs with
      | nil => exact absurd rfl hp
      | cons a b => exact ⟨a, b, rfl⟩
    refine ⟨strLit "  " ++ p0.1 ++ strLit ": " ++ p0.2, by simp [hp0], ?_⟩
    obtain ⟨hsk, hsv⟩ := hall p0 (by simp [hp0])
    apply decide_eq_true
    constructor
    · rw [subLine_strip p0.1 p0.2 hsk hsv]
      exact hasSub_of_mem (List.mem_append.mpr (Or.inr (by simp)))
    · intro hcon
      rw [hnopre _ (by simp [hp0])] at hcon
      cases hcon
  rw [dictFold_aux pairs hall hnd [] (fun p hp2 q hq => absurd hq (by simp))]
  rw [List.nil_append]

theorem parseYaml_step_dict (fuel : Nat) (k : Str) (pairs : List (Str × Str))
    (rest2 : List Str) (acc : AList) (hk : stableKey k = true)
    (hv : stableValue (Value.m pairs) = true)
    (hbreak : match rest2 with
      | [] => True
      | l :: _ => pyStrip l ≠ [] ∧ (pyStrip l).head? ≠ some '#' ∧
          l.head?.all (fun c => !c.isWhitespace) = true) :
    parseYamlAux (fuel + 1)
        ((k ++ [':']) ::
          ((pairs.map fun p => strLit "  " ++ p.1 ++ strLit ": " ++ p.2) ++ rest2)) acc
      = parseYamlAux fuel rest2 (insertRep k (Value.m pairs) acc) := by
  obtain ⟨hk1, hk2, hk3, hk4⟩ := stableKey_props hk
  have hv3 := hv
  simp only [stableValue, Bool.and_eq_true, Bool.not_eq_true', List.all_eq_true,
    decide_eq_true_eq] at hv3
  have hpne : pairs ≠ [] := ne_nil_of_isEmpty_eq_false hv3.1.1
  have hallp : ∀ p ∈ pairs, stableSubKey p.1 = true ∧ stableSubVal p.2 = true := by
    intro p hp2
    simpa using hv3.1.2 p hp2
  have hndp : (pairs.map Prod.fst).Nodup := hv3.2
  have hstrip : pyStrip (k ++ [':']) = k ++ [':'] := by
    apply pyStrip_noop
    · exact key_line_head_ws hk1 hk2 _
    · rw [getLast?_append_right (by simp)]
      decide
  have hne : ¬(pyStrip (k ++ [':']) = [] ∨ (pyStrip (k ++ [':'])).head? = some '#') := by
    rw [hstrip]
    rintro (hcon | hcon)
    · exact key_line_ne_nil hk1 _ hcon
    · exact key_line_head_ne hk1 hk2 _ (by decide) hcon
  have hcolon : findSub [':'] (pyStrip (k ++ [':'])) 0 = some k.length := by
    rw [hstrip]
    exact findSub_key_colon k [] (fun c hc => bool_pred_ne (hk2 c hc) (by decide))
  rw [parseYamlAux_cons_some fuel _ _ acc k.length hne hcolon, hstrip]
  have hd : (k ++ [':']).drop (k.length + 1) = [] := drop_len_succ k ':' []
  rw [hd]
  have hp0 : pyStrip ([] : Str) = [] := rfl
  rw [hp0, stripInlineComment_nil, if_neg (by simp)]
  have hcol : ∀ l ∈ (pairs.map fun p => strLit "  " ++ p.1 ++ strLit ": " ++ p.2),
      l.head? = some ' ' ∧ pyStrip l ≠ [] ∧ (pyStrip l).head? ≠ some '#' := by
    intro l hl
    obtain ⟨p, hp2, hpe⟩ := List.mem_map.mp hl
    obtain ⟨hsk, hsv⟩ := hallp p hp2
    obtain ⟨hs1, hs2, hs3, hs4, hs5⟩ := stableSubKey_props hsk
    subst hpe
    refine ⟨rfl, ?_, ?_⟩
    · rw [subLine_strip p.1 p.2 hsk hsv]
      exact key_line_ne_nil hs1 _
    · rw [subLine_strip p.1 p.2 hsk hsv, head?_append_left hs1]
      exact hs4
  rw [blockSpan_collect_all _ hcol rest2 hbreak]
  have hfst : ((pairs.map fun p => strLit "  " ++ p.1 ++ strLit ": " ++ p.2), rest2).1
      = pairs.map fun p => strLit "  " ++ p.1 ++ strLit ": " ++ p.2 := rfl
  have hsnd : ((pairs.map fun p => strLit "  " ++ p.1 ++ strLit ": " ++ p.2), rest2).2
      = rest2 := rfl
  rw [hfst, hsnd, List.take_left' rfl, pyStrip_of_keyChars hk2,
    blockValue_subLines pairs hpne hallp hndp]

theorem flatRender_break (M : AList)
    (hM : ∀ kv ∈ M, stableKey kv.1 = true ∧ stableValue kv.2 = true) :
    (match M.flatMap (fun kv => renderValueLines kv.1 kv.2) with
      | [] => True
      | l :: _ => pyStrip l ≠ [] ∧ (pyStrip l).head? ≠ some '#' ∧
          l.head?.all (fun c => !c.isWhitespace) = true) := by
  cases M with
  | nil => exact True.intro
  | cons kv M2 =>
    obtain ⟨hk, hv⟩ := hM kv (by simp)
    obtain ⟨hk1, hk2, hk3, hk4⟩ := stableKey_props hk
    cases hv2 : kv.2 with
    | s sv =>
      have hfl : (kv :: M2).flatMap (fun kv => renderValueLines kv.1 kv.2)
          = (kv.1 ++ strLit ": " ++ sv)
            :: M2.flatMap (fun kv => renderValueLines kv.1 kv.2) := by
        rw [List.flatMap_cons, hv2]
        simp only [renderValueLines, List.singleton_append]
      rw [hfl]
      exact key_led_break hk1 hk2 (by rw [List.append_assoc, head?_append_left hk1])
    | l items =>
      have hfl : (kv :: M2).flatMap (fun kv => renderValueLines kv.1 kv.2)
          = (kv.1 ++ strLit ": [" ++ List.intercalate (strLit ", ") items ++ [']'])
            :: M2.flatMap (fun kv => renderValueLines kv.1 kv.2) := by
        rw [List.flatMap_cons, hv2]
        simp only [renderValueLines, List.singleton_append]
      rw [hfl]
      exact key_led_break hk1 hk2
        (by rw [List.append_assoc, List.append_assoc, head?_append_left hk1])
    | m pairs =>
      have hfl : (kv :: M2).flatMap (fun kv => renderValueLines kv.1 kv.2)
          = (kv.1 ++ [':'])
            :: ((pairs.map fun p => strLit "  " ++ p.1 ++ strLit ": " ++ p.2)
              ++ M2.flatMap (fun kv => renderValueLines kv.1 kv.2)) := by
        rw [List.flatMap_cons, hv2]
        simp only [renderValueLines, List.cons_append]
      rw [hfl]
      exact key_led_break hk1 hk2 (by rw [head?_append_left hk1])

theorem flatRender_length (M : AList) :
    M.length ≤ (M.flatMap fun kv => renderValueLines kv.1 kv.2).length := by
  induction M with
  | nil => simp
  | cons kv M2 ih =>
    rw [List.flatMap_cons, List.length_append, List.length_cons]
    have h1 : 1 ≤ (renderValueLines kv.1 kv.2).length := by
      cases kv.2 <;> simp [renderValueLines]
    omega

theorem parseYaml_render : ∀ (M : AList) (fuel : Nat) (acc : AList),
    (∀ kv ∈ M, stableKey kv.1 = true ∧ stableValue kv.2 = true) →
    (M.map Prod.fst).Nodup →
    M.length + 1 ≤ fuel →
    (∀ kv ∈ M, ∀ p ∈ acc, p.1 ≠ kv.1) →
    parseYamlAux fuel (M.flatMap fun kv => renderValueLines kv.1 kv.2) acc = acc ++ M := by
  intro M
  induction M with
  | nil =>
    intro fuel acc hM hnd hfuel hacc
    cases fuel with
    | zero => omega
    | succ f =>
      show parseYamlAux (f + 1) [] acc = acc ++ []
      rw [List.append_nil]
      rfl
  | cons kv M2 ih =>
    intro fuel acc hM hnd hfuel hacc
    obtain ⟨hk, hv⟩ := hM kv (by simp)
    obtain ⟨f, hf⟩ : ∃ f, fuel = f + 1 := by
      cases fuel with
      | zero => omega
      | succ f => exact ⟨f, rfl⟩
    subst hf
    have hnd2 : (M2.map Prod.fst).Nodup := by
      rw [List.map_cons, List.nodup_cons] at hnd
      exact hnd.2
    have hfuel2 : M2.length + 1 ≤ f := by
      simp only [List.length_cons] at hfuel
      omega
    have hfreshk : ∀ p ∈ acc, p.1 ≠ kv.1 := hacc kv (by simp)
    have hins : ∀ (val : Value), insertRep kv.1 val acc = acc ++ [(kv.1, val)] :=
      fun val => insertRep_fresh kv.1 val acc hfreshk
    have hacc3 : ∀ (val : Value), ∀ kv2 ∈ M2, ∀ p ∈ acc ++ [(kv.1, val)], p.1 ≠ kv2.1 := by
      intro val kv2 hkv2 p hp
      rcases List.mem_append.mp hp with hp2 | hp2
      · exact hacc kv2 (List.mem_cons_of_mem _ hkv2) p hp2
      · have hpe : p = (kv.1, val) := by simpa using hp2
        subst hpe
        intro hcon
        rw [List.map_cons, List.nodup_cons] at hnd
        exact hnd.1 (hcon ▸ List.mem_map.mpr ⟨kv2, hkv2, rfl⟩)
    have hMtail : ∀ kv2 ∈ M2, stableKey kv2.1 = true ∧ stableValue kv2.2 = true :=
      fun kv2 h => hM kv2 (List.mem_cons_of_mem _ h)
    cases hv2 : kv.2 with
    | s sv =>
      have hvs : stableScalar sv = true := by rw [hv2] at hv; exact hv
      have hfl : (kv :: M2).flatMap (fun kv => renderValueLines kv.1 kv.2)
          = (kv.1 ++ strLit ": " ++ sv)
            :: M2.flatMap (fun kv => renderValueLines kv.1 kv.2) := by
        rw [List.flatMap_cons, hv2]
        simp only [renderValueLines, List.singleton_append]
      rw [hfl, parseYaml_step_scalar f kv.1 sv _ acc hk hvs, hins,
        ih f (acc ++ [(kv.1, Value.s sv)]) hMtail hnd2 hfuel2 (hacc3 _)]
      have hkv : (kv.1, Value.s sv) = kv := by rw [← hv2]
      rw [hkv, List.append_assoc]
      rfl
    | l items =>
      have hvl : items.all stableItem = true := by rw [hv2] at hv; exact hv
      have hfl : (kv :: M2).flatMap (fun kv => renderValueLines kv.1 kv.2)
          = (kv.1 ++ strLit ": [" ++ List.intercalate (strLit ", ") items ++ [']'])
            :: M2.flatMap (fun kv => renderValueLines kv.1 kv.2) := by
        rw [List.flatMap_cons, hv2]
        simp only [renderValueLines, List.singleton_append]
      rw [hfl, parseYaml_step_list f kv.1 items _ acc hk hvl, hins,
        ih f (acc ++ [(kv.1, Value.l items)]) hMtail hnd2 hfuel2 (hacc3 _)]
      have hkv : (kv.1, Value.l items) = kv := by rw [← hv2]
      rw [hkv, List.append_assoc]
      rfl
    | m pairs =>
      have hvm : stableValue (Value.m pairs) = true := by rw [hv2] at hv; exact hv
      have hfl : (kv :: M2).flatMap (fun kv => renderValueLines kv.1 kv.2)
          = (kv.1 ++ [':'])
            :: ((pairs.map fun p => strLit "  " ++ p.1 ++ strLit ": " ++ p.2)
              ++ M2.flatMap (fun kv => renderValueLines kv.1 kv.2)) := by
        rw [List.flatMap_cons, hv2]
        simp only [renderValueLines, List.cons_append]
      rw [hfl, parseYaml_step_dict f kv.1 pairs _ acc hk hvm (flatRender_break M2 hMtail),
        hins, ih f (acc ++ [(kv.1, Value.m pairs)]) hMtail hnd2 hfuel2 (hacc3 _)]
      have hkv : (kv.1, Value.m pairs) = kv := by rw [← hv2]
      rw [hkv, List.append_assoc]
      rfl

theorem parseYamlSubset_render (M : AList)
    (hM : ∀ kv ∈ M, stableKey kv.1 = true ∧ stableValue kv.2 = true)
    (hnd : (M.map Prod.fst).Nodup) :
    parseYamlSubset (M.flatMap fun kv => renderValueLines kv.1 kv.2) = M := by
  unfold parseYamlSubset
  have hlen := flatRender_length M
  have h := parseYaml_render M
    ((M.flatMap fun kv => renderValueLines kv.1 kv.2).length + 1) [] hM hnd
    (by omega) (by intro kv h2 p hp; cases hp)
  simpa using h

theorem lstripNl_noop {b : Str} (hb : b.head? ≠ some '\n') : lstripNl b = b := by
  cases b with
  | nil => rfl
  | cons c cs =>
    have hc : ¬(c = '\n') := fun he => hb (by simp [he])
    simp [lstripNl, List.dropWhile_cons, hc]

theorem lstripNl_cons_nl (b : Str) : lstripNl ('\n' :: b) = lstripNl b := by
  simp [lstripNl, List.dropWhile_cons]

theorem renderLines_last_ws (k : Str) (v : Value) (hk : stableKey k = true)
    (hv : stableValue v = true) :
    ∀ l ∈ renderValueLines k v, l.getLast?.all (fun c => !c.isWhitespace) = true := by
  obtain ⟨hk1, hk2, hk3, hk4⟩ := stableKey_props hk
  cases v with
  | s sv =>
    have hvs : stableScalar sv = true := hv
    obtain ⟨hv1, hv2, hv3, hv4, hv5, hv6⟩ := stableScalar_props hvs
    intro l hl
    simp only [renderValueLines, List.mem_singleton] at hl
    subst hl
    rw [getLast?_append_right hv1]
    exact pyStrip_last hv3
  | l items =>
    intro l hl
    simp only [renderValueLines, List.mem_singleton] at hl
    subst hl
    rw [List.getLast?_concat]
    decide
  | m pairs =>
    have hpairs : ∀ p ∈ pairs, stableSubKey p.1 = true ∧ stableSubVal p.2 = true := by
      have h2 : (pairs.all fun p => stableSubKey p.1 && stableSubVal p.2) = true := by
        simp only [stableValue, Bool.and_eq_true] at hv
        exact hv.1.2
      intro p hp
      simpa using List.all_eq_true.mp h2 p hp
    intro l hl
    have key : renderValueLines k (Value.m pairs) =
        (k ++ [':']) :: pairs.map (fun p => strLit "  " ++ p.1 ++ strLit ": " ++ p.2) := rfl
    rw [key] at hl
    rcases List.mem_cons.mp hl with he | hm2
    · subst he
      rw [getLast?_append_right (by simp)]
      decide
    · obtain ⟨p, hp, hpe⟩ := List.mem_map.mp hm2
      obtain ⟨ht1, ht2, ht3⟩ := stableSubVal_props (hpairs p hp).2
      subst hpe
      rw [getLast?_append_right ht1]
      exact pyStrip_last ht3

theorem renderLines_first (k : Str) (v : Value) (hk1 : k ≠ []) :
    ∃ l rest3, renderValueLines k v = l :: rest3 ∧ l.head? = k.head? := by
  cases v with
  | s sv =>
    refine ⟨_, _, rfl, ?_⟩
    rw [List.append_assoc, head?_append_left hk1]
  | l items =>
    refine ⟨_, _, rfl, ?_⟩
    rw [List.append_assoc, List.append_assoc, head?_append_left hk1]
  | m pairs =>
    refine ⟨_, _, rfl, ?_⟩
    rw [head?_append_left hk1]

theorem joinNl_append (l1 l2 : List Str) (h1 : l1 ≠ []) (h2 : l2 ≠ []) :
    joinNl (l1 ++ l2) = joinNl l1 ++ '\n' :: joinNl l2 := by
  induction l1 with
  | nil => exact absurd rfl h1
  | cons e rest ih =>
    cases rest with
    | nil =>
      rw [List.singleton_append, joinNl_cons e l2 h2]
      have hje : joinNl [e] = e := intercalate_single ['\n'] e
      rw [hje]
    | cons f frest =>
      rw [List.cons_append, joinNl_cons e _ (by simp), joinNl_cons e (f :: frest) (by simp),
        ih (by simp)]
      simp [List.append_assoc]

theorem reconstruct_form (M : AList) (b : Str) (hne : M ≠ [])
    (hLs : (M.flatMap fun kv => renderValueLines kv.1 kv.2) ≠ []) :
    reconstruct M b
      = strLit "---" ++ ('\n' :: joinNl (M.flatMap fun kv => renderValueLines kv.1 kv.2))
        ++ strLit "\n---" ++ (if b ≠ [] then '\n' :: b else []) := by
  unfold reconstruct
  rw [if_neg hne]
  have hlist : [strLit "---"] ++ (M.flatMap fun kv => renderValueLines kv.1 kv.2)
      ++ [strLit "---"] ++ (if b ≠ [] then [b] else [])
      = strLit "---" :: ((M.flatMap fun kv => renderValueLines kv.1 kv.2)
        ++ ([strLit "---"] ++ (if b ≠ [] then [b] else []))) := by
    simp [List.append_assoc]
  rw [hlist]
  rw [joinNl_cons _ _ (by
    intro hcon
    rw [List.append_eq_nil] at hcon
    exact hLs hcon.1)]
  rw [joinNl_append _ _ hLs (by simp)]
  have hjfb : joinNl ([strLit "---"] ++ (if b ≠ [] then [b] else []))
      = strLit "---" ++ (if b ≠ [] then '\n' :: b else []) := by
    by_cases hb : b = []
    · rw [if_neg (by simp [hb]), if_neg (by simp [hb]), List.append_nil, List.append_nil]
      exact intercalate_single ['\n'] (strLit "---")
    · rw [if_pos hb, if_pos hb, List.singleton_append, joinNl_cons _ _ (by simp)]
      have h1 : joinNl [b] = b := intercalate_single ['\n'] b
      rw [h1]
  rw [hjfb]
  have hsl : strLit "\n---" = '\n' :: strLit "---" := rfl
  rw [hsl]
  simp [List.append_assoc]

theorem parse_frontmatter_decomp (a b : Str)
    (hclean : ∀ j, j < a.length →
      ¬((strLit "\n---").isPrefixOf ((a ++ strLit "\n---" ++ b).drop j) = true)) :
    parse_frontmatter (strLit "---" ++ a ++ strLit "\n---" ++ b)
      = (parseYamlSubset (splitlinesPy (pyStrip a)), lstripNl b) := by
  unfold parse_frontmatter
  rw [if_pos ?hpre]
  case hpre =>
    have hassoc : strLit "---" ++ a ++ strLit "\n---" ++ b
        = strLit "---" ++ (a ++ strLit "\n---" ++ b) := by
      simp [List.append_assoc]
    rw [hassoc]
    simp [List.isPrefixOf_iff_prefix]
  have htake : (strLit "---" ++ a ++ strLit "\n---" ++ b).take (a.length + 3)
      = strLit "---" ++ a := by
    have hassoc : strLit "---" ++ a ++ strLit "\n---" ++ b
        = (strLit "---" ++ a) ++ (strLit "\n---" ++ b) := by
      simp [List.append_assoc]
    rw [hassoc]
    exact List.take_left' (by simp [strLit])
  have hdrop : (strLit "---" ++ a ++ strLit "\n---" ++ b).drop (a.length + 3 + 4)
      = b := by
    have hassoc : strLit "---" ++ a ++ strLit "\n---" ++ b
        = ((strLit "---" ++ a) ++ strLit "\n---") ++ b := by
      simp [List.append_assoc]
    rw [hassoc]
    exact List.drop_left' (by simp [strLit])
  rw [findSub_fence a b hclean]
  show (parseYamlSubset (splitlinesPy (pyStrip
      (((strLit "---" ++ a ++ strLit "\n---" ++ b).take (a.length + 3)).drop 3))),
    lstripNl ((strLit "---" ++ a ++ strLit "\n---" ++ b).drop (a.length + 3 + 4)))
    = (parseYamlSubset (splitlinesPy (pyStrip a)), lstripNl b)
  rw [htake, hdrop, List.drop_left' (by decide)]

theorem parse_reconstruct (M : AList) (b : Str)
    (hM : ∀ kv ∈ M, stableKey kv.1 = true ∧ stableValue kv.2 = true)
    (hnd : (M.map Prod.fst).Nodup) (hne : M ≠ []) (hb : b.head? ≠ some '\n') :
    parse_frontmatter (reconstruct M b) = (M, b) := by
  have hclean : ∀ l ∈ (M.flatMap fun kv => renderValueLines kv.1 kv.2),
      l ≠ [] ∧ '\n' ∉ l ∧ l.head? ≠ some '-' := by
    intro l hl
    obtain ⟨kv, hkv, hlm⟩ := List.mem_flatMap.mp hl
    exact renderLines_clean kv.1 kv.2 (hM kv hkv).1 (hM kv hkv).2 l hlm
  have hLs : (M.flatMap fun kv => renderValueLines kv.1 kv.2) ≠ [] := by
    have h1 := flatRender_length M
    intro hcon
    rw [hcon] at h1
    simp only [List.length_nil, Nat.le_zero] at h1
    exact hne (List.length_eq_zero.mp h1)
  have hsplit : splitlinesPy (joinNl (M.flatMap fun kv => renderValueLines kv.1 kv.2))
      = M.flatMap fun kv => renderValueLines kv.1 kv.2 :=
    splitlinesPy_joinNl _ hLs fun l hl => ⟨(hclean l hl).1, (hclean l hl).2.1⟩
  rw [reconstruct_form M b hne hLs,
    parse_frontmatter_decomp _ _ (fence_clean_lines _ _ hclean hLs)]
  have hps2 : pyStrip ('\n' :: joinNl (M.flatMap fun kv => renderValueLines kv.1 kv.2))
      = joinNl (M.flatMap fun kv => renderValueLines kv.1 kv.2) := by
    rw [pyStrip_cons_ws (by decide)]
    obtain ⟨kv1, M2, hM2⟩ : ∃ kv1 M2, M = kv1 :: M2 := by
      cases M with
      | nil => exact absurd rfl hne
      | cons a c => exact ⟨a, c, rfl⟩
    obtain ⟨hk, hv⟩ := hM kv1 (by simp [hM2])
    obtain ⟨hk1, hk2, hk3, hk4⟩ := stableKey_props hk
    obtain ⟨l0, rest3, hrend, hhead⟩ := renderLines_first kv1.1 kv1.2 hk1
    have hfl : (M.flatMap fun kv => renderValueLines kv.1 kv.2)
        = l0 :: (rest3 ++ M2.flatMap fun kv => renderValueLines kv.1 kv.2) := by
      rw [hM2, List.flatMap_cons, hrend, List.cons_append]
    have hl0mem : l0 ∈ (M.flatMap fun kv => renderValueLines kv.1 kv.2) := by
      rw [hfl]
      exact List.mem_cons_self _ _
    have hl0ne : l0 ≠ [] := (hclean l0 hl0mem).1
    apply pyStrip_noop
    · rw [hfl]
      have hih : (joinNl (l0 :: (rest3 ++ M2.flatMap fun kv => renderValueLines kv.1 kv.2))).head?
          = l0.head? :=
        intercalate_head2 hl0ne ['\n']
      rw [hih, hhead]
      cases hk0 : kv1.1 with
      | nil => exact absurd hk0 hk1
      | cons c0 k0 =>
        have hc0 := hk2 c0 (by simp [hk0])
        simpa using keyCharOk_not_ws hc0
    · obtain ⟨f, hf, heq⟩ := intercalate_getLast2 ['\n']
        (M.flatMap fun kv => renderValueLines kv.1 kv.2)
        (fun x hx => (hclean x hx).1) hLs
      have hlast : (joinNl (M.flatMap fun kv => renderValueLines kv.1 kv.2)).getLast?
          = f.getLast? := heq
      rw [hlast]
      obtain ⟨kv, hkv, hlm⟩ := List.mem_flatMap.mp hf
      exact renderLines_last_ws kv.1 kv.2 (hM kv hkv).1 (hM kv hkv).2 f hlm
  rw [hps2, hsplit, parseYamlSubset_render M hM hnd]
  by_cases hbb : b = []
  · rw [if_neg (by simp [hbb]), hbb]
    rfl
  · rw [if_pos hbb, lstripNl_cons_nl, lstripNl_noop hb]

theorem jsonSkipWs_cons {c : Char} {s : Str}
    (h : ¬(c = ' ' ∨ c = '\t' ∨ c = '\n' ∨ c = '\r')) : jsonSkipWs (c :: s) = c :: s := by
  simp [jsonSkipWs, List.dropWhile_cons, h]

theorem jsonSkipWs_cons_ws {c : Char} {s : Str}
    (h : c = ' ' ∨ c = '\t' ∨ c = '\n' ∨ c = '\r') : jsonSkipWs (c :: s) = jsonSkipWs s := by
  simp [jsonSkipWs, List.dropWhile_cons, h]

theorem jsonSkipWs_spaces {pre : Str} (h : ∀ c ∈ pre, c = ' ') (s : Str) :
    jsonSkipWs (pre ++ s) = jsonSkipWs s := by
  induction pre with
  | nil => rfl
  | cons c cs ih =>
    rw [List.cons_append, jsonSkipWs_cons_ws (Or.inl (h c (by simp)))]
    exact ih fun x hx => h x (List.mem_cons_of_mem _ hx)

theorem jsonEscapeChar_plain {c : Char} (h : plainChar c = true) : jsonEscapeChar c = [c] := by
  have hp := h
  simp only [plainChar, Bool.and_eq_true, decide_eq_true_eq, ne_eq] at hp
  obtain ⟨⟨⟨⟨h32, h126⟩, hq⟩, hsq⟩, hbs⟩ := hp
  unfold jsonEscapeChar
  rw [if_neg hq, if_neg hbs, if_neg ?hn, if_neg ?ht, if_neg ?hr, if_pos ⟨h32, h126⟩]
  case hn =>
    intro hcon
    rw [hcon] at h
    exact absurd h (by decide)
  case ht =>
    intro hcon
    rw [hcon] at h
    exact absurd h (by decide)
  case hr =>
    intro hcon
    rw [hcon] at h
    exact absurd h (by decide)

theorem escPlain {e : Str} (h : ∀ c ∈ e, plainChar c = true) :
    e.flatMap jsonEscapeChar = e := by
  induction e with
  | nil => rfl
  | cons c cs ih =>
    rw [List.flatMap_cons, jsonEscapeChar_plain (h c (by simp)),
      ih fun x hx => h x (List.mem_cons_of_mem _ hx)]
    rfl

theorem jsonStrAux_plain {e : Str} (h : ∀ c ∈ e, plainChar c = true) :
    ∀ (fuel : Nat) (tail : Str), e.length + 1 ≤ fuel →
      jsonStrAux fuel (e ++ '"' :: tail) = some (e, tail) := by
  induction e with
  | nil =>
    intro fuel tail hfuel
    obtain ⟨f, hf⟩ : ∃ f, fuel = f + 1 := by
      cases fuel with
      | zero => omega
      | succ f => exact ⟨f, rfl⟩
    subst hf
    show jsonStrAux (f + 1) ('"' :: tail) = some ([], tail)
    have key : jsonStrAux (f + 1) ('"' :: tail) =
        (if ('"' : Char) = '"' then some (([] : Str), tail)
         else if ('"' : Char) = '\\' then
           (match tail with
            | e :: rest2 =>
              (match (if e = '"' then some '"'
                else if e = '\\' then some '\\'
                else if e = '/' then some '/'
                else if e = 'n' then some '\n'
                else if e = 't' then some '\t'
                else if e = 'r' then some '\r'
                else none) with
               | some d =>
                 (match jsonStrAux f rest2 with
                  | some (cs, rem) => some (d :: cs, rem)
                  | none => none)
               | none => none)
            | [] => none)
         else if ('"' : Char).toNat < 32 then none
         else
           (match jsonStrAux f tail with
            | some (cs, rem) => some ('"' :: cs, rem)
            | none => none)) := rfl
    rw [key, if_pos rfl]
  | cons c cs ih =>
    intro fuel tail hfuel
    obtain ⟨f, hf⟩ : ∃ f, fuel = f + 1 := by
      cases fuel with
      | zero => omega
      | succ f => exact ⟨f, rfl⟩
    subst hf
    have hc := h c (by simp)
    have hcp := hc
    simp only [plainChar, Bool.and_eq_true, decide_eq_true_eq, ne_eq] at hcp
    obtain ⟨⟨⟨⟨h32, h126⟩, hq⟩, hsq⟩, hbs⟩ := hcp
    rw [List.cons_append]
    have key : jsonStrAux (f + 1) (c :: (cs ++ '"' :: tail)) =
        (if c = '"' then some (([] : Str), cs ++ '"' :: tail)
         else if c = '\\' then
           (match cs ++ '"' :: tail with
            | e :: rest2 =>
              (match (if e = '"' then some '"'
                else if e = '\\' then some '\\'
                else if e = '/' then some '/'
                else if e = 'n' then some '\n'
                else if e = 't' then some '\t'
                else if e = 'r' then some '\r'
                else none) with
               | some d =>
                 (match jsonStrAux f rest2 with
                  | some (cs2, rem) => some (d :: cs2, rem)
                  | none => none)
               | none => none)
            | [] => none)
         else if c.toNat < 32 then none
         else
           (match jsonStrAux f (cs ++ '"' :: tail) with
            | some (cs2, rem) => some (c :: cs2, rem)
            | none => none)) := rfl
    rw [key, if_neg hq, if_neg hbs, if_neg (by omega)]
    rw [ih (fun x hx => h x (List.mem_cons_of_mem _ hx)) f tail (by
      simp only [List.length_cons] at hfuel
      omega)]

theorem jsonStrTok_quote {e : Str} (h : ∀ c ∈ e, plainChar c = true) (X : Str) :
    jsonStrTok (jsonQuote e ++ X) = some (e, X) := by
  unfold jsonStrTok jsonQuote
  have hform : ('"' :: e.flatMap jsonEscapeChar ++ ['"']) ++ X
      = '"' :: (e.flatMap jsonEscapeChar ++ ('"' :: X)) := by
    simp
  rw [hform, jsonSkipWs_cons (by decide), escPlain h]
  exact jsonStrAux_plain h _ X (by simp)

theorem intercalate_length_ge (sep : Str) (ls : List Str) (h : ∀ e ∈ ls, 1 ≤ e.length) :
    ls.length ≤ (List.intercalate sep ls).length := by
  induction ls with
  | nil => simp
  | cons e rest ih =>
    cases rest with
    | nil =>
      rw [intercalate_single]
      have := h e (by simp)
      simp only [List.length_cons, List.length_nil]
      omega
    | cons f frest =>
      rw [intercalate_cons2 _ _ _ (by simp)]
      have h1 := h e (by simp)
      have h2 := ih fun x hx => h x (List.mem_cons_of_mem _ hx)
      simp only [List.length_cons, List.length_append] at h2 ⊢
      omega

theorem jsonStrTok_pre {e : Str} (h : ∀ c ∈ e, plainChar c = true) (X : Str) (pre : Str)
    (hpre : ∀ c ∈ pre, c = ' ') : jsonStrTok (pre ++ (jsonQuote e ++ X)) = some (e, X) := by
  have h2 := jsonStrTok_quote h X
  unfold jsonStrTok at h2 ⊢
  rw [jsonSkipWs_spaces hpre]
  exact h2

theorem jsonListItemsAux_chunks : ∀ (items : List Str), items ≠ [] →
    (∀ e ∈ items, ∀ c ∈ e, plainChar c = true) →
    ∀ (fuel : Nat), items.length ≤ fuel → ∀ (pre : Str), (∀ c ∈ pre, c = ' ') →
      jsonListItemsAux (fuel + 1)
          (pre ++ (List.intercalate (strLit ", ") (items.map jsonQuote) ++ [']']))
        = some (items, []) := by
  intro items
  induction items with
  | nil => intro hne; exact absurd rfl hne
  | cons e rest ih =>
    intro hne hplain fuel hfuel pre hpre
    have he : ∀ c ∈ e, plainChar c = true := hplain e (by simp)
    cases rest with
    | nil =>
      rw [List.map_cons, List.map_nil, intercalate_single]
      have key : jsonListItemsAux (fuel + 1) (pre ++ (jsonQuote e ++ [']'])) =
          (match jsonStrTok (pre ++ (jsonQuote e ++ [']'])) with
           | none => none
           | some (item, rest) =>
             match jsonSkipWs rest with
             | ',' :: rest2 =>
               (match jsonListItemsAux fuel rest2 with
                | some (items, rem) => some (item :: items, rem)
                | none => none)
             | ']' :: rest2 => some ([item], rest2)
             | _ => none) := rfl
      rw [key, jsonStrTok_pre he [']'] pre hpre]
      show (match jsonSkipWs [']'] with
        | ',' :: rest2 =>
          (match jsonListItemsAux fuel rest2 with
           | some (items, rem) => some (e :: items, rem)
           | none => none)
        | ']' :: rest2 => some ([e], rest2)
        | _ => none) = some ([e], [])
      rw [jsonSkipWs_cons (by decide)]
      rfl
    | cons g grest =>
      rw [List.map_cons, intercalate_cons2 _ _ _ (by simp)]
      have hform : pre ++ ((jsonQuote e ++ strLit ", "
            ++ List.intercalate (strLit ", ") ((g :: grest).map jsonQuote)) ++ [']'])
          = pre ++ (jsonQuote e ++ (',' :: ' ' ::
            (List.intercalate (strLit ", ") ((g :: grest).map jsonQuote) ++ [']']))) := by
        simp [List.append_assoc]
        rfl
      rw [hform]
      have key : jsonListItemsAux (fuel + 1) (pre ++ (jsonQuote e ++ (',' :: ' ' ::
            (List.intercalate (strLit ", ") ((g :: grest).map jsonQuote) ++ [']'])))) =
          (match jsonStrTok (pre ++ (jsonQuote e ++ (',' :: ' ' ::
            (List.intercalate (strLit ", ") ((g :: grest).map jsonQuote) ++ [']'])))) with
           | none => none
           | some (item, rest) =>
             match jsonSkipWs rest with
             | ',' :: rest2 =>
               (match jsonListItemsAux fuel rest2 with
                | some (items, rem) => some (item :: items, rem)
                | none => none)
             | ']' :: rest2 => some ([item], rest2)
             | _ => none) := rfl
      rw [key, jsonStrTok_pre he _ pre hpre]
      show (match jsonSkipWs (',' :: ' ' ::
          (List.intercalate (strLit ", ") ((g :: grest).map jsonQuote) ++ [']'])) with
        | ',' :: rest2 =>
          (match jsonListItemsAux fuel rest2 with
           | some (items, rem) => some (e :: items, rem)
           | none => none)
        | ']' :: rest2 => some ([e], rest2)
        | _ => none) = some (e :: g :: grest, [])
      rw [jsonSkipWs_cons (by decide)]
      show (match jsonListItemsAux fuel (' ' ::
          (List.intercalate (strLit ", ") ((g :: grest).map jsonQuote) ++ [']'])) with
        | some (items, rem) => some (e :: items, rem)
        | none => none) = some (e :: g :: grest, [])
      obtain ⟨f, hf⟩ : ∃ f, fuel = f + 1 := by
        cases fuel with
        | zero => simp at hfuel
        | succ f => exact ⟨f, rfl⟩
      subst hf
      have hsp : (' ' :: (List.intercalate (strLit ", ") ((g :: grest).map jsonQuote) ++ [']']))
          = [' '] ++ (List.intercalate (strLit ", ") ((g :: grest).map jsonQuote) ++ [']']) := rfl
      rw [hsp, ih (by simp) (fun x hx => hplain x (List.mem_cons_of_mem _ hx)) f
        (by simp only [List.length_cons] at hfuel ⊢; omega) [' ']
        (by intro c hc; simpa using hc)]

theorem jsonObjItemsAux_chunks : ∀ (pairs : List (Str × Str)), pairs ≠ [] →
    (∀ p ∈ pairs, (∀ c ∈ p.1, plainChar c = true) ∧ (∀ c ∈ p.2, plainChar c = true)) →
    ∀ (fuel : Nat), pairs.length ≤ fuel → ∀ (pre : Str), (∀ c ∈ pre, c = ' ') →
      jsonObjItemsAux (fuel + 1)
          (pre ++ (List.intercalate (strLit ", ")
            (pairs.map fun p => jsonQuote p.1 ++ strLit ": " ++ jsonQuote p.2)
            ++ [Char.ofNat 125]))
        = some (pairs, []) := by
  intro pairs
  induction pairs with
  | nil => intro hne; exact absurd rfl hne
  | cons p rest ih =>
    intro hne hplain fuel hfuel pre hpre
    obtain ⟨hek, hev⟩ := hplain p (by simp)
    cases rest with
    | nil =>
      rw [List.map_cons, List.map_nil, intercalate_single]
      have hform : pre ++ ((jsonQuote p.1 ++ strLit ": " ++ jsonQuote p.2) ++ [Char.ofNat 125])
          = pre ++ (jsonQuote p.1 ++ (':' :: ' ' :: (jsonQuote p.2 ++ [Char.ofNat 125]))) := by
        simp [List.append_assoc]
        rfl
      rw [hform]
      have key : jsonObjItemsAux (fuel + 1) (pre ++ (jsonQuote p.1 ++ (':' :: ' ' ::
            (jsonQuote p.2 ++ [Char.ofNat 125])))) =
          (match jsonStrTok (pre ++ (jsonQuote p.1 ++ (':' :: ' ' ::
            (jsonQuote p.2 ++ [Char.ofNat 125])))) with
           | none => none
           | some (key, rest) =>
             match jsonSkipWs rest with
             | ':' :: rest2 =>
               (match jsonStrTok rest2 with
                | none => none
                | some (v, rest3) =>
                  match jsonSkipWs rest3 with
                  | ',' :: rest4 =>
                    (match jsonObjItemsAux fuel rest4 with
                     | some (pairs, rem) => some ((key, v) :: pairs, rem)
                     | none => none)
                  | c :: rest4 =>
                    if c = Char.ofNat 125 then some ([(key, v)], rest4) else none
                  | [] => none)
             | _ => none) := rfl
      rw [key, jsonStrTok_pre hek _ pre hpre]
      show (match jsonSkipWs (':' :: ' ' :: (jsonQuote p.2 ++ [Char.ofNat 125])) with
        | ':' :: rest2 =>
          (match jsonStrTok rest2 with
           | none => none
           | some (v, rest3) =>
             match jsonSkipWs rest3 with
             | ',' :: rest4 =>
               (match jsonObjItemsAux fuel rest4 with
                | some (pairs, rem) => some ((p.1, v) :: pairs, rem)
                | none => none)
             | c :: rest4 =>
               if c = Char.ofNat 125 then some ([(p.1, v)], rest4) else none
             | [] => none)
        | _ => none) = some ([p], [])
      rw [jsonSkipWs_cons (by decide)]
      show (match jsonStrTok (' ' :: (jsonQuote p.2 ++ [Char.ofNat 125])) with
        | none => none
        | some (v, rest3) =>
          match jsonSkipWs rest3 with
          | ',' :: rest4 =>
            (match jsonObjItemsAux fuel rest4 with
             | some (pairs, rem) => some ((p.1, v) :: pairs, rem)
             | none => none)
          | c :: rest4 =>
            if c = Char.ofNat 125 then some ([(p.1, v)], rest4) else none
          | [] => none) = some ([p], [])
      have hsp : (' ' :: (jsonQuote p.2 ++ [Char.ofNat 125]))
          = [' '] ++ (jsonQuote p.2 ++ [Char.ofNat 125]) := rfl
      rw [hsp, jsonStrTok_pre hev _ [' '] (by intro c hc; simpa using hc)]
      show (match jsonSkipWs [Char.ofNat 125] with
        | ',' :: rest4 =>
          (match jsonObjItemsAux fuel rest4 with
           | some (pairs, rem) => some ((p.1, p.2) :: pairs, rem)
           | none => none)
        | c :: rest4 =>
          if c = Char.ofNat 125 then some ([(p.1, p.2)], rest4) else none
        | [] => none) = some ([p], [])
      rw [jsonSkipWs_cons (by decide)]
      show (if Char.ofNat 125 = Char.ofNat 125
        then some ([(p.1, p.2)], ([] : Str)) else none) = some ([p], [])
      rw [if_pos rfl]
    | cons g grest =>
      rw [List.map_cons, intercalate_cons2 _ _ _ (by simp)]
      have hform : pre ++ (((jsonQuote p.1 ++ strLit ": " ++ jsonQuote p.2) ++ strLit ", "
            ++ List.intercalate (strLit ", ")
              ((g :: grest).map fun p => jsonQuote p.1 ++ strLit ": " ++ jsonQuote p.2))
            ++ [Char.ofNat 125])
          = pre ++ (jsonQuote p.1 ++ (':' :: ' ' :: (jsonQuote p.2 ++ (',' :: ' ' ::
            (List.intercalate (strLit ", ")
              ((g :: grest).map fun p => jsonQuote p.1 ++ strLit ": " ++ jsonQuote p.2)
              ++ [Char.ofNat 125]))))) := by
        simp [List.append_assoc]
        rfl
      rw [hform]
      have key : jsonObjItemsAux (fuel + 1) (pre ++ (jsonQuote p.1 ++ (':' :: ' ' ::
            (jsonQuote p.2 ++ (',' :: ' ' ::
            (List.intercalate (strLit ", ")
              ((g :: grest).map fun p => jsonQuote p.1 ++ strLit ": " ++ jsonQuote p.2)
              ++ [Char.ofNat 125])))))) =
          (match jsonStrTok (pre ++ (jsonQuote p.1 ++ (':' :: ' ' ::
            (jsonQuote p.2 ++ (',' :: ' ' ::
            (List.intercalate (strLit ", ")
              ((g :: grest).map fun p => jsonQuote p.1 ++ strLit ": " ++ jsonQuote p.2)
              ++ [Char.ofNat 125])))))) with
           | none => none
           | some (key, rest) =>
             match jsonSkipWs rest with
             | ':' :: rest2 =>
               (match jsonStrTok rest2 with
                | none => none
                | some (v, rest3) =>
                  match jsonSkipWs rest3 with
                  | ',' :: rest4 =>
                    (match jsonObjItemsAux fuel rest4 with
                     | some (pairs, rem) => some ((key, v) :: pairs, rem)
                     | none => none)
                  | c :: rest4 =>
                    if c = Char.ofNat 125 then some ([(key, v)], rest4) else none
                  | [] => none)
             | _ => none) := rfl
      rw [key, jsonStrTok_pre hek _ pre hpre]
      show (match jsonSkipWs (':' :: ' ' :: (jsonQuote p.2 ++ (',' :: ' ' ::
          (List.intercalate (strLit ", ")
            ((g :: grest).map fun p => jsonQuote p.1 ++ strLit ": " ++ jsonQuote p.2)
            ++ [Char.ofNat 125])))) with
        | ':' :: rest2 =>
          (match jsonStrTok rest2 with
           | none => none
           | some (v, rest3) =>
             match jsonSkipWs rest3 with
             | ',' :: rest4 =>
               (match jsonObjItemsAux fuel rest4 with
                | some (pairs, rem) => some ((p.1, v) :: pairs, rem)
                | none => none)
             | c :: rest4 =>
               if c = Char.ofNat 125 then some ([(p.1, v)], rest4) else none
             | [] => none)
        | _ => none) = some (p :: g :: grest, [])
      rw [jsonSkipWs_cons (by decide)]
      show (match jsonStrTok (' ' :: (jsonQuote p.2 ++ (',' :: ' ' ::
          (List.intercalate (strLit ", ")
            ((g :: grest).map fun p => jsonQuote p.1 ++ strLit ": " ++ jsonQuote p.2)
            ++ [Char.ofNat 125])))) with
        | none => none
        | some (v, rest3) =>
          match jsonSkipWs rest3 with
          | ',' :: rest4 =>
            (match jsonObjItemsAux fuel rest4 with
             | some (pairs, rem) => some ((p.1, v) :: pairs, rem)
             | none => none)
          | c :: rest4 =>
            if c = Char.ofNat 125 then some ([(p.1, v)], rest4) else none
          | [] => none) = some (p :: g :: grest, [])
      have hsp : (' ' :: (jsonQuote p.2 ++ (',' :: ' ' ::
          (List.intercalate (strLit ", ")
            ((g :: grest).map fun p => jsonQuote p.1 ++ strLit ": " ++ jsonQuote p.2)
            ++ [Char.ofNat 125]))))
          = [' '] ++ (jsonQuote p.2 ++ (',' :: ' ' ::
          (List.intercalate (strLit ", ")
            ((g :: grest).map fun p => jsonQuote p.1 ++ strLit ": " ++ jsonQuote p.2)
            ++ [Char.ofNat 125]))) := rfl
      rw [hsp, jsonStrTok_pre hev _ [' '] (by intro c hc; simpa using hc)]
      show (match jsonSkipWs (',' :: ' ' ::
          (List.intercalate (strLit ", ")
            ((g :: grest).map fun p => jsonQuote p.1 ++ strLit ": " ++ jsonQuote p.2)
            ++ [Char.ofNat 125])) with
        | ',' :: rest4 =>
          (match jsonObjItemsAux fuel rest4 with
           | some (pairs, rem) => some ((p.1, p.2) :: pairs, rem)
           | none => none)
        | c :: rest4 =>
          if c = Char.ofNat 125 then some ([(p.1, p.2)], rest4) else none
        | [] => none) = some (p :: g :: grest, [])
      rw [jsonSkipWs_cons (by decide)]
      show (match jsonObjItemsAux fuel (' ' ::
          (List.intercalate (strLit ", ")
            ((g :: grest).map fun p => jsonQuote p.1 ++ strLit ": " ++ jsonQuote p.2)
            ++ [Char.ofNat 125])) with
        | some (pairs, rem) => some ((p.1, p.2) :: pairs, rem)
        | none => none) = some (p :: g :: grest, [])
      obtain ⟨f, hf⟩ : ∃ f, fuel = f + 1 := by
        cases fuel with
        | zero => simp at hfuel
        | succ f => exact ⟨f, rfl⟩
      subst hf
      have hsp2 : (' ' :: (List.intercalate (strLit ", ")
            ((g :: grest).map fun p => jsonQuote p.1 ++ strLit ": " ++ jsonQuote p.2)
            ++ [Char.ofNat 125]))
          = [' '] ++ (List.intercalate (strLit ", ")
            ((g :: grest).map fun p => jsonQuote p.1 ++ strLit ": " ++ jsonQuote p.2)
            ++ [Char.ofNat 125]) := rfl
      rw [hsp2, ih (by simp) (fun x hx => hplain x (List.mem_cons_of_mem _ hx)) f
        (by simp only [List.length_cons] at hfuel ⊢; omega) [' ']
        (by intro c hc; simpa using hc)]

theorem jsonListOrDict_scalar {v : Str} (hv : stableScalar v = true) :
    jsonListOrDict v = none := by
  obtain ⟨hv1, hv2, hv3, hv4, hv5, hv6⟩ := stableScalar_props hv
  obtain ⟨c, rest, hc⟩ : ∃ c rest, v = c :: rest := by
    cases v with
    | nil => exact absurd rfl hv1
    | cons a b => exact ⟨a, b, rfl⟩
  have hcw : c.isWhitespace = false := by
    have h2 := pyStrip_head hv3
    rw [hc] at h2
    simpa using h2
  have hskip : jsonSkipWs v = c :: rest := by
    rw [hc]
    apply jsonSkipWs_cons
    rintro (h | h | h | h) <;> (subst h; exact absurd hcw (by decide))
  have hcb : c ≠ '[' := fun he => hv4 (by rw [hc, he]; rfl)
  have hcb2 : c ≠ Char.ofNat 123 := fun he => hv5 (by rw [hc, he]; rfl)
  unfold jsonListOrDict
  rw [hskip]
  split
  next rest2 heq =>
    injection heq with h1 h2
    exact absurd h1 hcb
  next c2 rest2 heq =>
    injection heq with h1 h2
    subst h1
    rw [if_neg hcb2]
  next heq =>
    simp at heq

theorem jsonListOrDict_encList (items : List Str)
    (hplain : ∀ e ∈ items, ∀ c ∈ e, plainChar c = true) :
    jsonListOrDict (jsonEncList items) = some (Value.l items) := by
  cases items with
  | nil => decide
  | cons e restI =>
    have hX : jsonEncList (e :: restI)
        = '[' :: (List.intercalate (strLit ", ") ((e :: restI).map jsonQuote) ++ [']']) := rfl
    rw [hX]
    obtain ⟨T, hT⟩ : ∃ T, List.intercalate (strLit ", ") ((e :: restI).map jsonQuote)
        = jsonQuote e ++ T := by
      cases restI with
      | nil =>
        refine ⟨[], ?_⟩
        rw [List.map_cons, List.map_nil, intercalate_single, List.append_nil]
      | cons g grest =>
        refine ⟨strLit ", " ++ List.intercalate (strLit ", ") ((g :: grest).map jsonQuote), ?_⟩
        rw [List.map_cons, intercalate_cons2 _ _ _ (by simp), List.append_assoc]
    obtain ⟨Y, hY⟩ : ∃ Y, List.intercalate (strLit ", ") ((e :: restI).map jsonQuote) ++ [']']
        = '"' :: Y := by
      refine ⟨e.flatMap jsonEscapeChar ++ ['"'] ++ T ++ [']'], ?_⟩
      rw [hT]
      have hq : jsonQuote e = '"' :: (e.flatMap jsonEscapeChar ++ ['"']) := rfl
      rw [hq]
      simp [List.append_assoc]
    unfold jsonListOrDict
    rw [jsonSkipWs_cons (by decide)]
    show (match jsonSkipWs (List.intercalate (strLit ", ")
          ((e :: restI).map jsonQuote) ++ [']']) with
      | ']' :: rest2 => if jsonSkipWs rest2 = [] then some (Value.l []) else none
      | _ =>
        match jsonListItemsAux
            ((List.intercalate (strLit ", ") ((e :: restI).map jsonQuote) ++ [']']).length + 1)
            (List.intercalate (strLit ", ") ((e :: restI).map jsonQuote) ++ [']']) with
        | some (items2, rem) =>
          if jsonSkipWs rem = [] then some (Value.l items2) else none
        | none => none) = some (Value.l (e :: restI))
    rw [hY, jsonSkipWs_cons (by decide)]
    show (match jsonListItemsAux (('"' :: Y).length + 1) ('"' :: Y) with
      | some (items2, rem) =>
        if jsonSkipWs rem = [] then some (Value.l items2) else none
      | none => none) = some (Value.l (e :: restI))
    rw [← hY]
    have hlen : (e :: restI).length
        ≤ (List.intercalate (strLit ", ") ((e :: restI).map jsonQuote) ++ [']']).length := by
      have h1 := intercalate_length_ge (strLit ", ") ((e :: restI).map jsonQuote)
        (by
          intro x hx
          obtain ⟨y, hy, hye⟩ := List.mem_map.mp hx
          rw [← hye]
          have hq : jsonQuote y = '"' :: (y.flatMap jsonEscapeChar ++ ['"']) := rfl
          rw [hq]
          simp)
      rw [List.length_map] at h1
      rw [List.length_append]
      omega
    have hchunks := jsonListItemsAux_chunks (e :: restI) (by simp) hplain
      (List.intercalate (strLit ", ") ((e :: restI).map jsonQuote) ++ [']']).length
      hlen [] (by intro c hc; cases hc)
    rw [List.nil_append] at hchunks
    rw [hchunks]
    rfl

theorem jsonListOrDict_encObj (pairs : List (Str × Str)) (hp : pairs ≠ [])
    (hplain : ∀ p ∈ pairs, (∀ c ∈ p.1, plainChar c = true) ∧ (∀ c ∈ p.2, plainChar c = true)) :
    jsonListOrDict (jsonEncObj pairs) = some (Value.m pairs) := by
  obtain ⟨p, restP, hps⟩ : ∃ p restP, pairs = p :: restP := by
    cases pairs with
    | nil => exact absurd rfl hp
    | cons a b => exact ⟨a, b, rfl⟩
  subst hps
  have hX : jsonEncObj (p :: restP)
      = Char.ofNat 123 :: (List.intercalate (strLit ", ")
        ((p :: restP).map fun q => jsonQuote q.1 ++ strLit ": " ++ jsonQuote q.2)
        ++ [Char.ofNat 125]) := rfl
  rw [hX]
  obtain ⟨Y, hY⟩ : ∃ Y, List.intercalate (strLit ", ")
      ((p :: restP).map fun q => jsonQuote q.1 ++ strLit ": " ++ jsonQuote q.2)
      ++ [Char.ofNat 125] = '"' :: Y := by
    obtain ⟨T, hT⟩ : ∃ T, List.intercalate (strLit ", ")
        ((p :: restP).map fun q => jsonQuote q.1 ++ strLit ": " ++ jsonQuote q.2)
        = (jsonQuote p.1 ++ strLit ": " ++ jsonQuote p.2) ++ T := by
      cases restP with
      | nil =>
        refine ⟨[], ?_⟩
        rw [List.map_cons, List.map_nil, intercalate_single, List.append_nil]
      | cons g grest =>
        refine ⟨strLit ", " ++ List.intercalate (strLit ", ")
          ((g :: grest).map fun q => jsonQuote q.1 ++ strLit ": " ++ jsonQuote q.2), ?_⟩
        rw [List.map_cons, intercalate_cons2 _ _ _ (by simp), List.append_assoc]
    refine ⟨(p.1.flatMap jsonEscapeChar ++ ['"'] ++ (strLit ": " ++ jsonQuote p.2)) ++ T
      ++ [Char.ofNat 125], ?_⟩
    rw [hT]
    have hq : jsonQuote p.1 = '"' :: (p.1.flatMap jsonEscapeChar ++ ['"']) := rfl
    rw [hq]
    simp [List.append_assoc]
  unfold jsonListOrDict
  rw [jsonSkipWs_cons (by decide)]
  show (if Char.ofNat 123 = Char.ofNat 123 then
      (match jsonSkipWs (List.intercalate (strLit ", ")
          ((p :: restP).map fun q => jsonQuote q.1 ++ strLit ": " ++ jsonQuote q.2)
          ++ [Char.ofNat 125]) with
        | c2 :: rest2 =>
          if c2 = Char.ofNat 125 then
            if jsonSkipWs rest2 = [] then some (Value.m []) else none
          else
            match jsonObjItemsAux
                ((List.intercalate (strLit ", ")
                  ((p :: restP).map fun q => jsonQuote q.1 ++ strLit ": " ++ jsonQuote q.2)
                  ++ [Char.ofNat 125]).length + 1)
                (List.intercalate (strLit ", ")
                  ((p :: restP).map fun q => jsonQuote q.1 ++ strLit ": " ++ jsonQuote q.2)
                  ++ [Char.ofNat 125]) with
            | some (pairs2, rem) =>
              if jsonSkipWs rem = [] then some (Value.m pairs2) else none
            | none => none
        | [] => none)
    else none) = some (Value.m (p :: restP))
  rw [if_pos rfl, hY, jsonSkipWs_cons (by decide)]
  show (if ('"' : Char) = Char.ofNat 125 then
      if jsonSkipWs Y = [] then some (Value.m []) else none
    else
      match jsonObjItemsAux (('"' :: Y).length + 1) ('"' :: Y) with
      | some (pairs2, rem) =>
        if jsonSkipWs rem = [] then some (Value.m pairs2) else none
      | none => none) = some (Value.m (p :: restP))
  rw [if_neg (by decide), ← hY]
  have hlen : (p :: restP).length
      ≤ (List.intercalate (strLit ", ")
        ((p :: restP).map fun q => jsonQuote q.1 ++ strLit ": " ++ jsonQuote q.2)
        ++ [Char.ofNat 125]).length := by
    have h1 := intercalate_length_ge (strLit ", ")
      ((p :: restP).map fun q => jsonQuote q.1 ++ strLit ": " ++ jsonQuote q.2)
      (by
        intro x hx
        obtain ⟨y, hy, hye⟩ := List.mem_map.mp hx
        rw [← hye]
        have hq : jsonQuote y.1 = '"' :: (y.1.flatMap jsonEscapeChar ++ ['"']) := rfl
        rw [List.append_assoc, hq]
        simp)
    rw [List.length_map] at h1
    rw [List.length_append]
    omega
  have hchunks := jsonObjItemsAux_chunks (p :: restP) (by simp) hplain
    (List.intercalate (strLit ", ")
      ((p :: restP).map fun q => jsonQuote q.1 ++ strLit ": " ++ jsonQuote q.2)
      ++ [Char.ofNat 125]).length
    hlen [] (by intro c hc; cases hc)
  rw [List.nil_append] at hchunks
  rw [hchunks]
  rfl

theorem decodeCell_encodeCell (v : Value) (hv : stableValue v = true) :
    decodeCell (encodeCell v) = v := by
  cases v with
  | s sv =>
    have hvs : stableScalar sv = true := hv
    unfold decodeCell encodeCell
    rw [jsonListOrDict_scalar hvs]
  | l items =>
    have hvl : items.all stableItem = true := hv
    have hplain : ∀ e ∈ items, ∀ c ∈ e, plainChar c = true := by
      intro e he c hc
      exact ((stableItem_props (List.all_eq_true.mp hvl e he)).2.1 c hc).1
    unfold decodeCell encodeCell
    rw [jsonListOrDict_encList items hplain]
  | m pairs =>
    have hv3 := hv
    simp only [stableValue, Bool.and_eq_true, Bool.not_eq_true', List.all_eq_true,
      decide_eq_true_eq] at hv3
    have hpne : pairs ≠ [] := ne_nil_of_isEmpty_eq_false hv3.1.1
    have hplain : ∀ p ∈ pairs, (∀ c ∈ p.1, plainChar c = true)
        ∧ (∀ c ∈ p.2, plainChar c = true) := by
      intro p hp2
      have h2 : stableSubKey p.1 = true ∧ stableSubVal p.2 = true := by
        simpa using hv3.1.2 p hp2
      exact ⟨fun c hc => ((stableSubKey_props h2.1).2.1 c hc).1,
        fun c hc => (stableSubVal_props h2.2).2.1 c hc⟩
    unfold decodeCell encodeCell
    rw [jsonListOrDict_encObj pairs hpne hplain]

theorem lookupA_some_mem {α : Type} {l : List (Str × α)} {k : Str} {v : α}
    (h : lookupA l k = some v) : (k, v) ∈ l := by
  induction l with
  | nil => cases h
  | cons p rest ih =>
    obtain ⟨a, b⟩ := p
    have key : lookupA ((a, b) :: rest) k = if a = k then some b else lookupA rest k := rfl
    rw [key] at h
    by_cases ha : a = k
    · rw [if_pos ha] at h
      have hb : b = v := by simpa using h
      subst hb
      subst ha
      exact List.mem_cons_self _ _
    · rw [if_neg ha] at h
      exact List.mem_cons_of_mem _ (ih h)

theorem lookupA_none_forall {α : Type} {l : List (Str × α)} {k : Str}
    (h : lookupA l k = none) : ∀ p ∈ l, p.1 ≠ k := by
  induction l with
  | nil => intro p hp; cases hp
  | cons q rest ih =>
    obtain ⟨a, b⟩ := q
    have key : lookupA ((a, b) :: rest) k = if a = k then some b else lookupA rest k := rfl
    rw [key] at h
    by_cases ha : a = k
    · rw [if_pos ha] at h
      cases h
    · rw [if_neg ha] at h
      intro p hp
      rcases List.mem_cons.mp hp with he | hm
      · subst he
        exact ha
      · exact ih h p hm

theorem ensureCols_fold : ∀ (keys : List Str),
    (∀ k ∈ keys, safe_ident k = k ∧ k ≠ strLit "name" ∧ k ≠ strLit "content") →
    keys.Nodup →
    ∀ acc : List Str, (∀ k ∈ keys, k ∉ acc) →
      keys.foldl (fun cs k =>
        if safe_ident k = strLit "name" ∨ safe_ident k = strLit "content" ∨ safe_ident k ∈ cs
        then cs else cs ++ [safe_ident k]) acc = acc ++ keys := by
  intro keys
  induction keys with
  | nil => intro _ _ acc _; simp
  | cons k rest ih =>
    intro hkeys hnd acc hacc
    obtain ⟨hsk, hn1, hn2⟩ := hkeys k (by simp)
    rw [List.foldl_cons]
    have hstep : (if safe_ident k = strLit "name" ∨ safe_ident k = strLit "content"
        ∨ safe_ident k ∈ acc then acc else acc ++ [safe_ident k]) = acc ++ [k] := by
      rw [hsk, if_neg (by
        rintro (h | h | h)
        · exact hn1 h
        · exact hn2 h
        · exact hacc k (by simp) h)]
    rw [hstep]
    rw [List.nodup_cons] at hnd
    rw [ih (fun x hx => hkeys x (List.mem_cons_of_mem _ hx)) hnd.2 (acc ++ [k]) ?hfr]
    case hfr =>
      intro x hx hcon
      rcases List.mem_append.mp hcon with h2 | h2
      · exact hacc x (List.mem_cons_of_mem _ hx) h2
      · have : x = k := by simpa using h2
        subst this
        exact hnd.1 hx
    rw [List.append_assoc]
    rfl

theorem readCells_map : ∀ (entries : AList), (entries.map Prod.fst).Nodup →
    (entries.map Prod.fst).filterMap (fun col =>
      (lookupA (entries.map fun kv => (kv.1, encodeCell kv.2)) col).map
        fun v => (col, decodeCell v))
      = entries.map fun kv => (kv.1, decodeCell (encodeCell kv.2)) := by
  intro entries
  induction entries with
  | nil => intro _; rfl
  | cons kv rest ih =>
    intro hnd
    rw [List.map_cons, List.nodup_cons] at hnd
    rw [List.map_cons, List.map_cons, List.filterMap_cons]
    have hhead : lookupA ((kv.1, encodeCell kv.2) :: rest.map fun q => (q.1, encodeCell q.2))
        kv.1 = some (encodeCell kv.2) := by
      have key : lookupA ((kv.1, encodeCell kv.2) :: rest.map fun q => (q.1, encodeCell q.2))
          kv.1 = if kv.1 = kv.1 then some (encodeCell kv.2)
            else lookupA (rest.map fun q => (q.1, encodeCell q.2)) kv.1 := rfl
      rw [key, if_pos rfl]
    rw [hhead]
    have hcong : (rest.map Prod.fst).filterMap (fun col =>
        (lookupA ((kv.1, encodeCell kv.2) :: rest.map fun q => (q.1, encodeCell q.2)) col).map
          fun v => (col, decodeCell v))
        = (rest.map Prod.fst).filterMap (fun col =>
          (lookupA (rest.map fun q => (q.1, encodeCell q.2)) col).map
            fun v => (col, decodeCell v)) := by
      apply List.filterMap_congr
      intro col hcol
      have hne : ¬(kv.1 = col) := by
        intro hcon
        exact hnd.1 (hcon ▸ hcol)
      have key : lookupA ((kv.1, encodeCell kv.2) :: rest.map fun q => (q.1, encodeCell q.2))
          col = if kv.1 = col then some (encodeCell kv.2)
            else lookupA (rest.map fun q => (q.1, encodeCell q.2)) col := rfl
      rw [key, if_neg hne]
    rw [hcong, ih hnd.2]
    rfl

theorem hasSub_head_mem {c : Char} {needle s : Str}
    (h : hasSub (c :: needle) s = true) : c ∈ s := by
  unfold hasSub at h
  induction s with
  | nil =>
    unfold findSubAux at h
    rw [if_neg (by simp)] at h
    cases h
  | cons a rest ih =>
    unfold findSubAux at h
    by_cases hp : ((c :: needle) : Str).isPrefixOf (a :: rest) = true
    · have : a = c := by
        rw [List.isPrefixOf_iff_prefix, List.cons_prefix_cons] at hp
        exact hp.1.symm
      rw [this]
      exact List.mem_cons_self _ _
    · rw [if_neg hp] at h
      -- h : (findSubAux (c :: needle) rest 1).isSome = true; isSome independent of index
      have hgen : ∀ i j, (findSubAux (c :: needle) rest i).isSome
          = (findSubAux (c :: needle) rest j).isSome := by
        intro i j
        clear h ih hp
        induction rest generalizing i j with
        | nil =>
          unfold findSubAux
          rw [if_neg (by simp), if_neg (by simp)]
        | cons x xs ih2 =>
          unfold findSubAux
          by_cases hp2 : ((c :: needle) : Str).isPrefixOf (x :: xs) = true
          · rw [if_pos hp2, if_pos hp2]
            rfl
          · rw [if_neg hp2, if_neg hp2]
            exact ih2 (i + 1) (j + 1)
      rw [hgen 1 0] at h
      exact List.mem_cons_of_mem _ (ih h)

theorem mapEquiv_true {m1 m2 : AList}
    (h1 : ∀ kv ∈ m1, lookupA m2 kv.1 = some kv.2)
    (h2 : ∀ kv ∈ m2, lookupA m1 kv.1 = some kv.2) : mapEquiv m1 m2 = true := by
  unfold mapEquiv
  rw [Bool.and_eq_true, List.all_eq_true, List.all_eq_true]
  exact ⟨fun kv hkv => decide_eq_true (h1 kv hkv), fun kv hkv => decide_eq_true (h2 kv hkv)⟩

theorem foldl_preserves {α : Type} (f : KG → α → KG)
    (hf : ∀ db x, (f db x).nodes = db.nodes ∧ (f db x).tables = db.tables ∧
      (f db x).typesReg = db.typesReg ∧ (f db x).validator = db.validator) :
    ∀ (ts : List α) (db : KG), (ts.foldl f db).nodes = db.nodes ∧
      (ts.foldl f db).tables = db.tables ∧ (ts.foldl f db).typesReg = db.typesReg ∧
      (ts.foldl f db).validator = db.validator := by
  intro ts
  induction ts with
  | nil => intro db; exact ⟨rfl, rfl, rfl, rfl⟩
  | cons x xs ih =>
    intro db
    rw [List.foldl_cons]
    obtain ⟨h1, h2, h3, h4⟩ := ih (f db x)
    obtain ⟨g1, g2, g3, g4⟩ := hf db x
    exact ⟨h1.trans g1, h2.trans g2, h3.trans g3, h4.trans g4⟩

theorem syncLinks_preserves (db : KG) (n b : Str) :
    (db.syncLinks n b).nodes = db.nodes ∧ (db.syncLinks n b).tables = db.tables ∧
      (db.syncLinks n b).typesReg = db.typesReg ∧
      (db.syncLinks n b).validator = db.validator := by
  have h := foldl_preserves
    (fun (db : KG) (target : Str) =>
      { db with
        links := (db.links.filter fun r => ¬(r.source = n ∧ r.target = target))
          ++ [⟨n, target, db.resolveWikilink target true,
            (((splitlinesPy b).find? fun line =>
              hasSub (strLit "[[" ++ target ++ strLit "]]") line).map pyStrip).getD []⟩] })
    (fun db2 x => ⟨rfl, rfl, rfl, rfl⟩) (extract_wikilinks b)
    { db with links := db.links.filter fun r => r.source ≠ n }
  exact h

theorem reResolve_preserves (db : KG) (n : Str) :
    (db.reResolveLinksTo n).nodes = db.nodes ∧ (db.reResolveLinksTo n).tables = db.tables ∧
      (db.reResolveLinksTo n).typesReg = db.typesReg ∧
      (db.reResolveLinksTo n).validator = db.validator :=
  ⟨rfl, rfl, rfl, rfl⟩

theorem tableFresh_delete (db : KG) (t0 n2 ty : Str) :
    tableFresh (db.deleteFromTypeTable t0 n2) ty = tableFresh db ty := by
  unfold KG.deleteFromTypeTable tableFresh
  by_cases hk : safe_ident ty = safe_ident t0
  · rw [hk, updateTable_lookup]
    rcases hl : lookupA db.tables (safe_ident t0) with _ | tbl
    · rfl
    · rfl
  · rw [updateTable_lookup_ne _ _ _ _ hk]

theorem ensureTypeTable_ok (db : KG) (eff : Str) (keys : List Str)
    (hsafe : safe_ident eff = eff)
    (hres : ¬(eff ≠ kaybeeStr ∧ eff ∈ reservedTypeNames))
    (hfresh : tableFresh db eff = true)
    (hkeys : ∀ k ∈ keys, safe_ident k = k ∧ k ≠ strLit "name" ∧ k ≠ strLit "content")
    (hnd : keys.Nodup) :
    ∃ db3, db.ensureTypeTable eff keys = .ok db3 ∧
      db3.nodes = db.nodes ∧ db3.links = db.links ∧ db3.typesReg = db.typesReg ∧
      db3.validator = db.validator ∧
      ∃ rows0, lookupA db3.tables eff = some ⟨keys, rows0⟩ := by
  have key : db.ensureTypeTable eff keys =
      (if eff ≠ kaybeeStr ∧ eff ∈ reservedTypeNames then .error .valueError
       else if eff = kaybeeStr ∧ safe_ident eff ≠ kaybeeStr then .error .valueError
       else
         .ok { db with tables := (updateTable
           (if (lookupA db.tables (safe_ident eff)).isSome then db.tables
            else db.tables ++ [(safe_ident eff, ⟨[], []⟩)])
           (safe_ident eff)
           (fun tbl => { tbl with cols := (keys.foldl (fun cs k =>
             if safe_ident k = strLit "name" ∨ safe_ident k = strLit "content"
               ∨ safe_ident k ∈ cs
             then cs else cs ++ [safe_ident k]) tbl.cols) })) }) := rfl
  rw [key, if_neg hres, if_neg (by
    rw [hsafe]
    rintro ⟨h1, h2⟩
    exact h2 h1), hsafe]
  refine ⟨_, rfl, rfl, rfl, rfl, rfl, ?_⟩
  rw [updateTable_lookup]
  unfold tableFresh at hfresh
  rw [hsafe] at hfresh
  have hfold := ensureCols_fold keys hkeys hnd [] (by intro k hk hcon; cases hcon)
  rcases hl : lookupA db.tables eff with _ | tbl
  · rw [if_neg (by simp)]
    rw [lookupA_append_right _ _ _ (lookupA_none_forall hl)]
    have hhead : lookupA [(eff, (⟨[], []⟩ : Table))] eff = some ⟨[], []⟩ := by
      have key2 : lookupA [(eff, (⟨[], []⟩ : Table))] eff =
          if eff = eff then some (⟨[], []⟩ : Table) else lookupA [] eff := rfl
      rw [key2, if_pos rfl]
    rw [hhead]
    refine ⟨[], ?_⟩
    show some (Table.mk (keys.foldl (fun cs k =>
        if safe_ident k = strLit "name" ∨ safe_ident k = strLit "content" ∨ safe_ident k ∈ cs
        then cs else cs ++ [safe_ident k]) []) []) = some (Table.mk keys [])
    rw [hfold, List.nil_append]
  · rw [hl] at hfresh
    have hcols : tbl.cols = [] := by simpa using hfresh
    rw [if_pos (show (some tbl).isSome = true from rfl), hl]
    refine ⟨tbl.rows, ?_⟩
    show some (Table.mk (keys.foldl (fun cs k =>
        if safe_ident k = strLit "name" ∨ safe_ident k = strLit "content" ∨ safe_ident k ∈ cs
        then cs else cs ++ [safe_ident k]) tbl.cols) tbl.rows) = some (Table.mk keys tbl.rows)
    rw [hcols, hfold, List.nil_append]

theorem upsertTypeRow_ok (db : KG) (eff n body : Str) (meta : AList)
    (hsafe : safe_ident eff = eff)
    (hres : ¬(eff ≠ kaybeeStr ∧ eff ∈ reservedTypeNames))
    (hfresh : tableFresh db eff = true)
    (hkeys : ∀ k ∈ (meta.filter fun kv => kv.1 ≠ typeStr).map Prod.fst,
      safe_ident k = k ∧ k ≠ strLit "name" ∧ k ≠ strLit "content")
    (hnd : ((meta.filter fun kv => kv.1 ≠ typeStr).map Prod.fst).Nodup) :
    ∃ db4 rows2, db.upsertTypeRow eff n body meta = (none, db4) ∧
      db4.nodes = db.nodes ∧ db4.links = db.links ∧ db4.typesReg = db.typesReg ∧
      db4.validator = db.validator ∧
      lookupA db4.tables eff
        = some ⟨(meta.filter fun kv => kv.1 ≠ typeStr).map Prod.fst, rows2⟩ ∧
      rowFind rows2 n = some ⟨n, body,
        (meta.filter fun kv => kv.1 ≠ typeStr).map fun kv => (kv.1, encodeCell kv.2)⟩ := by
  obtain ⟨db3, hok, h1, h2, h3, h4, rows0, h5⟩ :=
    ensureTypeTable_ok db eff _ hsafe hres hfresh hkeys hnd
  have hmapid : (((meta.filter fun kv => kv.1 ≠ typeStr).map Prod.fst).map safe_ident)
      = (meta.filter fun kv => kv.1 ≠ typeStr).map Prod.fst := by
    have hc : (((meta.filter fun kv => kv.1 ≠ typeStr).map Prod.fst).map safe_ident)
        = (((meta.filter fun kv => kv.1 ≠ typeStr).map Prod.fst).map id) :=
      List.map_congr_left fun k hk => (hkeys k hk).1
    rw [hc, List.map_id]
  have hnodup2 : (strLit "name" :: strLit "content"
      :: (meta.filter fun kv => kv.1 ≠ typeStr).map Prod.fst).Nodup := by
    rw [List.nodup_cons, List.nodup_cons]
    refine ⟨?_, ?_, hnd⟩
    · intro hcon
      rcases List.mem_cons.mp hcon with he | hm
      · exact absurd he (by decide)
      · exact (hkeys _ hm).2.1 rfl
    · intro hcon
      exact (hkeys _ hcon).2.2 rfl
  have key : db.upsertTypeRow eff n body meta =
      (match db.ensureTypeTable eff ((meta.filter fun kv => kv.1 ≠ typeStr).map Prod.fst) with
       | .error e => (some e, db)
       | .ok db2 =>
         if ¬(strLit "name" :: strLit "content"
             :: (((meta.filter fun kv => kv.1 ≠ typeStr).map Prod.fst).map safe_ident)).Nodup then
           (some .storageError, db2)
         else
           (none, { db2 with
             tables := (updateTable db2.tables (safe_ident eff) fun tbl =>
               { tbl with rows := (rowReplace tbl.rows
                 ⟨n, body,
                   ((((meta.filter fun kv => kv.1 ≠ typeStr).map Prod.fst).map safe_ident).zip
                     ((meta.filter fun kv => kv.1 ≠ typeStr).map fun kv => encodeCell kv.2))⟩) }) })) :=
    rfl
  have heq : db.upsertTypeRow eff n body meta =
      (none, { db3 with
        tables := (updateTable db3.tables eff fun tbl =>
          { tbl with rows := (rowReplace tbl.rows
            ⟨n, body, (meta.filter fun kv => kv.1 ≠ typeStr).map
              fun kv => (kv.1, encodeCell kv.2)⟩) }) }) := by
    rw [key, hok]
    show (if ¬(strLit "name" :: strLit "content"
          :: (((meta.filter fun kv => kv.1 ≠ typeStr).map Prod.fst).map safe_ident)).Nodup then
        (some KgError.storageError, db3)
      else
        (none, { db3 with
          tables := (updateTable db3.tables (safe_ident eff) fun tbl =>
            { tbl with rows := (rowReplace tbl.rows
              ⟨n, body,
                ((((meta.filter fun kv => kv.1 ≠ typeStr).map Prod.fst).map safe_ident).zip
                  ((meta.filter fun kv => kv.1 ≠ typeStr).map fun kv => encodeCell kv.2))⟩) }) }))
      = (none, { db3 with
          tables := (updateTable db3.tables eff fun tbl =>
            { tbl with rows := (rowReplace tbl.rows
              ⟨n, body, (meta.filter fun kv => kv.1 ≠ typeStr).map
                fun kv => (kv.1, encodeCell kv.2)⟩) }) })
    rw [hmapid, hsafe, if_neg (fun hcon => hcon hnodup2)]
    have hzip : (((meta.filter fun kv => kv.1 ≠ typeStr).map Prod.fst).zip
        ((meta.filter fun kv => kv.1 ≠ typeStr).map fun kv => encodeCell kv.2))
        = (meta.filter fun kv => kv.1 ≠ typeStr).map fun kv => (kv.1, encodeCell kv.2) := by
      rw [List.zip_map']
    rw [hzip]
  refine ⟨_, rowReplace rows0 ⟨n, body, (meta.filter fun kv => kv.1 ≠ typeStr).map
      fun kv => (kv.1, encodeCell kv.2)⟩, heq, h1, h2, h3, h4, ?_, ?_⟩
  · show lookupA (updateTable db3.tables eff fun tbl =>
        { tbl with rows := (rowReplace tbl.rows
          ⟨n, body, (meta.filter fun kv => kv.1 ≠ typeStr).map
            fun kv => (kv.1, encodeCell kv.2)⟩) }) eff
      = some ⟨(meta.filter fun kv => kv.1 ≠ typeStr).map Prod.fst,
        rowReplace rows0 ⟨n, body, (meta.filter fun kv => kv.1 ≠ typeStr).map
          fun kv => (kv.1, encodeCell kv.2)⟩⟩
    rw [updateTable_lookup, h5]
    rfl
  · exact rowFind_rowReplace rows0 _

theorem readNodeData_after (db : KG) (n eff : Str) (meta : AList) (body : Str)
    (rows2 : List Row) (hsafe : safe_ident eff = eff)
    (hn : lookupA db.nodes n = some eff)
    (ht : lookupA db.tables eff
      = some ⟨(meta.filter fun kv => kv.1 ≠ typeStr).map Prod.fst, rows2⟩)
    (hr : rowFind rows2 n = some ⟨n, body,
      (meta.filter fun kv => kv.1 ≠ typeStr).map fun kv => (kv.1, encodeCell kv.2)⟩)
    (hnd : ((meta.filter fun kv => kv.1 ≠ typeStr).map Prod.fst).Nodup) :
    db.readNodeData n = .ok (body,
      ((meta.filter fun kv => kv.1 ≠ typeStr).map
        fun kv => (kv.1, decodeCell (encodeCell kv.2)))
      ++ (if eff = kaybeeStr then [] else [(typeStr, Value.s eff)])) := by
  unfold KG.readNodeData
  rw [hn]
  show (match lookupA db.tables (safe_ident eff) with
    | none => Except.ok (([] : Str),
        if eff = kaybeeStr then ([] : AList) else [(typeStr, Value.s eff)])
    | some tbl =>
      match rowFind tbl.rows n with
      | none => Except.ok (([] : Str),
          if eff = kaybeeStr then ([] : AList) else [(typeStr, Value.s eff)])
      | some row =>
        Except.ok (row.content,
          (tbl.cols.filterMap fun col =>
            (lookupA row.cells col).map fun v => (col, decodeCell v))
          ++ (if eff = kaybeeStr then ([] : AList) else [(typeStr, Value.s eff)]))) = _
  rw [hsafe, ht]
  show (match rowFind rows2 n with
    | none => Except.ok (([] : Str),
        if eff = kaybeeStr then ([] : AList) else [(typeStr, Value.s eff)])
    | some row =>
      Except.ok (row.content,
        (((meta.filter fun (kv : Str × Value) => kv.1 ≠ typeStr).map Prod.fst).filterMap
          fun col => (lookupA row.cells col).map fun v => (col, decodeCell v))
        ++ (if eff = kaybeeStr then ([] : AList) else [(typeStr, Value.s eff)]))) = _
  rw [hr]
  show Except.ok (body,
      (((meta.filter fun (kv : Str × Value) => kv.1 ≠ typeStr).map Prod.fst).filterMap
        fun col => (lookupA ((meta.filter fun (kv : Str × Value) => kv.1 ≠ typeStr).map
          fun (kv : Str × Value) => (kv.1, encodeCell kv.2)) col).map
            fun v => (col, decodeCell v))
      ++ (if eff = kaybeeStr then ([] : AList) else [(typeStr, Value.s eff)])) = _
  rw [readCells_map _ hnd]

theorem effectiveType_stable (meta : AList) (hm : stableMeta meta = true) :
    (lookupA meta typeStr = none ∧ effectiveType meta = some kaybeeStr) ∨
    (∃ ty, lookupA meta typeStr = some (Value.s ty) ∧ effectiveType meta = some ty ∧
      ty ≠ [] ∧ (∀ c ∈ ty, keyCharOk c = true) ∧ ty ∉ reservedTypeNames ∧ ty ≠ kaybeeStr) := by
  have hm2 := hm
  simp only [stableMeta, Bool.and_eq_true, List.all_eq_true, decide_eq_true_eq] at hm2
  rcases hl : lookupA meta typeStr with _ | val
  · left
    refine ⟨rfl, ?_⟩
    unfold effectiveType
    rw [hl]
  · right
    have hmem := lookupA_some_mem hl
    have hent := hm2.1 (typeStr, val) hmem
    unfold stableEntry at hent
    simp only [Bool.and_eq_true, Bool.or_eq_true, decide_eq_true_eq] at hent
    rcases hent.2 with hcon | hmatch
    · exact absurd rfl hcon
    · cases val with
      | s ty =>
        simp only [Bool.and_eq_true, Bool.not_eq_true', List.all_eq_true,
          decide_eq_true_eq] at hmatch
        have htyne : ty ≠ [] := ne_nil_of_isEmpty_eq_false hmatch.1.1.1
        refine ⟨ty, rfl, ?_, htyne, hmatch.1.1.2, hmatch.1.2, hmatch.2⟩
        unfold effectiveType
        rw [hl]
        show some (if ty = [] then kaybeeStr else ty) = some ty
        rw [if_neg htyne]
      | l items => simp at hmatch
      | m pairs => simp at hmatch

theorem stableMeta_entry_facts (meta : AList) (hm : stableMeta meta = true) :
    (∀ kv ∈ meta, stableKey kv.1 = true ∧ stableValue kv.2 = true) ∧
      (meta.map Prod.fst).Nodup := by
  have hm2 := hm
  simp only [stableMeta, Bool.and_eq_true, List.all_eq_true, decide_eq_true_eq] at hm2
  refine ⟨?_, hm2.2⟩
  intro kv hkv
  have hent := hm2.1 kv hkv
  unfold stableEntry at hent
  simp only [Bool.and_eq_true] at hent
  exact ⟨hent.1.1, hent.1.2⟩

theorem stableMeta_filter_keys (meta : AList) (hm : stableMeta meta = true) :
    (∀ k ∈ (meta.filter fun kv => kv.1 ≠ typeStr).map Prod.fst,
      safe_ident k = k ∧ k ≠ strLit "name" ∧ k ≠ strLit "content") ∧
      ((meta.filter fun kv => kv.1 ≠ typeStr).map Prod.fst).Nodup := by
  obtain ⟨hall, hnd⟩ := stableMeta_entry_facts meta hm
  constructor
  · intro k hk
    obtain ⟨kv, hkv, hke⟩ := List.mem_map.mp hk
    have hkv2 : kv ∈ meta := List.mem_of_mem_filter hkv
    obtain ⟨hk1, hk2, hk3, hk4⟩ := stableKey_props (hall kv hkv2).1
    subst hke
    exact ⟨safe_ident_id _ hk2, hk3, hk4⟩
  · exact ((List.filter_sublist meta).map Prod.fst).nodup hnd

theorem upsert_pipeline_read (db1 : KG) (n eff t : Str)
    (hsafe : safe_ident eff = eff)
    (hres : ¬(eff ≠ kaybeeStr ∧ eff ∈ reservedTypeNames))
    (htf1 : tableFresh db1 eff = true)
    (hkeys : ∀ k ∈ ((parse_frontmatter t).1.filter fun kv => kv.1 ≠ typeStr).map Prod.fst,
      safe_ident k = k ∧ k ≠ strLit "name" ∧ k ≠ strLit "content")
    (hndk : (((parse_frontmatter t).1.filter fun kv => kv.1 ≠ typeStr).map Prod.fst).Nodup) :
    ∃ db4, { db1 with nodes := nodeUpsert db1.nodes n eff }.upsertTypeRow eff n
        (parse_frontmatter t).2 (parse_frontmatter t).1 = (none, db4) ∧
      (((if eff ≠ kaybeeStr then
          { db4 with typesReg := (if eff ∈ db4.typesReg then db4.typesReg
            else db4.typesReg ++ [eff]) }
        else db4).syncLinks n (parse_frontmatter t).2).reResolveLinksTo n).readNodeData n
        = Except.ok ((parse_frontmatter t).2,
          (((parse_frontmatter t).1.filter fun kv => kv.1 ≠ typeStr).map
            fun kv => (kv.1, decodeCell (encodeCell kv.2)))
          ++ (if eff = kaybeeStr then [] else [(typeStr, Value.s eff)])) := by
  obtain ⟨db4, rows2, hupeq, hn4, hl4, hr4, hv4, ht4, hrow4⟩ :=
    upsertTypeRow_ok { db1 with nodes := nodeUpsert db1.nodes n eff } eff n
      (parse_frontmatter t).2 (parse_frontmatter t).1 hsafe hres htf1 hkeys hndk
  refine ⟨db4, hupeq, ?_⟩
  have hdb5n : (if eff ≠ kaybeeStr then
      { db4 with typesReg := (if eff ∈ db4.typesReg then db4.typesReg
        else db4.typesReg ++ [eff]) }
    else db4).nodes = db4.nodes := by
    split_ifs <;> rfl
  have hdb5t : (if eff ≠ kaybeeStr then
      { db4 with typesReg := (if eff ∈ db4.typesReg then db4.typesReg
        else db4.typesReg ++ [eff]) }
    else db4).tables = db4.tables := by
    split_ifs <;> rfl
  obtain ⟨hsn, hst, hs3, hs4⟩ := syncLinks_preserves (if eff ≠ kaybeeStr then
      { db4 with typesReg := (if eff ∈ db4.typesReg then db4.typesReg
        else db4.typesReg ++ [eff]) }
    else db4) n (parse_frontmatter t).2
  apply readNodeData_after _ n eff (parse_frontmatter t).1 (parse_frontmatter t).2 rows2 hsafe
    ?hn7 ?ht7 hrow4 hndk
  case hn7 =>
    rw [(reResolve_preserves _ _).1, hsn, hdb5n, hn4]
    exact nodeUpsert_lookup db1.nodes n eff
  case ht7 =>
    rw [(reResolve_preserves _ _).2.1, hst, hdb5t]
    exact ht4

theorem writeNode_success_read (db : KG) (n t : Str)
    (hval : db.validator = none)
    (hm : stableMeta (parse_frontmatter t).1 = true)
    (htf : tableFresh db ((effectiveType (parse_frontmatter t).1).getD kaybeeStr) = true) :
    ∃ eff, effectiveType (parse_frontmatter t).1 = some eff ∧
      (eff = kaybeeStr → lookupA (parse_frontmatter t).1 typeStr = none) ∧
      (eff ≠ kaybeeStr → lookupA (parse_frontmatter t).1 typeStr = some (Value.s eff)) ∧
      (db.writeNode n t).1 = none ∧
      (db.writeNode n t).2.readNodeData n = Except.ok ((parse_frontmatter t).2,
        (((parse_frontmatter t).1.filter fun kv => kv.1 ≠ typeStr).map
          fun kv => (kv.1, decodeCell (encodeCell kv.2)))
        ++ (if eff = kaybeeStr then [] else [(typeStr, Value.s eff)])) := by
  obtain ⟨hkeys, hndk⟩ := stableMeta_filter_keys _ hm
  obtain ⟨eff, heff, hsafe, hres, htypefacts⟩ : ∃ eff,
      effectiveType (parse_frontmatter t).1 = some eff ∧ safe_ident eff = eff ∧
      ¬(eff ≠ kaybeeStr ∧ eff ∈ reservedTypeNames) ∧
      ((eff = kaybeeStr → lookupA (parse_frontmatter t).1 typeStr = none) ∧
        (eff ≠ kaybeeStr → lookupA (parse_frontmatter t).1 typeStr = some (Value.s eff))) := by
    rcases effectiveType_stable _ hm with ⟨hnone, heff⟩ |
      ⟨ty, hsome, heff, htyne, htyk, htyres, htykb⟩
    · exact ⟨kaybeeStr, heff, by decide, fun hcon => hcon.1 rfl,
        fun _ => hnone, fun hcon => absurd rfl hcon⟩
    · exact ⟨ty, heff, safe_ident_id ty htyk, fun hcon => htyres hcon.2,
        fun hcon => absurd hcon htykb, fun _ => hsome⟩
  have htf2 : tableFresh db eff = true := by
    rw [heff] at htf
    exact htf
  refine ⟨eff, heff, htypefacts.1, htypefacts.2, ?_⟩
  rcases hold : lookupA db.nodes n with _ | t0
  · obtain ⟨db4, hupeq, hread⟩ := upsert_pipeline_read db n eff t hsafe hres htf2 hkeys hndk
    have hw : db.writeNode n t = (none,
        ((if eff ≠ kaybeeStr then
            { db4 with typesReg := (if eff ∈ db4.typesReg then db4.typesReg
              else db4.typesReg ++ [eff]) }
          else db4).syncLinks n (parse_frontmatter t).2).reResolveLinksTo n) := by
      rw [hval] at hupeq
      simp only [KG.writeNode, hval, heff, hold]
      rw [if_neg (by simp), hupeq]
    rw [hw]
    exact ⟨rfl, hread⟩
  · by_cases hte : t0 ≠ eff
    · have htf1 : tableFresh (db.deleteFromTypeTable t0 n) eff = true := by
        rw [tableFresh_delete]
        exact htf2
      obtain ⟨db4, hupeq, hread⟩ :=
        upsert_pipeline_read (db.deleteFromTypeTable t0 n) n eff t hsafe hres htf1 hkeys hndk
      have hw : db.writeNode n t = (none,
          ((if eff ≠ kaybeeStr then
              { db4 with typesReg := (if eff ∈ db4.typesReg then db4.typesReg
                else db4.typesReg ++ [eff]) }
            else db4).syncLinks n (parse_frontmatter t).2).reResolveLinksTo n) := by
        simp only [KG.writeNode, hval, heff, hold]
        rw [if_neg (by simp), if_pos hte, hupeq]
      rw [hw]
      exact ⟨rfl, hread⟩
    · obtain ⟨db4, hupeq, hread⟩ := upsert_pipeline_read db n eff t hsafe hres htf2 hkeys hndk
      have hw : db.writeNode n t = (none,
          ((if eff ≠ kaybeeStr then
              { db4 with typesReg := (if eff ∈ db4.typesReg then db4.typesReg
                else db4.typesReg ++ [eff]) }
            else db4).syncLinks n (parse_frontmatter t).2).reResolveLinksTo n) := by
        simp only [KG.writeNode, hval, heff, hold]
        rw [if_neg (by simp), if_neg hte, hupeq]
      rw [hw]
      exact ⟨rfl, hread⟩

theorem cat_of_read (db : KG) (n body : Str) (mf : AList)
    (h : db.readNodeData n = .ok (body, mf)) :
    db.cat n = .ok (if mf ≠ [] then reconstruct mf body else body) := by
  unfold KG.cat
  rw [h]
  show (if mf ≠ [] then (pure (reconstruct mf body) : Except KgError Str) else pure body)
    = .ok (if mf ≠ [] then reconstruct mf body else body)
  split_ifs with h1 <;> rfl

/-- C4 corrected: the round trip holds only for stable content.  With no
validator attached, a normalized name, a stable attribute map (identifier
keys, plain scalar/list/dict values, distinct keys, an identifier `type`
distinct from the reserved and implicit names), a body that neither
starts with a newline nor (when the map is empty) itself parses as
frontmatter, and a data table for the effective type that does not yet
carry attribute columns, `write(n, t)` succeeds and reading `n` back
yields a text whose frontmatter parse equals the parse of `t` as a map
and whose body equals `t`'s body. -/
theorem C4_write_read_roundtrip (db : KG) (n t : Str)
    (hval : db.validator = none) (hn : slugify n = n)
    (hm : stableMeta (parse_frontmatter t).1 = true)
    (hb : stableBody (parse_frontmatter t).1 (parse_frontmatter t).2 = true)
    (htf : tableFresh db ((effectiveType (parse_frontmatter t).1).getD kaybeeStr) = true) :
    (db.write n t).1 = none ∧ roundtripChecks (db.write n t).2 n t = true := by
  have hwn : db.write n t = db.writeNode n t := by
    unfold KG.write
    rw [hn]
  obtain ⟨eff, heff, htkb, htnkb, hok, hread⟩ := writeNode_success_read db n t hval hm htf
  obtain ⟨hall, hnd⟩ := stableMeta_entry_facts _ hm
  obtain ⟨hkeys, hndk⟩ := stableMeta_filter_keys _ hm
  have hentr : (((parse_frontmatter t).1.filter fun kv => kv.1 ≠ typeStr).map
      fun kv => (kv.1, decodeCell (encodeCell kv.2)))
      = (parse_frontmatter t).1.filter fun kv => kv.1 ≠ typeStr := by
    have hc : (((parse_frontmatter t).1.filter fun kv => kv.1 ≠ typeStr).map
        fun kv => (kv.1, decodeCell (encodeCell kv.2)))
        = (((parse_frontmatter t).1.filter fun kv => kv.1 ≠ typeStr).map id) :=
      List.map_congr_left fun kv hkv => by
        rw [decodeCell_encodeCell kv.2 (hall kv (List.mem_of_mem_filter hkv)).2]
        rfl
    rw [hc, List.map_id]
  rw [hentr] at hread
  rw [hwn]
  refine ⟨hok, ?_⟩
  have hb2 := hb
  simp only [stableBody, Bool.and_eq_true, Bool.or_eq_true, Bool.not_eq_true',
    decide_eq_true_eq, beq_iff_eq] at hb2
  by_cases hme : (parse_frontmatter t).1 = []
  · have heffk : eff = kaybeeStr := by
      rw [hme] at heff
      have h0 : effectiveType [] = some kaybeeStr := rfl
      rw [h0] at heff
      exact (Option.some_inj.mp heff).symm
    rw [hme, heffk] at hread
    have hread2 : (db.writeNode n t).2.readNodeData n
        = .ok ((parse_frontmatter t).2, []) := by
      simpa using hread
    have hcat := cat_of_read _ _ _ _ hread2
    rw [if_neg (by simp)] at hcat
    unfold roundtripChecks catParse
    rw [hcat]
    show (match some (parse_frontmatter (parse_frontmatter t).2) with
      | some p => mapEquiv p.1 (parse_frontmatter t).1 && p.2 == (parse_frontmatter t).2
      | none => false) = true
    have hbp : parse_frontmatter (parse_frontmatter t).2 = ([], (parse_frontmatter t).2) := by
      rcases hb2.2 with hcon | hp
      · rw [hme] at hcon
        simp at hcon
      · exact hp
    rw [hbp, hme]
    simp [mapEquiv]
  · by_cases hek : eff = kaybeeStr
    · have hltn : lookupA (parse_frontmatter t).1 typeStr = none := htkb hek
      have hfilter : ((parse_frontmatter t).1.filter fun kv => kv.1 ≠ typeStr)
          = (parse_frontmatter t).1 := by
        apply List.filter_eq_self.mpr
        intro kv hkv
        exact decide_eq_true (lookupA_none_forall hltn kv hkv)
      rw [hek, hfilter] at hread
      have hread2 : (db.writeNode n t).2.readNodeData n
          = .ok ((parse_frontmatter t).2, (parse_frontmatter t).1) := by
        simpa using hread
      have hcat := cat_of_read _ _ _ _ hread2
      rw [if_pos hme] at hcat
      have hparse := parse_reconstruct (parse_frontmatter t).1 (parse_frontmatter t).2
        hall hnd hme hb2.1
      unfold roundtripChecks catParse
      rw [hcat]
      show (match some (parse_frontmatter
          (reconstruct (parse_frontmatter t).1 (parse_frontmatter t).2)) with
        | some p => mapEquiv p.1 (parse_frontmatter t).1 && p.2 == (parse_frontmatter t).2
        | none => false) = true
      rw [hparse]
      have hme2 : mapEquiv (parse_frontmatter t).1 (parse_frontmatter t).1 = true :=
        mapEquiv_true (fun kv hkv => lookupA_self_of_nodup _ hnd kv hkv)
          (fun kv hkv => lookupA_self_of_nodup _ hnd kv hkv)
      simp [hme2]
    · have hlts : lookupA (parse_frontmatter t).1 typeStr = some (Value.s eff) := htnkb hek
      have htymem : (typeStr, Value.s eff) ∈ (parse_frontmatter t).1 := lookupA_some_mem hlts
      have hread2 : (db.writeNode n t).2.readNodeData n
          = .ok ((parse_frontmatter t).2,
            ((parse_frontmatter t).1.filter fun kv => kv.1 ≠ typeStr)
              ++ [(typeStr, Value.s eff)]) := by
        rw [hread, if_neg hek]
      have hMne : ((parse_frontmatter t).1.filter fun kv => kv.1 ≠ typeStr)
          ++ [(typeStr, Value.s eff)] ≠ [] :=
        List.append_ne_nil_of_right_ne_nil _ (List.cons_ne_nil _ _)
      have hcat := cat_of_read _ _ _ _ hread2
      rw [if_pos hMne] at hcat
      have hallM : ∀ kv ∈ ((parse_frontmatter t).1.filter fun kv => kv.1 ≠ typeStr)
          ++ [(typeStr, Value.s eff)], stableKey kv.1 = true ∧ stableValue kv.2 = true := by
        intro kv hkv
        rcases List.mem_append.mp hkv with h2 | h2
        · exact hall kv (List.mem_of_mem_filter h2)
        · have hkve : kv = (typeStr, Value.s eff) := List.mem_singleton.mp h2
          subst hkve
          exact hall _ htymem
      have hndM : ((((parse_frontmatter t).1.filter fun kv => kv.1 ≠ typeStr)
          ++ [(typeStr, Value.s eff)]).map Prod.fst).Nodup := by
        rw [List.map_append, List.nodup_append]
        refine ⟨hndk, by simp, ?_⟩
        intro x hx hx2
        have hxe : x = typeStr := List.mem_singleton.mp hx2
        subst hxe
        obtain ⟨kv, hkv, hke⟩ := List.mem_map.mp hx
        exact (of_decide_eq_true (List.mem_filter.mp hkv).2) hke
      have hparse := parse_reconstruct
        (((parse_frontmatter t).1.filter fun kv => kv.1 ≠ typeStr)
          ++ [(typeStr, Value.s eff)])
        (parse_frontmatter t).2 hallM hndM hMne hb2.1
      unfold roundtripChecks catParse
      rw [hcat]
      show (match some (parse_frontmatter (reconstruct
          (((parse_frontmatter t).1.filter fun kv => kv.1 ≠ typeStr)
            ++ [(typeStr, Value.s eff)]) (parse_frontmatter t).2)) with
        | some p => mapEquiv p.1 (parse_frontmatter t).1 && p.2 == (parse_frontmatter t).2
        | none => false) = true
      rw [hparse]
      have hmeq : mapEquiv (((parse_frontmatter t).1.filter fun kv => kv.1 ≠ typeStr)
          ++ [(typeStr, Value.s eff)]) (parse_frontmatter t).1 = true := by
        apply mapEquiv_true
        · intro kv hkv
          rcases List.mem_append.mp hkv with h2 | h2
          · exact lookupA_self_of_nodup _ hnd kv (List.mem_of_mem_filter h2)
          · have hkve : kv = (typeStr, Value.s eff) := List.mem_singleton.mp h2
            subst hkve
            exact hlts
        · intro kv hkv
          by_cases hket : kv.1 = typeStr
          · have h3 : lookupA (parse_frontmatter t).1 kv.1 = some kv.2 :=
              lookupA_self_of_nodup _ hnd kv hkv
            rw [hket] at h3
            rw [hlts] at h3
            have hkv2 : kv.2 = Value.s eff := (Option.some_inj.mp h3).symm
            rw [hket, hkv2]
            rw [lookupA_append_right _ _ _ (fun p hp =>
              of_decide_eq_true (List.mem_filter.mp hp).2)]
            have keyx : lookupA [(typeStr, Value.s eff)] typeStr
                = if typeStr = typeStr then some (Value.s eff) else lookupA [] typeStr := rfl
            rw [keyx, if_pos rfl]
          · have hfe : lookupA ((parse_frontmatter t).1.filter fun kv => kv.1 ≠ typeStr) kv.1
                = some kv.2 := by
              rw [lookupA_filter_ne _ _ _ hket]
              exact lookupA_self_of_nodup _ hnd kv hkv
            exact lookupA_append_left hfe
      show (mapEquiv (((parse_frontmatter t).1.filter fun kv => kv.1 ≠ typeStr)
          ++ [(typeStr, Value.s eff)]) (parse_frontmatter t).1
        && ((parse_frontmatter t).2 == (parse_frontmatter t).2)) = true
      rw [hmeq, beq_self_eq_true]
      rfl

/-- Counterexample to C4 as stated: the claim quantifies over every text
`t`, but a list item containing a quoted comma does not survive the
round trip.  Writing `---\nk: ["a, b"]\n---\nbody` succeeds, yet the
text read back parses the single-item list `["a, b"]` as the two-item
list `["a", "b"]`, so the re-parsed map differs structurally from the
map parsed from `t`. -/
theorem C4_counterexample :
    (KG.init.write (strLit "note") (strLit "---\nk: [\"a, b\"]\n---\nbody")).1 = none ∧
      parse_frontmatter (strLit "---\nk: [\"a, b\"]\n---\nbody")
        = ([(strLit "k", Value.l [strLit "a, b"])], strLit "body") ∧
      catParse (KG.init.write (strLit "note")
          (strLit "---\nk: [\"a, b\"]\n---\nbody")).2 (strLit "note")
        = some ([(strLit "k", Value.l [strLit "a", strLit "b"])], strLit "body") ∧
      roundtripChecks (KG.init.write (strLit "note")
          (strLit "---\nk: [\"a, b\"]\n---\nbody")).2
        (strLit "note") (strLit "---\nk: [\"a, b\"]\n---\nbody") = false := by
  refine ⟨by decide, by decide, by decide, by decide⟩

/-- Witness for the corrected C4 theorem at a concrete store and text
covering scalar, list and dict attribute values. -/
theorem C4_witness :
    (KG.init.validator = none ∧
      slugify (strLit "note") = strLit "note" ∧
      stableMeta (parse_frontmatter (strLit "---\ntype: concept\ntags: [a, b]\nmeta:\n  k: v\ntitle: My Title\n---\nBody text.")).1 = true ∧
      stableBody (parse_frontmatter (strLit "---\ntype: concept\ntags: [a, b]\nmeta:\n  k: v\ntitle: My Title\n---\nBody text.")).1
        (parse_frontmatter (strLit "---\ntype: concept\ntags: [a, b]\nmeta:\n  k: v\ntitle: My Title\n---\nBody text.")).2 = true ∧
      tableFresh KG.init ((effectiveType (parse_frontmatter (strLit "---\ntype: concept\ntags: [a, b]\nmeta:\n  k: v\ntitle: My Title\n---\nBody text.")).1).getD kaybeeStr) = true) ∧
    ((KG.init.write (strLit "note") (strLit "---\ntype: concept\ntags: [a, b]\nmeta:\n  k: v\ntitle: My Title\n---\nBody text.")).1 = none ∧
      roundtripChecks (KG.init.write (strLit "note") (strLit "---\ntype: concept\ntags: [a, b]\nmeta:\n  k: v\ntitle: My Title\n---\nBody text.")).2
        (strLit "note") (strLit "---\ntype: concept\ntags: [a, b]\nmeta:\n  k: v\ntitle: My Title\n---\nBody text.") = true) :=
  ⟨⟨rfl, by decide, by decide, by decide, by decide⟩,
    C4_write_read_roundtrip KG.init (strLit "note")
      (strLit "---\ntype: concept\ntags: [a, b]\nmeta:\n  k: v\ntitle: My Title\n---\nBody text.")
      rfl (by decide) (by decide) (by decide) (by decide)⟩

end Kaybee